import Mathlib

/-!
Formal model of the HTTP traffic sanitizer of the `httpclient` package
(`validator.go`'s `Sanitizer`, `sanitizer_no_regex.go`'s `SanitizerNoRegex`,
and the `LoggingRoundTripper` interceptor), as a shallow embedding.

Go strings and byte slices are modelled as `List Char`; all inputs of
interest are ASCII, where Go's byte indexing and Lean's character indexing
coincide.  Go `int` sizes are modelled as `Nat` (sizes are non-negative).
Each definition is translated from the corresponding Go function and keeps
its name.
-/

set_option maxRecDepth 100000

namespace Httpclient

/-- Go strings / byte slices, as character lists (ASCII-faithful). -/
abbrev Chars := List Char

/-- ASCII decimal digit test. -/
def isDigitC (c : Char) : Bool := '0' ≤ c && c ≤ '9'

/-- ASCII uppercase letter test. -/
def isUpperC (c : Char) : Bool := 'A' ≤ c && c ≤ 'Z'

/-- ASCII lowercase letter test. -/
def isLowerC (c : Char) : Bool := 'a' ≤ c && c ≤ 'z'

/-- ASCII letter test. -/
def isAlphaC (c : Char) : Bool := isUpperC c || isLowerC c

/-- ASCII letter-or-digit test. -/
def isAlnumC (c : Char) : Bool := isAlphaC c || isDigitC c

/-- ASCII lowercasing of one character (Go's `strings.ToLower` on ASCII data). -/
def lowerC (c : Char) : Char :=
  if isUpperC c then Char.ofNat (c.toNat + 32) else c

/-- Go's `strings.ToLower`, restricted to the ASCII case mapping. -/
def toLowerL (s : Chars) : Chars := s.map lowerC

/-- The whitespace class of Go's `regexp` `\s`, namely `[\t\n\f\r ]`. -/
def isWSRegex (c : Char) : Bool :=
  c = ' ' || c = '\t' || c = '\n' || c = '\x0c' || c = '\r'

/-- The whitespace set of Go's `strings.TrimSpace` on ASCII input. -/
def isWSTrim (c : Char) : Bool :=
  c = ' ' || c = '\t' || c = '\n' || c = '\x0b' || c = '\x0c' || c = '\r'

/-- The whitespace set of `encoding/json` (space, tab, newline, carriage return). -/
def isWSJson (c : Char) : Bool :=
  c = ' ' || c = '\t' || c = '\n' || c = '\r'

/-- The `isWhitespace` helper of `sanitizer_no_regex.go`. -/
def isWhitespace (c : Char) : Bool :=
  c = ' ' || c = '\t' || c = '\n' || c = '\r'

/-- The `isBase64Char` helper of `sanitizer_no_regex.go`. -/
def isBase64Char (c : Char) : Bool :=
  isAlnumC c || c = '+' || c = '/' || c = '=' || c = '_' || c = '-'

/-- List-of-characters version of Go's `strings.HasPrefix`. -/
def startsWithL : Chars → Chars → Bool
  | _, [] => true
  | [], _ :: _ => false
  | c :: s, p :: ps => c = p && startsWithL s ps

/-- Case-insensitive (ASCII) variant of `startsWithL`. -/
def startsWithCI : Chars → Chars → Bool
  | _, [] => true
  | [], _ :: _ => false
  | c :: s, p :: ps => lowerC c = lowerC p && startsWithCI s ps

/-- List-of-characters version of Go's `strings.HasSuffix`. -/
def endsWithL (s suffixL : Chars) : Bool :=
  startsWithL s.reverse suffixL.reverse

/-- First index at which `pat` occurs in `s` (Go's `strings.Index`), if any. -/
def idxOfL : Chars → Chars → Option Nat
  | s, pat =>
    match s with
    | [] => if pat.isEmpty then some 0 else none
    | _ :: rest =>
      if startsWithL s pat then some 0
      else (idxOfL rest pat).map (· + 1)

/-- Go's `strings.Contains`. -/
def containsL (s pat : Chars) : Bool := (idxOfL s pat).isSome

/-- Case-insensitive first-occurrence index, after ASCII lowercasing both sides
(the `indexCaseInsensitive` helper of `sanitizer_no_regex.go`). -/
def indexCaseInsensitive (s pat : Chars) : Option Nat :=
  idxOfL (toLowerL s) (toLowerL pat)

/-- Go's `strings.TrimSpace` (ASCII whitespace). -/
def trimSpace (s : Chars) : Chars :=
  ((s.dropWhile (fun c => isWSTrim c)).reverse.dropWhile (fun c => isWSTrim c)).reverse

/-- Go's `strings.Split(s, sep)` for a single-character separator. -/
def splitOnCharL (sep : Char) (s : Chars) : List Chars :=
  match s with
  | [] => [[]]
  | c :: rest =>
    let r := splitOnCharL sep rest
    if c = sep then [] :: r
    else match r with
      | [] => [[c]]
      | piece :: more => (c :: piece) :: more

/-- Go's `strings.Join(pieces, sep)`. -/
def joinL (sep : Chars) : List Chars → Chars
  | [] => []
  | [p] => p
  | p :: rest => p ++ sep ++ joinL sep rest

/-- Fueled core of `replaceAllL` (structural recursion, so that the kernel
can evaluate it; every step consumes at least one character, so the
wrapper's fuel `length + 1` is never exhausted). -/
def replaceAllF (pat rep : Chars) : Nat → Chars → Chars
  | 0, s => s
  | _ + 1, [] => []
  | fuel + 1, c :: rest =>
    if startsWithL (c :: rest) pat then
      rep ++ replaceAllF pat rep fuel (rest.drop (pat.length - 1))
    else
      c :: replaceAllF pat rep fuel rest

/-- Go's `strings.ReplaceAll(s, pat, rep)` for a non-empty pattern
(every use in the source has a non-empty pattern). -/
def replaceAllL (pat rep s : Chars) : Chars := replaceAllF pat rep (s.length + 1) s

/-- Decimal rendering of a size, the `formatInt` helper of `validator.go`
(`fmt.Sprintf("%d", n)` followed by two no-op separator replacements). -/
def formatInt (n : Nat) : Chars := (Nat.repr n).data

/-- The `formatSize` helper of `validator.go`. -/
def formatSize (size : Nat) : Chars :=
  if size < 1024 then formatInt size ++ (" bytes").data
  else if size < 1024 * 1024 then formatInt (size / 1024) ++ (" KB").data
  else formatInt (size / (1024 * 1024)) ++ (" MB").data

/-- The `isJSON` content-type classifier of `validator.go`. -/
def isJSON (contentType : Chars) : Bool :=
  let ct := toLowerL contentType
  containsL ct ("application/json").data ||
  containsL ct ("application/vnd.api+json").data ||
  containsL ct ("text/json").data ||
  endsWithL ct ("+json").data

/-- The `isXML` content-type classifier of `validator.go`. -/
def isXML (contentType : Chars) : Bool :=
  let ct := toLowerL contentType
  containsL ct ("application/xml").data ||
  containsL ct ("text/xml").data ||
  endsWithL ct ("+xml").data

/-- The `isFormURLEncoded` classifier of `validator.go`. -/
def isFormURLEncoded (contentType : Chars) : Bool :=
  containsL (toLowerL contentType) ("application/x-www-form-urlencoded").data

/-- The `isMultipartForm` classifier of `validator.go`. -/
def isMultipartForm (contentType : Chars) : Bool :=
  containsL (toLowerL contentType) ("multipart/form-data").data

/-- The `isBinaryContent` classifier of `validator.go`. -/
def isBinaryContent (contentType : Chars) : Bool :=
  let ct := toLowerL contentType
  containsL ct ("application/octet-stream").data ||
  containsL ct ("application/pdf").data ||
  containsL ct ("image/").data ||
  containsL ct ("audio/").data ||
  containsL ct ("video/").data ||
  containsL ct ("application/zip").data ||
  containsL ct ("application/gzip").data ||
  containsL ct ("application/x-tar").data

/-- The `looksLikeJSON` body sniffer of `validator.go`. -/
def looksLikeJSON (body : Chars) : Bool :=
  match trimSpace body with
  | [] => false
  | first :: rest =>
    let last := (first :: rest).getLast (by simp)
    (first = '{' && last = '}') || (first = '[' && last = ']')

/-- The `looksLikeXML` body sniffer of `validator.go`. -/
def looksLikeXML (body : Chars) : Bool :=
  let trimmed := trimSpace body
  startsWithL trimmed ['<'] && endsWithL trimmed ['>']

/-- The alphabet string of `looksLikeBase64` (`strings.ContainsRune` over it,
or a CR/LF). -/
def base64SampleChar (c : Char) : Bool :=
  isAlnumC c || c = '+' || c = '/' || c = '=' || c = '\n' || c = '\r'

/-- The `looksLikeBase64` heuristic of `validator.go`.  The Go code compares
`float64(validChars)/float64(len(sample)) > 0.9`; for samples of at most
1000 characters the comparison agrees exactly with the integer test
`10 * validChars > 9 * len(sample)` (the rational values involved are far
from the rounding error of the conversion). -/
def looksLikeBase64 (body : Chars) : Bool :=
  if body.length < 100 then false
  else
    let sample := body.take 1000
    let validChars := (sample.filter (fun c => base64SampleChar c)).length
    9 * sample.length < 10 * validChars

/-! ## JSON values

`encoding/json`'s `json.Unmarshal` into `interface{}` produces nested
`map[string]interface{}` / `[]interface{}` / `string` / `float64` / `bool` /
`nil` values.  `Jval` is that value universe; object fields are kept as an
association list (one representative of the unordered Go map; key sets are
duplicate-free because unmarshalling overwrites repeated keys).  Numbers are
kept as their source lexeme: Go re-prints `float64`s, which agrees with the
lexeme for the integer-valued numbers appearing in this development. -/

inductive Jval where
  | null
  | boolean (b : Bool)
  | num (lexeme : Chars)
  | str (s : Chars)
  | arr (elems : List Jval)
  | obj (fields : List (Chars × Jval))

/-- Skip `encoding/json` whitespace. -/
def skipWSJ (cs : Chars) : Chars := cs.dropWhile (fun c => isWSJson c)

/-- Hexadecimal digit value. -/
def hexVal? (c : Char) : Option Nat :=
  let n := c.toNat
  if isDigitC c then some (n - 48)
  else if 97 ≤ n && n ≤ 102 then some (n - 87)
  else if 65 ≤ n && n ≤ 70 then some (n - 55)
  else none

/-- The simple one-character escapes of a JSON string literal. -/
def simpleEsc (e : Char) : Option Char :=
  if e = '"' then some '"'
  else if e = '\\' then some '\\'
  else if e = '/' then some '/'
  else if e = 'b' then some '\x08'
  else if e = 'f' then some '\x0c'
  else if e = 'n' then some '\n'
  else if e = 'r' then some '\r'
  else if e = 't' then some '\t'
  else none

/-- Body of a JSON string literal after the opening quote: returns the decoded
content and the input following the closing quote.  Mirrors `encoding/json`:
the simple escapes, `\uXXXX` (surrogate pairs are out of scope: ASCII data),
and a rejection of raw control characters. -/
def parseStringBody : Chars → Option (Chars × Chars)
  | [] => none
  | c :: rest =>
    if c = '"' then some ([], rest)
    else if c = '\\' then
      match rest with
      | [] => none
      | e :: rest2 =>
        if e = 'u' then
          match rest2 with
          | h1 :: h2 :: h3 :: h4 :: rest3 =>
            match hexVal? h1, hexVal? h2, hexVal? h3, hexVal? h4 with
            | some a, some b, some c2, some d =>
              (parseStringBody rest3).map
                (fun p => (Char.ofNat (((a * 16 + b) * 16 + c2) * 16 + d) :: p.1, p.2))
            | _, _, _, _ => none
          | _ => none
        else
          match simpleEsc e with
          | some c2 => (parseStringBody rest2).map (fun p => (c2 :: p.1, p.2))
          | none => none
    else if c.toNat < 32 then none
    else (parseStringBody rest).map (fun p => (c :: p.1, p.2))

/-- Characters that may occur in a JSON number lexeme. -/
def isNumChar (c : Char) : Bool :=
  isDigitC c || c = '-' || c = '+' || c = '.' || c = 'e' || c = 'E'

/-- Consume the integer part of a JSON number (`0` or a nonzero-led digit run). -/
def chompInt : Chars → Option Chars
  | '0' :: rest => some rest
  | c :: rest =>
    if '1' ≤ c && c ≤ '9' then some (rest.dropWhile (fun d => isDigitC d)) else none
  | [] => none

/-- Consume an optional fraction part (`.` followed by at least one digit). -/
def chompFrac : Chars → Option Chars
  | '.' :: rest =>
    match rest with
    | d :: _ => if isDigitC d then some (rest.dropWhile (fun x => isDigitC x)) else none
    | [] => none
  | r => some r

/-- Sign and digit run of an exponent. -/
def chompExpTail (rest : Chars) : Option Chars :=
  let r := match rest with
           | '+' :: t => t
           | '-' :: t => t
           | _ => rest
  match r with
  | d :: _ => if isDigitC d then some (r.dropWhile (fun x => isDigitC x)) else none
  | [] => none

/-- Consume an optional exponent part (`e`/`E`, optional sign, digits). -/
def chompExp : Chars → Option Chars
  | 'e' :: rest => chompExpTail rest
  | 'E' :: rest => chompExpTail rest
  | r => some r

/-- The JSON number grammar (`-? int frac? exp?`), applied to a whole lexeme. -/
def validNumLex (s : Chars) : Bool :=
  let s1 := match s with
            | '-' :: r => r
            | _ => s
  match chompInt s1 with
  | none => false
  | some r1 =>
    match chompFrac r1 with
    | none => false
    | some r2 =>
      match chompExp r2 with
      | none => false
      | some r3 => r3.isEmpty

/-- Value of a digit run. -/
def digitsToNat (ds : Chars) : Nat := ds.foldl (fun a c => a * 10 + (c.toNat - 48)) 0

/-- Mantissa digits and decimal exponent of a grammar-valid number lexeme:
the denoted value is `± D * 10 ^ E` for `(D, E) = mantExp s`. -/
def mantExp (s : Chars) : Nat × Int :=
  let s1 := if s.head? = some '-' then s.tail else s
  let mant := s1.takeWhile (fun c => !(c = 'e' || c = 'E'))
  let expPart := (s1.dropWhile (fun c => !(c = 'e' || c = 'E'))).tail
  let ipart := mant.takeWhile (fun c => !(c = '.'))
  let fpart := (mant.dropWhile (fun c => !(c = '.'))).tail
  let eAbs : Nat := digitsToNat (expPart.dropWhile (fun c => c = '+' || c = '-'))
  let eSign : Bool := expPart.head? = some '-'
  (digitsToNat (ipart ++ fpart),
   (if eSign then -(eAbs : Int) else (eAbs : Int)) - (fpart.length : Int))

/-- The number converts to a finite `float64`: `strconv.ParseFloat(s, 64)`
fails with `ErrRange` exactly when the decimal value rounds to `±Inf` under
round-to-nearest-even, i.e. when `|v| ≥ (2^54 − 1)·2^970` (the rounding
boundary above the largest finite `float64`, `(2^53 − 1)·2^971`), and
`encoding/json`'s `convertNumber` then reports an `UnmarshalTypeError` that
fails the whole `Unmarshal`.  Values that underflow are returned as `0` or a
subnormal without an error, so only overflow is rejected. -/
def floatInRange (s : Chars) : Bool :=
  let m := mantExp s
  if m.1 = 0 then true
  else
    match m.2 with
    | .ofNat e => m.1 * 10 ^ e < (2 ^ 54 - 1) * 2 ^ 970
    | .negSucc k => m.1 < (2 ^ 54 - 1) * 2 ^ 970 * 10 ^ (k + 1)

/-- A number lexeme `json.Unmarshal` accepts: grammar-valid and within
`float64` range. -/
def numOK (lex : Chars) : Bool := validNumLex lex && floatInRange lex

/-- Replace or append a field, mirroring Go map assignment `m[key] = value`
while unmarshalling an object (a repeated key overwrites its earlier value). -/
def upsertKey : List (Chars × Jval) → (Chars × Jval) → List (Chars × Jval)
  | [], e => [e]
  | (k, v) :: rest, e => if k = e.1 then (k, e.2) :: rest else (k, v) :: upsertKey rest e

mutual

/-- Parse one JSON value, returning it and the remaining input.  The fuel
argument only bounds recursion depth; every recursive call consumes at least
one input character first, so fuel `input.length + 1` never runs out. -/
def parseValue : Nat → Chars → Option (Jval × Chars)
  | 0, _ => none
  | fuel + 1, cs =>
    match skipWSJ cs with
    | [] => none
    | c :: rest =>
      if c = 'n' then
        if startsWithL rest ("ull").data then some (.null, rest.drop 3) else none
      else if c = 't' then
        if startsWithL rest ("rue").data then some (.boolean true, rest.drop 3) else none
      else if c = 'f' then
        if startsWithL rest ("alse").data then some (.boolean false, rest.drop 4) else none
      else if c = '"' then (parseStringBody rest).map (fun p => (.str p.1, p.2))
      else if c = '[' then
        let r2 := skipWSJ rest
        if r2.head? = some ']' then some (.arr [], r2.tail)
        else (parseElems fuel r2).map (fun p => (.arr p.1, p.2))
      else if c = '{' then
        let r2 := skipWSJ rest
        if r2.head? = some '}' then some (.obj [], r2.tail)
        else (parseMembers fuel r2).map (fun p => (.obj (p.1.foldl upsertKey []), p.2))
      else if c = '-' || isDigitC c then
        let lex := (c :: rest).takeWhile (fun x => isNumChar x)
        if numOK lex then some (.num lex, (c :: rest).dropWhile (fun x => isNumChar x))
        else none
      else none

/-- Parse the elements of a non-empty array, up to and including `]`. -/
def parseElems : Nat → Chars → Option (List Jval × Chars)
  | 0, _ => none
  | fuel + 1, cs =>
    match parseValue fuel cs with
    | none => none
    | some (v, rest) =>
      let r := skipWSJ rest
      if r.head? = some ',' then (parseElems fuel r.tail).map (fun p => (v :: p.1, p.2))
      else if r.head? = some ']' then some ([v], r.tail)
      else none

/-- Parse the members of a non-empty object, up to and including the brace
closing it; the input must start at the first key's opening quote. -/
def parseMembers : Nat → Chars → Option (List (Chars × Jval) × Chars)
  | 0, _ => none
  | fuel + 1, cs =>
    if cs.head? = some '"' then
      match parseStringBody cs.tail with
      | none => none
      | some (k, r1) =>
        let r2 := skipWSJ r1
        if r2.head? = some ':' then
          match parseValue fuel r2.tail with
          | none => none
          | some (v, r3) =>
            let r4 := skipWSJ r3
            if r4.head? = some ',' then
              (parseMembers fuel (skipWSJ r4.tail)).map (fun p => ((k, v) :: p.1, p.2))
            else if r4.head? = some '}' then some ([(k, v)], r4.tail)
            else none
        else none
    else none

end

/-- Go's `json.Unmarshal` into `interface{}`: one value, with only whitespace
allowed after it, and every number lexeme convertible to a finite `float64`
(`numOK` in the parser's number branch — `convertNumber` fails the whole
`Unmarshal` when `strconv.ParseFloat` overflows). -/
def jsonParse (s : Chars) : Option Jval :=
  match parseValue (s.length + 1) s with
  | some (v, rest) => if (skipWSJ rest).isEmpty then some v else none
  | none => none

/-! ## JSON printing (`json.MarshalIndent(v, "", "  ")`)

Go sorts map keys bytewise at every object; the printer below factors that
into a recursive sorting pass `sortJ` followed by an order-preserving
renderer `marshal0`.  For valid UTF-8, bytewise and character-wise
lexicographic order agree. -/

/-- Bytewise lexicographic order on strings (Go's `sort.Strings` order). -/
def ltChars : Chars → Chars → Bool
  | [], [] => false
  | [], _ :: _ => true
  | _ :: _, [] => false
  | a :: as, b :: bs => if a < b then true else if b < a then false else ltChars as bs

/-- Insert one field into a key-sorted field list. -/
def insertField (e : Chars × Jval) : List (Chars × Jval) → List (Chars × Jval)
  | [] => [e]
  | f :: fs => if ltChars e.1 f.1 then e :: f :: fs else f :: insertField e fs

/-- Sort a field list by key (insertion sort). -/
def sortFields : List (Chars × Jval) → List (Chars × Jval)
  | [] => []
  | f :: fs => insertField f (sortFields fs)

mutual

/-- Recursively sort every object's field list by key. -/
def sortJ : Jval → Jval
  | .obj fields => .obj (sortFields (sortJFields fields))
  | .arr xs => .arr (sortJElems xs)
  | v => v

/-- `sortJ` on each field value. -/
def sortJFields : List (Chars × Jval) → List (Chars × Jval)
  | [] => []
  | (k, v) :: rest => (k, sortJ v) :: sortJFields rest

/-- `sortJ` on each array element. -/
def sortJElems : List Jval → List Jval
  | [] => []
  | v :: rest => sortJ v :: sortJElems rest

end

/-- Lowercase hexadecimal digit. -/
def hexDigitL (n : Nat) : Char :=
  if n < 10 then Char.ofNat ('0'.toNat + n) else Char.ofNat ('a'.toNat + n - 10)

/-- String-character escaping of Go's JSON encoder (HTML escaping on, its
default): quote, backslash, the `\n`/`\r`/`\t` shorthands, `<` `>` `&` and
other control characters as `\u00xx`. -/
def escapeChar (c : Char) : Chars :=
  if c = '"' then ['\\', '"']
  else if c = '\\' then ['\\', '\\']
  else if c = '\n' then ['\\', 'n']
  else if c = '\r' then ['\\', 'r']
  else if c = '\t' then ['\\', 't']
  else if c = '<' || c = '>' || c = '&' || c.toNat < 32 then
    ['\\', 'u', '0', '0', hexDigitL (c.toNat / 16), hexDigitL (c.toNat % 16)]
  else [c]

/-- Escape a whole string body. -/
def escapeStr : Chars → Chars
  | [] => []
  | c :: rest => escapeChar c ++ escapeStr rest

/-- A quoted, escaped JSON string literal. -/
def quoteStr (s : Chars) : Chars := '"' :: (escapeStr s ++ ['"'])

/-- Indentation for nesting depth `d` (two spaces per level). -/
def indentL (d : Nat) : Chars := List.replicate (2 * d) ' '

mutual

/-- Render a value whose objects are already sorted, at nesting depth `d`,
in `json.MarshalIndent(v, "", "  ")` layout. -/
def marshal0 : Jval → Nat → Chars
  | .null, _ => ("null").data
  | .boolean b, _ => if b then ("true").data else ("false").data
  | .num lex, _ => lex
  | .str s, _ => quoteStr s
  | .arr elems, d =>
    if elems.isEmpty then ['[', ']']
    else '[' :: '\n' :: (marshalItems0 elems (d + 1) ++ '\n' :: (indentL d ++ [']']))
  | .obj fields, d =>
    if fields.isEmpty then ['{', '}']
    else '{' :: '\n' :: (marshalFields0 fields (d + 1) ++ '\n' :: (indentL d ++ ['}']))

/-- Render array items, one per line, comma-separated. -/
def marshalItems0 : List Jval → Nat → Chars
  | [], _ => []
  | [x], d => indentL d ++ marshal0 x d
  | x :: y :: ys, d => indentL d ++ marshal0 x d ++ ',' :: '\n' :: marshalItems0 (y :: ys) d

/-- Render object fields, one per line, comma-separated. -/
def marshalFields0 : List (Chars × Jval) → Nat → Chars
  | [], _ => []
  | [(k, v)] , d => indentL d ++ (quoteStr k ++ ':' :: ' ' :: marshal0 v d)
  | (k, v) :: f :: fs, d =>
    indentL d ++ (quoteStr k ++ ':' :: ' ' :: marshal0 v d) ++ ',' :: '\n' :: marshalFields0 (f :: fs) d

end

/-- Go's `json.MarshalIndent(v, "", "  ")` (modulo `float64` re-formatting,
see `Jval.num`). -/
def marshalTop (v : Jval) : Chars := marshal0 (sortJ v) 0

/-! ## The regex pattern detectors of `DefaultSanitizerConfig`

Each `SensitivePatterns` entry of `validator.go` is a fixed regular
expression, applied as `pattern.ReplaceAllString(text, "$1" + mask)`:
non-overlapping leftmost matches are replaced by capture group 1 (empty when
the pattern has no participating group 1) followed by the mask, and scanning
resumes after the match.  Each pattern below is translated into an explicit
matcher `Option Char → Chars → Option (Chars × Nat)` giving, at a candidate
position (with one character of left context for `\b`), the replacement text
and the match length of the leftmost-first match starting there. -/

/-- One character of a run satisfying `p` starting at the front. -/
def countWhile (p : Char → Bool) (cs : Chars) : Nat := (cs.takeWhile p).length

/-- Character at offset `k`. -/
def charAt (cs : Chars) (k : Nat) : Option Char := (cs.drop k).head?

/-- Fueled core of `scanRepP` (structural recursion; each step consumes at
least one character, so the wrapper's fuel `length + 1` is never
exhausted). -/
def scanRepF (matchAt : Option Char → Chars → Option (Chars × Nat)) :
    Nat → Option Char → Chars → Chars
  | 0, _, s => s
  | _ + 1, _, [] => []
  | fuel + 1, prev, c :: rest =>
    match matchAt prev (c :: rest) with
    | some (rep, len) =>
      rep ++ scanRepF matchAt fuel (((c :: rest).take len).getLast?) (rest.drop (len - 1))
    | none => c :: scanRepF matchAt fuel (some c) rest

/-- Run `ReplaceAll` over the input with a positional matcher, tracking one
character of left context.  A match of length `len` is replaced by `rep` and
scanning resumes after it, exactly as Go's `ReplaceAllString`. -/
def scanRepP (matchAt : Option Char → Chars → Option (Chars × Nat))
    (prev : Option Char) (s : Chars) : Chars :=
  scanRepF matchAt (s.length + 1) prev s

/-- The token class `[a-zA-Z0-9\-._~+/]` of the bearer pattern. -/
def bearerClass (c : Char) : Bool :=
  isAlnumC c || c = '-' || c = '.' || c = '_' || c = '~' || c = '+' || c = '/'

/-- Pattern `(?i)(bearer\s+)[a-zA-Z0-9\-._~+/]+=*`, replacement `$1mask`. -/
def matchBearer (mask : Chars) (cs : Chars) : Option (Chars × Nat) :=
  if startsWithCI cs ("bearer").data then
    let afterB := cs.drop 6
    let nWS := countWhile (fun c => isWSRegex c) afterB
    if nWS = 0 then none
    else
      let afterWS := afterB.drop nWS
      let nTok := countWhile (fun c => bearerClass c) afterWS
      if nTok = 0 then none
      else
        let nEq := countWhile (fun c => c = '=') (afterWS.drop nTok)
        some (cs.take (6 + nWS) ++ mask, 6 + nWS + nTok + nEq)
  else none

/-- The value class `[a-zA-Z0-9\-_]` of the API-key patterns. -/
def keyValClass (c : Char) : Bool := isAlnumC c || c = '-' || c = '_'

/-- The value class `[a-zA-Z0-9/+=]` of the AWS-secret pattern. -/
def awsValClass (c : Char) : Bool := isAlnumC c || c = '/' || c = '+' || c = '='

/-- Consume a case-insensitive word sequence joined by optional `[_-]`
separators (`api[_-]?key`, `aws[_-]?secret[_-]?access[_-]?key`), returning
the consumed length.  A separator is taken only when the next word follows
it; deeper regex backtracking cannot succeed because a separator character
never starts a word. -/
def matchWordsSep : Chars → List Chars → Option Nat
  | _, [] => some 0
  | cs, [w] => if startsWithCI cs w then some w.length else none
  | cs, w :: w2 :: ws =>
    if startsWithCI cs w then
      let rest := cs.drop w.length
      match rest.head? with
      | some c =>
        if (c = '_' || c = '-') && startsWithCI (rest.drop 1) w2 then
          (matchWordsSep (rest.drop 1) (w2 :: ws)).map (· + w.length + 1)
        else (matchWordsSep rest (w2 :: ws)).map (· + w.length)
      | none => none
    else none

/-- Tail `\s*[:=]\s*["']?` + value of the key/secret patterns, from offset
`q` (after any first optional quote): returns the value's start offset and
the match's end offset.  `exact` distinguishes `{n,}` from `{n}`. -/
def kvTail2 (valClass : Char → Bool) (minLen : Nat) (exact : Bool) (cs : Chars) (q : Nat) :
    Option (Nat × Nat) :=
  let nWS1 := countWhile (fun c => isWSRegex c) (cs.drop q)
  match charAt cs (q + nWS1) with
  | some c =>
    if c = ':' || c = '=' then
      let p4 := q + nWS1 + 1
      let nWS2 := countWhile (fun x => isWSRegex x) (cs.drop p4)
      let p5 := p4 + nWS2
      let valueAt : Nat → Option (Nat × Nat) := fun x =>
        let n := countWhile valClass (cs.drop x)
        if n ≥ minLen then some (x, x + (if exact then minLen else n)) else none
      match charAt cs p5 with
      | some qc =>
        if qc = '"' || qc = '\'' then
          match valueAt (p5 + 1) with
          | some r => some r
          | none => valueAt p5
        else valueAt p5
      | none => valueAt p5
    else none
  | none => none

/-- Optional quote before `kvTail2` (`["']?\s*[:=]...`). -/
def kvTail (valClass : Char → Bool) (minLen : Nat) (exact : Bool) (cs : Chars) (p : Nat) :
    Option (Nat × Nat) :=
  match charAt cs p with
  | some qc =>
    if qc = '"' || qc = '\'' then
      match kvTail2 valClass minLen exact cs (p + 1) with
      | some r => some r
      | none => kvTail2 valClass minLen exact cs p
    else kvTail2 valClass minLen exact cs p
  | none => none

/-- Pattern `(?i)(api[_-]?key["']?\s*[:=]\s*["']?)[a-zA-Z0-9\-_]{20,}`. -/
def matchApiKey (mask : Chars) (cs : Chars) : Option (Chars × Nat) :=
  match matchWordsSep cs [("api").data, ("key").data] with
  | some p =>
    match kvTail (fun c => keyValClass c) 20 false cs p with
    | some (vstart, vend) => some (cs.take vstart ++ mask, vend)
    | none => none
  | none => none

/-- Pattern `(?i)(x-api-key:\s*)[a-zA-Z0-9\-_]{20,}`. -/
def matchXApiKey (mask : Chars) (cs : Chars) : Option (Chars × Nat) :=
  if startsWithCI cs ("x-api-key:").data then
    let nWS := countWhile (fun c => isWSRegex c) (cs.drop 10)
    let nVal := countWhile (fun c => keyValClass c) (cs.drop (10 + nWS))
    if nVal ≥ 20 then some (cs.take (10 + nWS) ++ mask, 10 + nWS + nVal) else none
  else none

/-- Uppercase letter or digit (`[0-9A-Z]`). -/
def upDigit (c : Char) : Bool := isUpperC c || isDigitC c

/-- Pattern `(AKIA[0-9A-Z]{16})`: group 1 is the whole key, so the
replacement `$1mask` keeps the key and appends the mask after it. -/
def matchAKIA (mask : Chars) (cs : Chars) : Option (Chars × Nat) :=
  if startsWithL cs ("AKIA").data then
    let body := (cs.drop 4).take 16
    if body.length = 16 && body.all (fun c => upDigit c) then
      some (cs.take 20 ++ mask, 20)
    else none
  else none

/-- Pattern
`(?i)(aws[_-]?secret[_-]?access[_-]?key["']?\s*[:=]\s*["']?)([a-zA-Z0-9/+=]{40})`. -/
def matchAWSSecret (mask : Chars) (cs : Chars) : Option (Chars × Nat) :=
  match matchWordsSep cs [("aws").data, ("secret").data, ("access").data, ("key").data] with
  | some p =>
    match kvTail (fun c => awsValClass c) 40 true cs p with
    | some (vstart, vend) => some (cs.take vstart ++ mask, vend)
    | none => none
  | none => none

/-- Pattern `(AIza[0-9A-Za-z\-_]{35})`: whole-match group, mask appended. -/
def matchAIza (mask : Chars) (cs : Chars) : Option (Chars × Nat) :=
  if startsWithL cs ("AIza").data then
    let body := (cs.drop 4).take 35
    if body.length = 35 && body.all (fun c => keyValClass c) then
      some (cs.take 39 ++ mask, 39)
    else none
  else none

/-- Pattern `(gh[ps]_[a-zA-Z0-9]{36})`: whole-match group, mask appended. -/
def matchGh (mask : Chars) (cs : Chars) : Option (Chars × Nat) :=
  match cs with
  | 'g' :: 'h' :: k :: '_' :: rest =>
    if (k = 'p' || k = 's') then
      let body := rest.take 36
      if body.length = 36 && body.all (fun c => isAlnumC c) then
        some (cs.take 40 ++ mask, 40)
      else none
    else none
  | _ => none

/-- The JWT segment class `[a-zA-Z0-9_-]`. -/
def jwtClass (c : Char) : Bool := isAlnumC c || c = '_' || c = '-'

/-- Pattern `(eyJ[a-zA-Z0-9_-]*\.eyJ[a-zA-Z0-9_-]*\.[a-zA-Z0-9_-]*)`:
whole-match group, mask appended. -/
def matchJWT (mask : Chars) (cs : Chars) : Option (Chars × Nat) :=
  if startsWithL cs ("eyJ").data then
    let n1 := countWhile (fun c => jwtClass c) (cs.drop 3)
    if charAt cs (3 + n1) = some '.' then
      let p := 3 + n1 + 1
      if startsWithL (cs.drop p) ("eyJ").data then
        let n2 := countWhile (fun c => jwtClass c) (cs.drop (p + 3))
        if charAt cs (p + 3 + n2) = some '.' then
          let n3 := countWhile (fun c => jwtClass c) (cs.drop (p + 3 + n2 + 1))
          let total := p + 3 + n2 + 1 + n3
          some (cs.take total ++ mask, total)
        else none
      else none
    else none
  else none

/-- Pattern `-----BEGIN (RSA |EC |OPENSSH )?PRIVATE KEY-----`: group 1 is the
optional algorithm word, so the replacement is that word plus the mask. -/
def matchPEM (mask : Chars) (cs : Chars) : Option (Chars × Nat) :=
  if startsWithL cs ("-----BEGIN ").data then
    let rest := cs.drop 11
    let tryAlt : Chars → Option (Chars × Nat) := fun alg =>
      if startsWithL rest (alg ++ ("PRIVATE KEY-----").data) then
        some (alg ++ mask, 11 + alg.length + 16)
      else none
    match tryAlt ("RSA ").data with
    | some r => some r
    | none =>
      match tryAlt ("EC ").data with
      | some r => some r
      | none =>
        match tryAlt ("OPENSSH ").data with
        | some r => some r
        | none => tryAlt []
  else none

/-- Word character of the regex `\b` boundary (`[0-9A-Za-z_]`). -/
def wordC (c : Char) : Bool := isAlnumC c || c = '_'

/-- Whether `n` consecutive digits start at offset `k`. -/
def digitsAt (cs : Chars) (k n : Nat) : Bool :=
  let body := (cs.drop k).take n
  body.length = n && body.all (fun c => isDigitC c)

/-- Whether a `\b` boundary holds after `len` characters. -/
def boundaryAfter (cs : Chars) (len : Nat) : Bool :=
  match charAt cs len with
  | none => true
  | some c => !wordC c

/-- The credit-card pattern
`\b(?:4[0-9]{12}(?:[0-9]{3})?|5[1-5][0-9]{14}|3[47][0-9]{13}|3(?:0[0-5]|[68][0-9])[0-9]{11}|6(?:011|5[0-9]{2})[0-9]{12})\b`
with no capture group: the replacement `$1mask` is the mask alone.
Alternatives are tried in written order; the optional Visa tail is greedy. -/
def matchCC (mask : Chars) (prev : Option Char) (cs : Chars) : Option (Chars × Nat) :=
  let leftOK := match prev with
    | none => true
    | some c => !wordC c
  if !leftOK then none
  else
    let finish : Nat → Option (Chars × Nat) := fun len =>
      if boundaryAfter cs len then some (mask, len) else none
    let visa : Option (Chars × Nat) :=
      if charAt cs 0 = some '4' && digitsAt cs 1 12 then
        if digitsAt cs 13 3 then
          match finish 16 with
          | some r => some r
          | none => finish 13
        else finish 13
      else none
    let mc : Option (Chars × Nat) :=
      if charAt cs 0 = some '5' &&
         (match charAt cs 1 with
          | some c => '1' ≤ c && c ≤ '5'
          | none => false) &&
         digitsAt cs 2 14 then finish 16 else none
    let amex : Option (Chars × Nat) :=
      if charAt cs 0 = some '3' && (charAt cs 1 = some '4' || charAt cs 1 = some '7') &&
         digitsAt cs 2 13 then finish 15 else none
    let diners : Option (Chars × Nat) :=
      if charAt cs 0 = some '3' &&
         ((charAt cs 1 = some '0' &&
           (match charAt cs 2 with
            | some c => '0' ≤ c && c ≤ '5'
            | none => false)) ||
          ((charAt cs 1 = some '6' || charAt cs 1 = some '8') &&
           (match charAt cs 2 with
            | some c => isDigitC c
            | none => false))) &&
         digitsAt cs 3 11 then finish 14 else none
    let discover : Option (Chars × Nat) :=
      if charAt cs 0 = some '6' &&
         ((startsWithL (cs.drop 1) ("011").data) ||
          (charAt cs 1 = some '5' &&
           (match charAt cs 2 with
            | some c => isDigitC c
            | none => false) &&
           (match charAt cs 3 with
            | some c => isDigitC c
            | none => false))) &&
         digitsAt cs 4 12 then finish 16 else none
    match visa with
    | some r => some r
    | none =>
      match mc with
      | some r => some r
      | none =>
        match amex with
        | some r => some r
        | none =>
          match diners with
          | some r => some r
          | none => discover

/-- The ten default patterns, in `DefaultSanitizerConfig` order, each as the
text transformer `text ↦ pattern.ReplaceAllString(text, "$1" + mask)`. -/
def defaultPatterns (mask : Chars) : List (Chars → Chars) :=
  [ scanRepP (fun _ cs => matchBearer mask cs) none,
    scanRepP (fun _ cs => matchApiKey mask cs) none,
    scanRepP (fun _ cs => matchXApiKey mask cs) none,
    scanRepP (fun _ cs => matchAKIA mask cs) none,
    scanRepP (fun _ cs => matchAWSSecret mask cs) none,
    scanRepP (fun _ cs => matchAIza mask cs) none,
    scanRepP (fun _ cs => matchGh mask cs) none,
    scanRepP (fun _ cs => matchJWT mask cs) none,
    scanRepP (fun _ cs => matchPEM mask cs) none,
    scanRepP (matchCC mask) none ]

/-! ## Sanitizer configuration (`validator.go`) -/

/-- The `BodyAction` enumeration. -/
inductive BodyAction where
  | skip
  | truncate
  | summarize
  | sanitize
deriving DecidableEq

/-- The `HeaderMaskMode` enumeration (`HeaderMaskFull` and the
show-first/last-four mode). -/
inductive HeaderMaskMode where
  | fullMask
  | partMask
deriving DecidableEq

/-- A `BodyProcessingRule`: an arbitrary condition over content type, body
and size, an action, and an optional skip message. -/
structure BodyProcessingRule where
  condition : Chars → Chars → Nat → Bool
  action : BodyAction
  message : Chars

/-- `SanitizerConfig`.  A `SensitivePatterns` entry (a compiled regex used
only as `p.ReplaceAllString(text, "$1" + mask)`) is modelled by the text
transformer it denotes. -/
structure SanitizerConfig where
  sensitiveFields : List Chars
  sensitivePatterns : List (Chars → Chars)
  mask : Chars
  maxBodySize : Nat
  bodyRules : List BodyProcessingRule
  headerMaskMode : HeaderMaskMode
  sensitiveHeaders : List Chars

/-- The default mask literal. -/
def defaultMask : Chars := ("***REDACTED***").data

/-- The four default `BodyRules` of `DefaultSanitizerConfig`, in order. -/
def defaultBodyRules : List BodyProcessingRule :=
  [ { condition := fun ct _ _ => isBinaryContent ct,
      action := .skip,
      message := ("[Binary content - not logged]").data },
    { condition := fun _ body size => 1024 < size && looksLikeBase64 body,
      action := .skip,
      message := ("[Base64 encoded data - not logged]").data },
    { condition := fun ct _ size => 500 * 1024 < size && (isJSON ct || isXML ct),
      action := .summarize,
      message := [] },
    { condition := fun _ _ size => 100 * 1024 < size,
      action := .truncate,
      message := [] } ]

/-- `DefaultSanitizerConfig()`. -/
def DefaultSanitizerConfig : SanitizerConfig where
  sensitiveFields :=
    [ ("password").data, ("passwd").data, ("pwd").data, ("secret").data, ("token").data,
      ("api_key").data, ("apikey").data, ("api_secret").data, ("access_token").data,
      ("refresh_token").data, ("client_secret").data, ("client_id").data,
      ("authorization").data, ("auth").data, ("bearer").data, ("session").data,
      ("session_id").data, ("cookie").data,
      ("ssn").data, ("social_security").data, ("passport").data, ("driver_license").data,
      ("tax_id").data, ("ein").data, ("vat").data,
      ("credit_card").data, ("card_number").data, ("card_num").data, ("cvv").data,
      ("cvc").data, ("pin").data, ("account_number").data, ("routing_number").data,
      ("iban").data, ("swift").data,
      ("private_key").data, ("public_key").data, ("encryption_key").data,
      ("signing_key").data, ("certificate").data, ("cert").data, ("key").data, ("pem").data,
      ("stripe_key").data, ("aws_secret").data, ("gcp_key").data, ("azure_key").data,
      ("webhook_secret").data, ("signing_secret").data ]
  sensitivePatterns := defaultPatterns defaultMask
  mask := defaultMask
  maxBodySize := 100 * 1024
  bodyRules := defaultBodyRules
  headerMaskMode := .partMask
  sensitiveHeaders :=
    [ ("authorization").data, ("proxy-authorization").data,
      ("cookie").data, ("set-cookie").data,
      ("x-api-key").data, ("x-auth-token").data, ("x-access-token").data,
      ("api-key").data, ("apikey").data ]

/-- `NewSanitizer`: a nil config falls back to the default; an empty
sensitive-header list is backfilled from the default. -/
def newSanitizer (config : Option SanitizerConfig) : SanitizerConfig :=
  match config with
  | none => DefaultSanitizerConfig
  | some c =>
    if c.sensitiveHeaders.isEmpty then
      { c with sensitiveHeaders := DefaultSanitizerConfig.sensitiveHeaders }
    else c

/-! ## Sanitizer methods (`validator.go`) -/

/-- `Sanitizer.isSensitiveField`: case-insensitive substring containment. -/
def isSensitiveField (cfg : SanitizerConfig) (fieldName : Chars) : Bool :=
  let lower := toLowerL fieldName
  cfg.sensitiveFields.any (fun s => containsL lower (toLowerL s))

/-- `Sanitizer.isSensitiveHeader`: case-insensitive exact match. -/
def isSensitiveHeader (cfg : SanitizerConfig) (headerName : Chars) : Bool :=
  let lower := toLowerL headerName
  cfg.sensitiveHeaders.any (fun s => toLowerL s = lower)

/-- `Sanitizer.sanitizeText`: fold all patterns over the text. -/
def sanitizeText (cfg : SanitizerConfig) (text : Chars) : Chars :=
  cfg.sensitivePatterns.foldl (fun acc p => p acc) text

/-- `Sanitizer.maskHeaderValue`. -/
def maskHeaderValue (cfg : SanitizerConfig) (values : List Chars) : Chars :=
  match values with
  | [] => []
  | _ =>
    let value := joinL (", ").data values
    if cfg.headerMaskMode = .fullMask then cfg.mask
    else if value.length ≤ 8 then cfg.mask
    else value.take 4 ++ cfg.mask ++ value.drop (value.length - 4)

/-- `Sanitizer.SanitizeHeaders` (the Go map is modelled by an association
list; the result is computed entry-wise). -/
def SanitizeHeaders (cfg : SanitizerConfig) (headers : List (Chars × List Chars)) :
    List (Chars × Chars) :=
  headers.map (fun e =>
    (e.1, if isSensitiveHeader cfg e.1 then maskHeaderValue cfg e.2
          else joinL (", ").data e.2))

mutual

/-- `Sanitizer.sanitizeValue`.  The fuel argument (decremented at every
recursive call so that evaluation stays kernel-reducible) bounds the total
recursion; callers pass a fuel that the recursion, whose nesting strictly
shrinks the document (see the parser bound lemmas), cannot exhaust. -/
def sanitizeValue (cfg : SanitizerConfig) : Nat → Jval → Jval
  | 0, v => v
  | fuel + 1, .obj fields => .obj (sanitizeFields cfg fuel fields)
  | fuel + 1, .arr xs => .arr (sanitizeElems cfg fuel xs)
  | fuel + 1, .str s =>
    if looksLikeJSON s then .str (sanitizeJSON cfg fuel s)
    else .str (sanitizeText cfg s)
  | _ + 1, v => v

/-- `Sanitizer.sanitizeJSON`: unmarshal, sanitize, re-marshal; on parse
failure fall back to `sanitizeText`. -/
def sanitizeJSON (cfg : SanitizerConfig) : Nat → Chars → Chars
  | 0, body => sanitizeText cfg body
  | fuel + 1, body =>
    match jsonParse body with
    | none => sanitizeText cfg body
    | some v => marshalTop (sanitizeValue cfg fuel v)

/-- Object fields of `sanitizeValue`: a sensitive key's value becomes the
mask, any other value is sanitized recursively. -/
def sanitizeFields (cfg : SanitizerConfig) : Nat → List (Chars × Jval) → List (Chars × Jval)
  | 0, l => l
  | _ + 1, [] => []
  | fuel + 1, (k, v) :: rest =>
    (if isSensitiveField cfg k then (k, .str cfg.mask) else (k, sanitizeValue cfg fuel v)) ::
      sanitizeFields cfg fuel rest

/-- Array elements of `sanitizeValue`. -/
def sanitizeElems (cfg : SanitizerConfig) : Nat → List Jval → List Jval
  | 0, l => l
  | _ + 1, [] => []
  | fuel + 1, v :: rest => sanitizeValue cfg fuel v :: sanitizeElems cfg fuel rest

end

/-- The tag pattern `(?i)(<field[^>]*>)([^<]+)(</field>)` of
`Sanitizer.sanitizeXML`, with replacement `${1}mask${3}`. -/
def matchXMLTag (mask field : Chars) (cs : Chars) : Option (Chars × Nat) :=
  if startsWithCI cs ('<' :: field) then
    let p := 1 + field.length
    let n1 := countWhile (fun c => c ≠ '>') (cs.drop p)
    if charAt cs (p + n1) = some '>' then
      let g1End := p + n1 + 1
      let n2 := countWhile (fun c => c ≠ '<') (cs.drop g1End)
      if n2 ≥ 1 && startsWithCI (cs.drop (g1End + n2)) ('<' :: '/' :: field ++ ['>']) then
        let closeLen := field.length + 3
        some (cs.take g1End ++ mask ++ ((cs.drop (g1End + n2)).take closeLen),
              g1End + n2 + closeLen)
      else none
    else none
  else none

/-- The attribute pattern `(?i)(field\s*=\s*["'])([^"']+)(["'])` of
`Sanitizer.sanitizeXML`, with replacement `${1}mask${3}`. -/
def matchXMLAttr (mask field : Chars) (cs : Chars) : Option (Chars × Nat) :=
  if startsWithCI cs field then
    let p := field.length
    let nWS1 := countWhile (fun c => isWSRegex c) (cs.drop p)
    if charAt cs (p + nWS1) = some '=' then
      let p2 := p + nWS1 + 1
      let nWS2 := countWhile (fun c => isWSRegex c) (cs.drop p2)
      match charAt cs (p2 + nWS2) with
      | some q =>
        if q = '"' || q = '\'' then
          let g1End := p2 + nWS2 + 1
          let n2 := countWhile (fun c => c ≠ '"' && c ≠ '\'') (cs.drop g1End)
          match charAt cs (g1End + n2) with
          | some q2 =>
            if n2 ≥ 1 && (q2 = '"' || q2 = '\'') then
              some (cs.take g1End ++ mask ++ [q2], g1End + n2 + 1)
            else none
          | none => none
        else none
      | none => none
    else none
  else none

/-- `Sanitizer.sanitizeXML`: for each sensitive field, replace tag bodies and
attribute values; then apply all patterns. -/
def sanitizeXML (cfg : SanitizerConfig) (body : Chars) : Chars :=
  let afterFields := cfg.sensitiveFields.foldl
    (fun acc field =>
      scanRepP (fun _ cs => matchXMLAttr cfg.mask field cs) none
        (scanRepP (fun _ cs => matchXMLTag cfg.mask field cs) none acc))
    body
  cfg.sensitivePatterns.foldl (fun acc p => p acc) afterFields

/-! ## `net/url` query handling (used by the form sanitizer) -/

/-- Unreserved characters of `url.QueryEscape`. -/
def isUnreservedQ (c : Char) : Bool :=
  isAlnumC c || c = '-' || c = '_' || c = '.' || c = '~'

/-- Uppercase hexadecimal digit. -/
def hexUpper (n : Nat) : Char :=
  if n < 10 then Char.ofNat ('0'.toNat + n) else Char.ofNat ('A'.toNat + n - 10)

/-- `url.QueryEscape` (ASCII data: one byte per character). -/
def queryEscape : Chars → Chars
  | [] => []
  | c :: rest =>
    (if c = ' ' then ['+']
     else if isUnreservedQ c then [c]
     else ['%', hexUpper (c.toNat / 16), hexUpper (c.toNat % 16)]) ++ queryEscape rest

/-- `url.QueryUnescape` (ASCII data): `+` is a space, `%XX` must be two hex
digits, anything else passes through. -/
def queryUnescape : Chars → Option Chars
  | [] => some []
  | '%' :: h1 :: h2 :: rest =>
    match hexVal? h1, hexVal? h2 with
    | some a, some b => (queryUnescape rest).map (Char.ofNat (a * 16 + b) :: ·)
    | _, _ => none
  | '%' :: _ => none
  | '+' :: rest => (queryUnescape rest).map (' ' :: ·)
  | c :: rest => (queryUnescape rest).map (c :: ·)

/-- Append a value to a key's list (Go `m[key] = append(m[key], value)`),
keeping first-occurrence key order as the map representative. -/
def appendVal : List (Chars × List Chars) → Chars → Chars → List (Chars × List Chars)
  | [], k, v => [(k, [v])]
  | (k0, vs) :: rest, k, v =>
    if k0 = k then (k0, vs ++ [v]) :: rest else (k0, vs) :: appendVal rest k v

/-- `url.ParseQuery`: split on `&`, reject components containing `;`, skip
empties, cut at the first `=`, unescape both sides; a failed component sets
the error and is skipped.  Returns the collected values and the error flag. -/
def parseQueryGo (query : Chars) : List (Chars × List Chars) × Bool :=
  (splitOnCharL '&' query).foldl
    (fun acc comp =>
      if containsL comp [';'] then (acc.1, true)
      else if comp.isEmpty then acc
      else
        let kv := match idxOfL comp ['='] with
                  | some i => (comp.take i, comp.drop (i + 1))
                  | none => (comp, [])
        match queryUnescape kv.1 with
        | none => (acc.1, true)
        | some k2 =>
          match queryUnescape kv.2 with
          | none => (acc.1, true)
          | some v2 => (appendVal acc.1 k2 v2, acc.2))
    ([], false)

/-- Insert a key/values pair into a key-sorted list. -/
def insertPair (e : Chars × List Chars) :
    List (Chars × List Chars) → List (Chars × List Chars)
  | [] => [e]
  | f :: fs => if ltChars e.1 f.1 then e :: f :: fs else f :: insertPair e fs

/-- Sort key/values pairs by key. -/
def sortPairs : List (Chars × List Chars) → List (Chars × List Chars)
  | [] => []
  | f :: fs => insertPair f (sortPairs fs)

/-- `url.Values.Encode`: keys sorted bytewise, each value escaped as
`k=v`, pairs joined by `&`. -/
def encodeValues (m : List (Chars × List Chars)) : Chars :=
  joinL ['&']
    ((sortPairs m).foldr
      (fun e acc => e.2.map (fun v => queryEscape e.1 ++ '=' :: queryEscape v) ++ acc) [])

/-- `Sanitizer.sanitizeFormURLEncoded`: parse, mask sensitive keys, pattern
scan other values, re-encode; on parse error fall back to `sanitizeText`. -/
def sanitizeFormURLEncoded (cfg : SanitizerConfig) (body : Chars) : Chars :=
  let parsed := parseQueryGo body
  if parsed.2 then sanitizeText cfg body
  else
    encodeValues (parsed.1.map (fun e =>
      if isSensitiveField cfg e.1 then (e.1, [cfg.mask])
      else (e.1, e.2.map (fun v => sanitizeText cfg v))))

/-- The `name="([^"]+)"` submatch search of `sanitizeMultipartForm`. -/
def findNameAttr : Chars → Option Chars
  | [] => none
  | c :: rest =>
    if startsWithL (c :: rest) ("name=\"").data then
      let afterQ := (c :: rest).drop 6
      let n := countWhile (fun x => x ≠ '"') afterQ
      if n ≥ 1 && charAt afterQ n = some '"' then some (afterQ.take n)
      else findNameAttr rest
    else findNameAttr rest

/-- The line loop of `Sanitizer.sanitizeMultipartForm`. -/
def mpLines (cfg : SanitizerConfig) : List Chars → Bool → List Chars
  | [], _ => []
  | line :: rest, inSens =>
    if containsL line ("Content-Disposition").data then
      let newSens := match findNameAttr line with
        | some name => isSensitiveField cfg name
        | none => inSens
      line :: mpLines cfg rest newSens
    else if startsWithL line ("--").data then
      line :: mpLines cfg rest false
    else if inSens && !line.isEmpty && !startsWithL line ("Content-").data then
      cfg.mask :: mpLines cfg rest inSens
    else line :: mpLines cfg rest inSens

/-- `Sanitizer.sanitizeMultipartForm`. -/
def sanitizeMultipartForm (cfg : SanitizerConfig) (body : Chars) : Chars :=
  joinL ['\n'] (mpLines cfg (splitOnCharL '\n' body) false)

/-- `Sanitizer.summarizeBody`. -/
def summarizeBody (cfg : SanitizerConfig) (body contentType : Chars) (size : Nat) : Chars :=
  let base := ("[Large body - ").data ++ formatSize size ++ [']']
  let withJson :=
    if isJSON contentType then
      match jsonParse body with
      | some (.obj fields) => base ++ (" Object with ").data ++ formatInt fields.length ++ (" keys").data
      | some (.arr xs) => base ++ (" Array with ").data ++ formatInt xs.length ++ (" items").data
      | _ => base
    else base
  if isXML contentType then withJson ++ (" XML document").data else withJson

/-- The fuel handed to the JSON sanitizer: generous enough that the nesting
recursion, whose documents strictly shrink, cannot exhaust it. -/
def jsonFuel (body : Chars) : Nat := (body.length + 2) * (body.length + 2)

/-- The format dispatch at the end of `Sanitizer.SanitizeBody`: JSON is
checked first (declared type or sniffed body), then XML, then form, then
multipart, then plain text. -/
def dispatchFormat (cfg : SanitizerConfig) (body contentType : Chars) : Chars :=
  if isJSON contentType || looksLikeJSON body then sanitizeJSON cfg (jsonFuel body) body
  else if isXML contentType || looksLikeXML body then sanitizeXML cfg body
  else if isFormURLEncoded contentType then sanitizeFormURLEncoded cfg body
  else if isMultipartForm contentType then sanitizeMultipartForm cfg body
  else sanitizeText cfg body

/-- The rendering of the truncate action's else-branch
(`body[:maxSize] + "\n... [truncated, total: <size>]"`). -/
def truncatedRendering (cfg : SanitizerConfig) (body : Chars) : Chars :=
  body.take cfg.maxBodySize ++ ("\n... [truncated, total: ").data ++
    formatSize body.length ++ [']']

/-- The rule loop of `Sanitizer.SanitizeBody`: a matching skip or summarize
rule returns; a matching truncate rule re-enters `SanitizeBody` (through
`recur`) when the body fits in `maxBodySize`; a matching sanitize rule and a
non-matching rule continue with the remaining rules; rule exhaustion falls
through to the format dispatch. -/
def goRules (recur : Chars → Chars → Option Chars) (cfg : SanitizerConfig) :
    List BodyProcessingRule → Chars → Chars → Option Chars
  | [], body, contentType => some (dispatchFormat cfg body contentType)
  | r :: rest, body, contentType =>
    if r.condition contentType body body.length then
      match r.action with
      | .skip => some (if r.message.isEmpty then ("[Body not logged]").data else r.message)
      | .summarize => some (summarizeBody cfg body contentType body.length)
      | .truncate =>
        if body.length ≤ cfg.maxBodySize then recur body contentType
        else some (truncatedRendering cfg body)
      | .sanitize => goRules recur cfg rest body contentType
    else goRules recur cfg rest body contentType

/-- `Sanitizer.SanitizeBody` with explicit recursion fuel: `none` models the
divergence of the Go mutual recursion `SanitizeBody ↔ truncateBody`, which
re-enters `SanitizeBody` with unchanged arguments (and therefore never
returns) whenever a matching truncate rule fires on a body that fits in
`maxBodySize`. -/
def sanitizeBodyF (cfg : SanitizerConfig) : Nat → Chars → Chars → Option Chars
  | 0, _, _ => none
  | fuel + 1, body, contentType =>
    if body.isEmpty then some []
    else goRules (sanitizeBodyF cfg fuel) cfg cfg.bodyRules body contentType

/-- `Sanitizer.SanitizeBody`.  Fuel 2 suffices for every terminating
configuration: the only self-call re-evaluates identical arguments, so it
either returns without a second self-call or diverges in Go (in which case
this total model answers the empty string). -/
def SanitizeBody (cfg : SanitizerConfig) (body contentType : Chars) : Chars :=
  (sanitizeBodyF cfg 2 body contentType).getD []

/-- `Sanitizer.truncateBody`. -/
def truncateBody (cfg : SanitizerConfig) (body contentType : Chars) : Chars :=
  if body.length ≤ cfg.maxBodySize then SanitizeBody cfg body contentType
  else truncatedRendering cfg body

/-! ## `SanitizerNoRegex` (`sanitizer_no_regex.go`)

The hand-scanning detectors keep three pieces of state: the original `text`
(scanned for token ends), the evolving `result` (sliced and spliced), and a
search cursor `idx`.  After a first replacement the two strings disagree, and
the Go code's mixed indexing is reproduced as-is.  Go slice expressions
`s[:k]`/`s[k:]` are modelled by `take`/`drop`, which clip an out-of-range
index instead of panicking; the clipping is only reachable on multi-token
misaligned inputs that no claim evaluates.  Each loop advances its cursor by
a fixed positive amount per iteration and never creates new occurrences of
its needle, so `length + 1` fuel is never exhausted. -/

/-- The loop of `hideBearerTokens`. -/
def hideBearerLoop (mask text : Chars) : Nat → Chars → Nat → Chars
  | 0, result, _ => result
  | fuel + 1, result, idx =>
    let lower := toLowerL result
    match idxOfL (lower.drop idx) (("bearer ").data) with
    | none => result
    | some pos0 =>
      let pos := pos0 + idx
      let tokenStart := pos + 7
      let tokenEnd := tokenStart + countWhile (fun c => !isWhitespace c) (text.drop tokenStart)
      let result2 :=
        if tokenStart < tokenEnd then result.take tokenStart ++ mask ++ result.drop tokenEnd
        else result
      let idx2 := pos + 7
      if result2.length ≤ idx2 then result2
      else hideBearerLoop mask text fuel result2 idx2

/-- `SanitizerNoRegex.hideBearerTokens`. -/
def hideBearerTokens (mask text : Chars) : Chars :=
  hideBearerLoop mask text (text.length + 1) text 0

/-- The value-terminator set of `hideAPIKeys`. -/
def apiValueStop (c : Char) : Bool :=
  isWhitespace c || c = '"' || c = '\'' || c = ',' || c = '}' || c = '&'

/-- The inner loop of `hideAPIKeys` for one label pattern. -/
def hideAPIKeysLoop (mask text pattern : Chars) : Nat → Chars → Nat → Chars
  | 0, result, _ => result
  | fuel + 1, result, idx =>
    let lower := toLowerL result
    match idxOfL (lower.drop idx) pattern with
    | none => result
    | some pos0 =>
      let pos := pos0 + idx
      let vs0 := pos + pattern.length
      let skip := countWhile (fun c => isWhitespace c || c = '"' || c = '\'') (text.drop vs0)
      let valueStart := vs0 + skip
      let valueEnd := valueStart + countWhile (fun c => !apiValueStop c) (text.drop valueStart)
      let result2 :=
        if valueStart < valueEnd && 10 < valueEnd - valueStart then
          result.take valueStart ++ mask ++ result.drop valueEnd
        else result
      let idx2 := pos + pattern.length
      if result2.length ≤ idx2 then result2
      else hideAPIKeysLoop mask text pattern fuel result2 idx2

/-- `SanitizerNoRegex.hideAPIKeys`: six label spellings, in order. -/
def hideAPIKeys (mask text : Chars) : Chars :=
  [ ("api_key:").data, ("apikey=").data, ("api-key:").data, ("api_key=").data,
    ("\"api_key\":").data, ("'api_key':").data ].foldl
    (fun acc pat => hideAPIKeysLoop mask text pat (text.length + 1) acc 0) text

/-- The loop of `hideJWTTokens` (operating on the evolving result only). -/
def hideJWTLoop (mask : Chars) : Nat → Chars → Nat → Chars
  | 0, result, _ => result
  | fuel + 1, result, idx =>
    match idxOfL (result.drop idx) (("eyJ").data) with
    | none => result
    | some pos0 =>
      let pos := pos0 + idx
      let n := countWhile (fun c => isBase64Char c || c = '.') (result.drop (pos + 3))
      let tokenEnd := pos + 3 + n
      let dots := (((result.drop (pos + 3)).take n).filter (fun c => c = '.')).length
      let result2 :=
        if dots = 2 && 50 < tokenEnd - pos then
          result.take pos ++ mask ++ result.drop tokenEnd
        else result
      let idx2 := pos + 3
      if result2.length ≤ idx2 then result2
      else hideJWTLoop mask fuel result2 idx2

/-- `SanitizerNoRegex.hideJWTTokens`. -/
def hideJWTTokens (mask text : Chars) : Chars :=
  hideJWTLoop mask (text.length + 1) text 0

/-- The loop of `hideAWSKeys` (operating on the evolving result only). -/
def hideAWSLoop (mask : Chars) : Nat → Chars → Nat → Chars
  | 0, result, _ => result
  | fuel + 1, result, idx =>
    match idxOfL (result.drop idx) (("AKIA").data) with
    | none => result
    | some pos0 =>
      let pos := pos0 + idx
      let n := min (countWhile (fun c => upDigit c) (result.drop (pos + 4))) 16
      let keyEnd := pos + 4 + n
      let result2 :=
        if keyEnd - pos = 20 then result.take pos ++ mask ++ result.drop keyEnd
        else result
      let idx2 := pos + 4
      if result2.length ≤ idx2 then result2
      else hideAWSLoop mask fuel result2 idx2

/-- `SanitizerNoRegex.hideAWSKeys`. -/
def hideAWSKeys (mask text : Chars) : Chars :=
  hideAWSLoop mask (text.length + 1) text 0

/-- The `extractDigits` helper. -/
def extractDigits (text : Chars) : Chars := text.filter (fun c => isDigitC c)

/-- `SanitizerNoRegex.looksLikeCreditCard`: 13–19 digits starting 4, 5 or 3. -/
def looksLikeCreditCard (digits : Chars) : Bool :=
  if digits.length < 13 || 19 < digits.length then false
  else
    startsWithL digits ['4'] || startsWithL digits ['5'] || startsWithL digits ['3']

/-- The `formatCard` helper: dashed/spaced grouping of a 16-digit number. -/
def formatCard (digits : Chars) (sep : Char) : Chars :=
  if digits.length ≠ 16 then digits
  else
    digits.take 4 ++ sep :: ((digits.drop 4).take 4 ++ sep ::
      ((digits.drop 8).take 4 ++ sep :: (digits.drop 12).take 4))

/-- `SanitizerNoRegex.replaceCreditCardInText`: replace the bare, dashed and
spaced renderings of the card number. -/
def replaceCreditCardInText (mask result cardDigits : Chars) : Chars :=
  [cardDigits, formatCard cardDigits '-', formatCard cardDigits ' '].foldl
    (fun acc pat => if containsL acc pat then replaceAllL pat mask acc else acc) result

/-- The digit windows examined by `hideCreditCards`: every window of 13–19
digits, outer index ascending, window length ascending. -/
def ccWindows (digits : Chars) : List Chars :=
  (List.range (digits.length - 12)).foldl
    (fun acc i =>
      acc ++ (List.range 7).filterMap (fun j =>
        let len := 13 + j
        if i + len ≤ digits.length then some ((digits.drop i).take len) else none))
    []

/-- `SanitizerNoRegex.hideCreditCards`. -/
def hideCreditCards (mask text : Chars) : Chars :=
  (ccWindows (extractDigits text)).foldl
    (fun res w => if looksLikeCreditCard w then replaceCreditCardInText mask res w else res)
    text

/-- `SanitizerConfigNoRegex`. -/
structure SanitizerConfigNoRegex where
  sensitiveFields : List Chars
  mask : Chars
  maxBodySize : Nat
  bodyRules : List BodyProcessingRule
  headerMaskMode : HeaderMaskMode
  sensitiveHeaders : List Chars
  enableBearerTokenDetection : Bool
  enableAPIKeyDetection : Bool
  enableJWTDetection : Bool
  enableCreditCardDetection : Bool
  enableEmailDetection : Bool
  enableAWSKeyDetection : Bool

/-- `DefaultSanitizerConfigNoRegex()`.  Note that `SensitiveHeaders` is left
empty, and `NewSanitizerNoRegex` (unlike `NewSanitizer`) does not backfill
it. -/
def DefaultSanitizerConfigNoRegex : SanitizerConfigNoRegex where
  sensitiveFields :=
    [ ("password").data, ("passwd").data, ("pwd").data, ("secret").data, ("token").data,
      ("api_key").data, ("apikey").data, ("api_secret").data, ("access_token").data,
      ("refresh_token").data, ("client_secret").data, ("authorization").data,
      ("auth").data, ("bearer").data, ("session").data, ("session_id").data,
      ("cookie").data, ("ssn").data, ("credit_card").data, ("card_number").data,
      ("cvv").data, ("cvc").data, ("private_key").data, ("encryption_key").data ]
  mask := defaultMask
  maxBodySize := 100 * 1024
  bodyRules :=
    [ { condition := fun ct _ _ => isBinaryContent ct,
        action := .skip,
        message := ("[Binary content - not logged]").data },
      { condition := fun _ body size => 1024 < size && looksLikeBase64 body,
        action := .skip,
        message := ("[Base64 encoded data - not logged]").data },
      { condition := fun _ _ size => 100 * 1024 < size,
        action := .truncate,
        message := [] } ]
  headerMaskMode := .partMask
  sensitiveHeaders := []
  enableBearerTokenDetection := true
  enableAPIKeyDetection := true
  enableJWTDetection := true
  enableCreditCardDetection := true
  enableEmailDetection := false
  enableAWSKeyDetection := true

/-- The detector sequence of `SanitizerNoRegex.sanitizeText`, as a
transformer list (bearer, API keys, JWT, credit cards, AWS keys, each under
its flag). -/
def nrPatterns (nr : SanitizerConfigNoRegex) : List (Chars → Chars) :=
  (if nr.enableBearerTokenDetection then [hideBearerTokens nr.mask] else []) ++
  (if nr.enableAPIKeyDetection then [hideAPIKeys nr.mask] else []) ++
  (if nr.enableJWTDetection then [hideJWTTokens nr.mask] else []) ++
  (if nr.enableCreditCardDetection then [hideCreditCards nr.mask] else []) ++
  (if nr.enableAWSKeyDetection then [hideAWSKeys nr.mask] else [])

/-- `SanitizerNoRegex`'s JSON and form sanitizers are textually identical to
the `Sanitizer` ones except for the configuration they read
(`isSensitiveField`, mask, detector sequence); this view instantiates the
shared definitions with the no-regex configuration. -/
def nrView (nr : SanitizerConfigNoRegex) : SanitizerConfig where
  sensitiveFields := nr.sensitiveFields
  sensitivePatterns := nrPatterns nr
  mask := nr.mask
  maxBodySize := nr.maxBodySize
  bodyRules := nr.bodyRules
  headerMaskMode := nr.headerMaskMode
  sensitiveHeaders := nr.sensitiveHeaders

/-- `SanitizerNoRegex.sanitizeText`. -/
def sanitizeTextNR (nr : SanitizerConfigNoRegex) (text : Chars) : Chars :=
  sanitizeText (nrView nr) text

/-- The loop of `SanitizerNoRegex.replaceXMLTag`.  In Go this loop never
terminates once an open and close tag are both present (the replacement
reinstates both tags, reaching a fixpoint that keeps matching); running out
of fuel models that divergence by returning the fixpoint. -/
def replaceXMLTagF (mask field : Chars) : Nat → Chars → Chars
  | 0, result => result
  | fuel + 1, result =>
    let openTag := '<' :: field ++ ['>']
    let closeTag := '<' :: '/' :: field ++ ['>']
    let start? := match idxOfL result openTag with
      | some s => some s
      | none => indexCaseInsensitive result openTag
    match start? with
    | none => result
    | some start =>
      match idxOfL (result.drop start) closeTag with
      | none => result
      | some e =>
        replaceXMLTagF mask field fuel
          (result.take (start + openTag.length) ++ mask ++ result.drop (start + e))

/-- The loop of `SanitizerNoRegex.replaceXMLAttribute` for one quote
character; like `replaceXMLTag`, the Go loop diverges once it matches. -/
def replaceXMLAttrF (mask field : Chars) (quote : Char) : Nat → Chars → Chars
  | 0, result => result
  | fuel + 1, result =>
    let pattern := field ++ '=' :: [quote]
    match indexCaseInsensitive result pattern with
    | none => result
    | some start =>
      let valueStart := start + pattern.length
      match idxOfL (result.drop valueStart) [quote] with
      | none => result
      | some valueEnd =>
        replaceXMLAttrF mask field quote fuel
          (result.take valueStart ++ mask ++ result.drop (valueStart + valueEnd))

/-- `SanitizerNoRegex.sanitizeXML`. -/
def sanitizeXMLNR (nr : SanitizerConfigNoRegex) (body : Chars) : Chars :=
  let afterFields := nr.sensitiveFields.foldl
    (fun acc field =>
      [('"' : Char), '\''].foldl
        (fun acc2 q => replaceXMLAttrF nr.mask field q (acc2.length + 1) acc2)
        (replaceXMLTagF nr.mask field (acc.length + 1) acc))
    body
  sanitizeTextNR nr afterFields

/-- `SanitizerNoRegex.summarizeBody` (no XML clause, unlike `Sanitizer`). -/
def summarizeBodyNR (nr : SanitizerConfigNoRegex) (body contentType : Chars) (size : Nat) :
    Chars :=
  let base := ("[Large body - ").data ++ formatSize size ++ [']']
  if isJSON contentType then
    match jsonParse body with
    | some (.obj fields) => base ++ (" Object with ").data ++ formatInt fields.length ++ (" keys").data
    | some (.arr xs) => base ++ (" Array with ").data ++ formatInt xs.length ++ (" items").data
    | _ => base
  else base

/-- The format dispatch of `SanitizerNoRegex.SanitizeBody`: JSON, XML, form,
plain text (no multipart branch). -/
def dispatchFormatNR (nr : SanitizerConfigNoRegex) (body contentType : Chars) : Chars :=
  if isJSON contentType || looksLikeJSON body then sanitizeJSON (nrView nr) (jsonFuel body) body
  else if isXML contentType || looksLikeXML body then sanitizeXMLNR nr body
  else if isFormURLEncoded contentType then sanitizeFormURLEncoded (nrView nr) body
  else sanitizeTextNR nr body

/-- The rule loop of `SanitizerNoRegex.SanitizeBody` (same shape as
`goRules`). -/
def goRulesNR (recur : Chars → Chars → Option Chars) (nr : SanitizerConfigNoRegex) :
    List BodyProcessingRule → Chars → Chars → Option Chars
  | [], body, contentType => some (dispatchFormatNR nr body contentType)
  | r :: rest, body, contentType =>
    if r.condition contentType body body.length then
      match r.action with
      | .skip => some (if r.message.isEmpty then ("[Body not logged]").data else r.message)
      | .summarize => some (summarizeBodyNR nr body contentType body.length)
      | .truncate =>
        if body.length ≤ nr.maxBodySize then recur body contentType
        else some (body.take nr.maxBodySize ++ ("\n... [truncated, total: ").data ++
                   formatSize body.length ++ [']'])
      | .sanitize => goRulesNR recur nr rest body contentType
    else goRulesNR recur nr rest body contentType

/-- `SanitizerNoRegex.SanitizeBody` with explicit fuel (see `sanitizeBodyF`). -/
def sanitizeBodyNRF (nr : SanitizerConfigNoRegex) : Nat → Chars → Chars → Option Chars
  | 0, _, _ => none
  | fuel + 1, body, contentType =>
    if body.isEmpty then some []
    else goRulesNR (sanitizeBodyNRF nr fuel) nr nr.bodyRules body contentType

/-- `SanitizerNoRegex.SanitizeBody`. -/
def SanitizeBodyNR (nr : SanitizerConfigNoRegex) (body contentType : Chars) : Chars :=
  (sanitizeBodyNRF nr 2 body contentType).getD []

/-- Modelled from the spec: `SanitizerNoRegex` exposes no `SanitizeHeaders`
in the source (its configuration declares `HeaderMaskMode` and
`SensitiveHeaders`, but no method in `src` consumes them); §4.6 prescribes
the same exact-name-matched full/partial masking as the pattern sanitizer,
so this spec-side model applies that logic to the no-regex configuration. -/
def SanitizeHeadersNR (nr : SanitizerConfigNoRegex) (headers : List (Chars × List Chars)) :
    List (Chars × Chars) :=
  SanitizeHeaders (nrView nr) headers

/-! ## The transport interceptor (`LoggingRoundTripper`, `part_005`)

State-level model.  A body stream (`io.ReadCloser`) delivers a byte buffer
and then either end-of-stream or a read error; `io.ReadAll` returns the
buffer on success, and on failure the Go code discards the partial read,
returns `nil`, and leaves the consumed stream in place.  Log emission has no
bearing on the intercepted exchange and is dropped; what is modelled is
every mutation the logging path applies to the request/response. -/

/-- A body stream: a buffer, and whether reading ends in an error. -/
structure BodyStream where
  buf : Chars
  err : Bool

/-- The byte sequence a stream delivers to a reader. -/
def streamBytes : Option BodyStream → Chars
  | none => []
  | some s => s.buf

/-- `LoggingRoundTripper.readAndRestoreBody`: read everything and replace the
stream with a fresh reader over the same buffer; on a read error return no
bytes and leave the stream consumed. -/
def readAndRestoreBody (body : Option BodyStream) : Chars × Option BodyStream :=
  match body with
  | none => ([], none)
  | some s =>
    if s.err then ([], some { buf := [], err := true })
    else (s.buf, some { buf := s.buf, err := false })

/-- An outbound HTTP request (the fields the interceptor touches). -/
structure Request where
  method : Chars
  url : Chars
  headers : List (Chars × List Chars)
  contentType : Chars
  body : Option BodyStream

/-- An HTTP response (the fields the interceptor touches). -/
structure Response where
  statusCode : Nat
  status : Chars
  headers : List (Chars × List Chars)
  body : Option BodyStream

/-- `LoggingConfig` (the state-relevant surface). -/
structure LoggingConfig where
  hasLogger : Bool
  logRequestBody : Bool
  logResponseBody : Bool
  logHeaders : Bool
  shouldLog : Option (Request → Bool)
  shouldLogBody : Option (Request → Chars → Nat → Bool)

/-- The request-state effect of `logRequest`: with a logger present and
request-body logging on, a non-nil body is read and restored (whether or not
`ShouldLogBody` then allows logging its content). -/
def logRequestState (cfg : LoggingConfig) (req : Request) : Request :=
  if !cfg.hasLogger then req
  else if cfg.logRequestBody && req.body.isSome then
    { req with body := (readAndRestoreBody req.body).2 }
  else req

/-- The response-state effect of `logResponse`. -/
def logResponseState (cfg : LoggingConfig) (resp : Response) : Response :=
  if !cfg.hasLogger then resp
  else if cfg.logResponseBody && resp.body.isSome then
    { resp with body := (readAndRestoreBody resp.body).2 }
  else resp

/-- `LoggingRoundTripper.RoundTrip`: consult `ShouldLog` (a nil predicate
logs everything); on the logging path, log the request (reading/restoring
its body), execute the wrapped transport, and propagate its error unchanged
or log the response (reading/restoring its body) and return it. -/
def roundTrip (cfg : LoggingConfig) (next : Request → Except Chars Response)
    (req : Request) : Except Chars Response :=
  if (match cfg.shouldLog with
      | some p => !p req
      | none => false) then next req
  else
    match next (logRequestState cfg req) with
    | .error e => .error e
    | .ok resp => .ok (logResponseState cfg resp)

/-! ## Claim C3: conformance agreement of the two sanitizers -/

/-- Conformance scenario 1 body (§8). -/
def scenBody1 : Chars := ("\x7b\"username\":\"user\",\"password\":\"secret123\"\x7d").data

/-- Conformance scenario 2 body (§8). -/
def scenBody2 : Chars :=
  ("[\x7b\"id\":1,\"token\":\"tok1\"\x7d,\x7b\"id\":2,\"token\":\"tok2\"\x7d]").data

/-- Conformance scenario 3 body (§8): escaped JSON-in-JSON. -/
def scenBody3 : Chars :=
  ("\x7b\"config\":\"\x7b\\\"api_key\\\":\\\"sk-123\\\",\\\"secret\\\":\\\"mysecret\\\"\x7d\"\x7d").data

/-- Conformance scenario 4 body (§8): plain text with a bearer token. -/
def scenBody4 : Chars := ("Authorization: Bearer sk-1234567890abcdef").data

/-- Conformance scenario 6 body (§8): one thousand `a`s. -/
def scenBody6 : Chars := List.replicate 1000 'a'

/-- Conformance scenario 5 header set (§8). -/
def scenHeaders5 : List (Chars × List Chars) :=
  [(("Authorization").data, [("Bearer sk-1234567890abcdefghijklmnop").data])]

/-! Scenario 6 is a kilobyte of `a`s; rather than evaluating both pipelines
over it, the following lemmas show every detector and sniffer ignores a
string of `a`s, so both sanitizers return it unchanged. -/

/-- The scenario-6 configuration: default sanitizer with `MaxBodySize` 50. -/
def c2cfg : SanitizerConfig := { DefaultSanitizerConfig with maxBodySize := 50 }

/-- A kilobyte body whose first 50 bytes contain a bearer token. -/
def c2Body : Chars := ("Bearer ").data ++ List.replicate 993 'a'

/-- The first rule whose condition holds and whose action terminates the
scan (Skip, Truncate or Summarize); condition-holding Sanitize rules do not
terminate it. -/
def firstTerminalRule : List BodyProcessingRule → Chars → Chars → Nat →
    Option BodyProcessingRule
  | [], _, _, _ => none
  | r :: rest, contentType, body, size =>
    if r.condition contentType body size && !(r.action = .sanitize) then some r
    else firstTerminalRule rest contentType body size

/-- The outcome the amended claim prescribes, in terms of
`firstTerminalRule`. -/
def specRuleOutcome (recur : Chars → Chars → Option Chars) (cfg : SanitizerConfig)
    (body contentType : Chars) : Option Chars :=
  match firstTerminalRule cfg.bodyRules contentType body body.length with
  | none => some (dispatchFormat cfg body contentType)
  | some r =>
    if r.action = .skip then
      some (if r.message.isEmpty then ("[Body not logged]").data else r.message)
    else if r.action = .summarize then some (summarizeBody cfg body contentType body.length)
    else if body.length ≤ cfg.maxBodySize then recur body contentType
    else some (truncatedRendering cfg body)

/-- A configuration with a matching Sanitize rule followed by a matching
Skip rule. -/
def c5cfg : SanitizerConfig :=
  { DefaultSanitizerConfig with
    bodyRules :=
      [ { condition := fun _ _ _ => true, action := .sanitize, message := [] },
        { condition := fun _ _ _ => true, action := .skip, message := ("X").data } ] }

/-- A JSON object body declared as XML. -/
def c4Body : Chars := ("\x7b\"password\":\"x\"\x7d").data

/-- A logging configuration that logs everything. -/
def c8cfg : LoggingConfig :=
  { hasLogger := true, logRequestBody := true, logResponseBody := true,
    logHeaders := true, shouldLog := none, shouldLogBody := none }

/-- A request whose body stream fails when read. -/
def c8req : Request :=
  { method := ("GET").data, url := ("http://x").data, headers := [],
    contentType := [], body := some { buf := ['a'], err := true } }

/-- A transport that reports how many body bytes it could read. -/
def c8next : Request → Except Chars Response := fun r =>
  .ok { statusCode := (streamBytes r.body).length, status := [], headers := [], body := none }

/-- An error-free request for the witness. -/
def c8reqOK : Request :=
  { method := ("GET").data, url := ("http://x").data, headers := [],
    contentType := [], body := some { buf := ['b'], err := false } }

/-- The witness transport's fixed response. -/
def c8resp : Response :=
  { statusCode := 200, status := ("200 OK").data, headers := [],
    body := some { buf := ['r'], err := false } }

/-- Divergence of `SanitizeBody` at an input: the fueled model answers
`none` for every fuel, i.e. the Go recursion never returns. -/
def divergesOn (cfg : SanitizerConfig) (body contentType : Chars) : Prop :=
  ∀ fuel, sanitizeBodyF cfg fuel body contentType = none

/-- A configuration whose truncate rule fires on bodies that fit in
`maxBodySize`: `SanitizeBody` then re-enters itself with unchanged
arguments. -/
def c10cfg : SanitizerConfig :=
  { DefaultSanitizerConfig with
    maxBodySize := 100,
    bodyRules := [{ condition := fun _ _ size => 10 < size,
                    action := .truncate, message := [] }] }

mutual

/-- Every string value in the document is shorter than `n - 2`. -/
def strBound : Jval → Nat → Bool
  | .str s, n => s.length + 2 ≤ n
  | .arr xs, n => strBoundL xs n
  | .obj fs, n => strBoundF fs n
  | _, _ => true

/-- `strBound` over array elements. -/
def strBoundL : List Jval → Nat → Bool
  | [], _ => true
  | v :: rest, n => strBound v n && strBoundL rest n

/-- `strBound` over object field values. -/
def strBoundF : List (Chars × Jval) → Nat → Bool
  | [], _ => true
  | (_, v) :: rest, n => strBound v n && strBoundF rest n

end

mutual

/-- Fuel threshold of a value: above it, `sanitizeValue` no longer depends
on its fuel (`sanitize_fuel_stable`).  Strings budget their length because a
string that looks like JSON re-enters the pipeline via `sanitizeJSON`. -/
def szS : Jval → Nat
  | .str s => s.length + 2
  | .arr xs => szSL xs + 1
  | .obj fs => szSF fs + 1
  | _ => 1

/-- `szS` over array elements. -/
def szSL : List Jval → Nat
  | [] => 0
  | x :: xs => szS x + szSL xs + 1

/-- `szS` over object fields. -/
def szSF : List (Chars × Jval) → Nat
  | [] => 0
  | (_, v) :: fs => szS v + szSF fs + 1

end

/-- The per-entry action of `sanitizeFields` once fuel has stabilized: a
sensitive key is masked, any other value is sanitized (at its own
stabilization threshold). -/
def entryC (cfg : SanitizerConfig) (e : Chars × Jval) : Chars × Jval :=
  if isSensitiveField cfg e.1 then (e.1, Jval.str cfg.mask)
  else (e.1, sanitizeValue cfg (szS e.2) e.2)

/-- The per-entry action of `sortJFields`. -/
def sortEntry (e : Chars × Jval) : Chars × Jval := (e.1, sortJ e.2)

mutual

/-- Two association-list representatives of one unmarshalled Go document.
`json.Unmarshal` stores each JSON object in a `map[string]interface{}`, and
Go's map iteration order is unspecified, so the in-order embedding of the
maps into field lists is determined only up to a permutation of every
object's field list.  `PermJ v w` holds when `v` and `w` are two such
representative choices of the same document: equal scalars, elementwise
related arrays, and objects equal up to recursively relating the entries
and permuting the list — with duplicate-free keys, as in a Go map. -/
inductive PermJ : Jval → Jval → Prop where
  | null : PermJ .null .null
  | boolean (b : Bool) : PermJ (.boolean b) (.boolean b)
  | num (lex : Chars) : PermJ (.num lex) (.num lex)
  | str (s : Chars) : PermJ (.str s) (.str s)
  | arr {xs ys : List Jval} : PermJL xs ys → PermJ (.arr xs) (.arr ys)
  | obj {fs gs hs : List (Chars × Jval)} : PermJF fs gs → List.Perm gs hs →
      (fs.map Prod.fst).Nodup → PermJ (.obj fs) (.obj hs)

/-- `PermJ` over array elements (elementwise, order kept: arrays are
ordered in JSON). -/
inductive PermJL : List Jval → List Jval → Prop where
  | nil : PermJL [] []
  | cons {x y : Jval} {xs ys : List Jval} : PermJ x y → PermJL xs ys →
      PermJL (x :: xs) (y :: ys)

/-- `PermJ` over object fields, entrywise with keys kept. -/
inductive PermJF : List (Chars × Jval) → List (Chars × Jval) → Prop where
  | nil : PermJF [] []
  | cons (k : Chars) {v w : Jval} {fs gs : List (Chars × Jval)} : PermJ v w →
      PermJF fs gs → PermJF ((k, v) :: fs) ((k, w) :: gs)

end

mutual

/-- Every number lexeme in the value satisfies the JSON number grammar, is
within `float64` range, and uses only number characters. -/
def numWF : Jval → Bool
  | .num lex => numOK lex && lex.all (fun c => isNumChar c)
  | .arr xs => numWFL xs
  | .obj fs => numWFF fs
  | _ => true

/-- `numWF` over array elements. -/
def numWFL : List Jval → Bool
  | [] => true
  | v :: rest => numWF v && numWFL rest

/-- `numWF` over object field values. -/
def numWFF : List (Chars × Jval) → Bool
  | [] => true
  | (_, v) :: rest => numWF v && numWFF rest

end

mutual

/-- Fuel budget for re-parsing a marshalled value. -/
def szJ : Jval → Nat
  | .arr xs => szL xs + 2
  | .obj fs => szF fs + 2
  | _ => 1

/-- Fuel budget for array elements. -/
def szL : List Jval → Nat
  | [] => 0
  | x :: xs => szJ x + 2 + szL xs

/-- Fuel budget for object fields. -/
def szF : List (Chars × Jval) → Nat
  | [] => 0
  | (_, v) :: fs => szJ v + 2 + szF fs

end

/-- The remaining input may not begin with a number character (so a number
lexeme ends exactly where the marshaller put it). -/
def noNumHead (rest : Chars) : Bool :=
  match rest with
  | [] => true
  | c :: _ => !isNumChar c

/-- The input of `parseElems` for the marshalled elements of a non-empty
array: the elements at depth `d`, comma-and-indent separated, followed by
the closing suffix. -/
def elemsBody (xs : List Jval) (d : Nat) (close : Chars) : Chars :=
  match xs with
  | [] => close
  | [x] => marshal0 x d ++ close
  | x :: y :: ys => marshal0 x d ++ ',' :: '\n' :: (indentL d ++ elemsBody (y :: ys) d close)

/-- The input of `parseMembers` for the marshalled fields of a non-empty
object. -/
def membersBody (fs : List (Chars × Jval)) (d : Nat) (close : Chars) : Chars :=
  match fs with
  | [] => close
  | [(k, v)] => quoteStr k ++ ':' :: ' ' :: (marshal0 v d ++ close)
  | (k, v) :: f :: fs2 =>
    quoteStr k ++ ':' :: ' ' ::
      (marshal0 v d ++ ',' :: '\n' :: (indentL d ++ membersBody (f :: fs2) d close))

/-- A list of `a`s is untouched by `trimSpace`. -/
theorem trimSpace_allA (s : Chars) (h : ∀ c ∈ s, c = 'a') : trimSpace s = s := by
  have h1 : ∀ t : Chars, (∀ c ∈ t, c = 'a') → t.dropWhile (fun c => isWSTrim c) = t := by
    intro t ht
    cases t with
    | nil => rfl
    | cons c rest =>
      have hc : c = 'a' := ht c (by simp)
      subst hc
      simp [List.dropWhile_cons, isWSTrim]
  unfold trimSpace
  rw [h1 s h, h1 s.reverse (by intro c hc; exact h c (List.mem_reverse.mp hc)), List.reverse_reverse]

/-- A list of `a`s does not sniff as JSON. -/
theorem looksLikeJSON_allA (s : Chars) (h : ∀ c ∈ s, c = 'a') : looksLikeJSON s = false := by
  unfold looksLikeJSON
  rw [trimSpace_allA s h]
  cases s with
  | nil => rfl
  | cons c rest =>
    have hc : c = 'a' := h c (by simp)
    subst hc
    simp

/-- A list of `a`s does not sniff as XML. -/
theorem looksLikeXML_allA (s : Chars) (h : ∀ c ∈ s, c = 'a') : looksLikeXML s = false := by
  unfold looksLikeXML
  rw [trimSpace_allA s h]
  cases s with
  | nil => rfl
  | cons c rest =>
    have hc : c = 'a' := h c (by simp)
    subst hc
    simp [startsWithL]

/-- Unfolding equation of `startsWithL` on two conses. -/
theorem startsWithL_cons (c : Char) (s : Chars) (p : Char) (ps : Chars) :
    startsWithL (c :: s) (p :: ps) = (decide (c = p) && startsWithL s ps) := rfl

/-- Unfolding equation of `startsWithCI` on two conses. -/
theorem startsWithCI_cons (c : Char) (s : Chars) (p : Char) (ps : Chars) :
    startsWithCI (c :: s) (p :: ps) = (decide (lowerC c = lowerC p) && startsWithCI s ps) := rfl

/-- A cons-headed needle with a differing head does not start a string. -/
theorem startsWithL_false_of_ne (c : Char) (s : Chars) (p : Char) (ps : Chars) (h : c ≠ p) :
    startsWithL (c :: s) (p :: ps) = false := by
  rw [startsWithL_cons, decide_eq_false h, Bool.false_and]

/-- No needle whose first or second character differs from `a` occurs in a
list of `a`s. -/
theorem idxOfL_allA_none (s : Chars) (h : ∀ c ∈ s, c = 'a') (p1 p2 : Char) (pt : Chars)
    (hp : p1 ≠ 'a' ∨ p2 ≠ 'a') : idxOfL s (p1 :: p2 :: pt) = none := by
  induction s with
  | nil => rfl
  | cons c rest ih =>
    have hc : c = 'a' := h c (by simp)
    subst hc
    have hrest : ∀ x ∈ rest, x = 'a' := fun x hx => h x (by simp [hx])
    have hs : startsWithL ('a' :: rest) (p1 :: p2 :: pt) = false := by
      rcases hp with hp | hp
      · exact startsWithL_false_of_ne _ _ _ _ (fun hh => hp hh.symm)
      · cases rest with
        | nil => simp [startsWithL]
        | cons c2 r2 =>
          have hc2 : c2 = 'a' := hrest c2 (by simp)
          subst hc2
          have h2 : startsWithL ('a' :: r2) (p2 :: pt) = false :=
            startsWithL_false_of_ne _ _ _ _ (fun hh => hp hh.symm)
          rw [startsWithL_cons, h2, Bool.and_false]
    unfold idxOfL
    rw [hs]
    simp [ih hrest]

/-- Generic identity lemma for `scanRepF` under a matcher that never fires
on lists of `a`s. -/
theorem scanRepF_allA (matchAt : Option Char → Chars → Option (Chars × Nat))
    (hm : ∀ prev c rest, (∀ x ∈ c :: rest, x = 'a') → matchAt prev (c :: rest) = none) :
    ∀ (fuel : Nat) (prev : Option Char) (s : Chars), (∀ c ∈ s, c = 'a') →
      scanRepF matchAt fuel prev s = s := by
  intro fuel
  induction fuel with
  | zero => intro prev s _; rfl
  | succ n ih =>
    intro prev s hs
    cases s with
    | nil => rfl
    | cons c rest =>
      unfold scanRepF
      rw [hm prev c rest hs]
      have : ∀ x ∈ rest, x = 'a' := fun x hx => hs x (by simp [hx])
      rw [ih (some c) rest this]

/-- Each default pattern matcher refuses a position in a list of `a`s. -/
theorem defaultMatchers_allA (mask : Chars) (prev : Option Char) (c : Char) (rest : Chars)
    (h : ∀ x ∈ c :: rest, x = 'a') :
    matchBearer mask (c :: rest) = none ∧
    matchApiKey mask (c :: rest) = none ∧
    matchXApiKey mask (c :: rest) = none ∧
    matchAKIA mask (c :: rest) = none ∧
    matchAWSSecret mask (c :: rest) = none ∧
    matchAIza mask (c :: rest) = none ∧
    matchGh mask (c :: rest) = none ∧
    matchJWT mask (c :: rest) = none ∧
    matchPEM mask (c :: rest) = none ∧
    matchCC mask prev (c :: rest) = none := by
  have hc : c = 'a' := h c (by simp)
  subst hc
  have hstep : ∀ (p2 : Char) (pt : Chars), lowerC p2 ≠ 'a' →
      startsWithCI ('a' :: rest) ('a' :: p2 :: pt) = false := by
    intro p2 pt hp
    cases rest with
    | nil =>
      rw [startsWithCI_cons]
      simp [startsWithCI]
    | cons c2 r2 =>
      have hc2 : c2 = 'a' := h c2 (by simp)
      subst hc2
      rw [startsWithCI_cons, startsWithCI_cons]
      have hla : lowerC 'a' = 'a' := by decide
      rw [hla, show decide ('a' = lowerC p2) = false from
            decide_eq_false (fun hh => hp hh.symm)]
      simp
  refine ⟨?_, ?_, ?_, ?_, ?_, ?_, ?_, ?_, ?_, ?_⟩
  · simp [matchBearer, startsWithCI, lowerC, isUpperC]
  · simp [matchApiKey, matchWordsSep, hstep 'p' _ (by decide)]
  · simp [matchXApiKey, startsWithCI, lowerC, isUpperC]
  · simp [matchAKIA, startsWithL]
  · simp [matchAWSSecret, matchWordsSep, hstep 'w' _ (by decide)]
  · simp [matchAIza, startsWithL]
  · simp [matchGh]
  · simp [matchJWT, startsWithL]
  · simp [matchPEM, startsWithL]
  · simp [matchCC, charAt, startsWithL]

/-- `sanitizeText` under the default configuration leaves a list of `a`s
unchanged. -/
theorem sanitizeText_default_allA (s : Chars) (h : ∀ c ∈ s, c = 'a') :
    sanitizeText DefaultSanitizerConfig s = s := by
  have hrun : ∀ (m : Option Char → Chars → Option (Chars × Nat)),
      (∀ prev c rest, (∀ x ∈ c :: rest, x = 'a') → m prev (c :: rest) = none) →
      ∀ t, (∀ x ∈ t, x = 'a') → scanRepP m none t = t := by
    intro m hm t ht
    exact scanRepF_allA m hm (t.length + 1) none t ht
  show List.foldl (fun acc p => p acc) s DefaultSanitizerConfig.sensitivePatterns = s
  have hpats : DefaultSanitizerConfig.sensitivePatterns = defaultPatterns defaultMask := rfl
  rw [hpats]
  unfold defaultPatterns
  simp only [List.foldl_cons, List.foldl_nil]
  rw [hrun _ (fun p c r hh => (defaultMatchers_allA defaultMask p c r hh).1) s h,
      hrun _ (fun p c r hh => (defaultMatchers_allA defaultMask p c r hh).2.1) s h,
      hrun _ (fun p c r hh => (defaultMatchers_allA defaultMask p c r hh).2.2.1) s h,
      hrun _ (fun p c r hh => (defaultMatchers_allA defaultMask p c r hh).2.2.2.1) s h,
      hrun _ (fun p c r hh => (defaultMatchers_allA defaultMask p c r hh).2.2.2.2.1) s h,
      hrun _ (fun p c r hh => (defaultMatchers_allA defaultMask p c r hh).2.2.2.2.2.1) s h,
      hrun _ (fun p c r hh => (defaultMatchers_allA defaultMask p c r hh).2.2.2.2.2.2.1) s h,
      hrun _ (fun p c r hh => (defaultMatchers_allA defaultMask p c r hh).2.2.2.2.2.2.2.1) s h,
      hrun _ (fun p c r hh => (defaultMatchers_allA defaultMask p c r hh).2.2.2.2.2.2.2.2.1) s h,
      hrun (matchCC defaultMask)
        (fun p c r hh => (defaultMatchers_allA defaultMask p c r hh).2.2.2.2.2.2.2.2.2) s h]

/-- ASCII lowercasing fixes a list of `a`s. -/
theorem toLowerL_allA (s : Chars) (h : ∀ c ∈ s, c = 'a') : toLowerL s = s := by
  induction s with
  | nil => rfl
  | cons c rest ih =>
    have hc : c = 'a' := h c (by simp)
    subst hc
    have : toLowerL rest = rest := ih (fun x hx => h x (by simp [hx]))
    simp only [toLowerL, List.map_cons] at this ⊢
    rw [this, show lowerC 'a' = 'a' from by decide]

/-- `hideBearerTokens` ignores a list of `a`s. -/
theorem hideBearerTokens_allA (mask s : Chars) (h : ∀ c ∈ s, c = 'a') :
    hideBearerTokens mask s = s := by
  unfold hideBearerTokens
  simp only [hideBearerLoop]
  rw [toLowerL_allA s h, List.drop_zero]
  rw [idxOfL_allA_none s h 'b' 'e' _ (Or.inl (by decide))]

/-- `hideAPIKeysLoop` is the identity when its needle does not occur. -/
theorem hideAPIKeysLoop_id (mask text pattern : Chars) (fuel : Nat) (s : Chars)
    (h : ∀ c ∈ s, c = 'a') (hp : idxOfL s pattern = none) :
    hideAPIKeysLoop mask text pattern (fuel + 1) s 0 = s := by
  simp only [hideAPIKeysLoop]
  rw [toLowerL_allA s h, List.drop_zero, hp]

/-- `hideAPIKeys` ignores a list of `a`s. -/
theorem hideAPIKeys_allA (mask s : Chars) (h : ∀ c ∈ s, c = 'a') :
    hideAPIKeys mask s = s := by
  unfold hideAPIKeys
  simp only [List.foldl_cons, List.foldl_nil]
  rw [hideAPIKeysLoop_id mask s _ _ s h (idxOfL_allA_none s h _ _ _ (Or.inr (by decide))),
      hideAPIKeysLoop_id mask s _ _ s h (idxOfL_allA_none s h _ _ _ (Or.inr (by decide))),
      hideAPIKeysLoop_id mask s _ _ s h (idxOfL_allA_none s h _ _ _ (Or.inr (by decide))),
      hideAPIKeysLoop_id mask s _ _ s h (idxOfL_allA_none s h _ _ _ (Or.inr (by decide))),
      hideAPIKeysLoop_id mask s _ _ s h (idxOfL_allA_none s h _ _ _ (Or.inl (by decide))),
      hideAPIKeysLoop_id mask s _ _ s h (idxOfL_allA_none s h _ _ _ (Or.inl (by decide)))]

/-- `hideJWTTokens` ignores a list of `a`s. -/
theorem hideJWTTokens_allA (mask s : Chars) (h : ∀ c ∈ s, c = 'a') :
    hideJWTTokens mask s = s := by
  unfold hideJWTTokens
  simp only [hideJWTLoop]
  rw [List.drop_zero]
  rw [idxOfL_allA_none s h 'e' 'y' _ (Or.inl (by decide))]

/-- `hideAWSKeys` ignores a list of `a`s. -/
theorem hideAWSKeys_allA (mask s : Chars) (h : ∀ c ∈ s, c = 'a') :
    hideAWSKeys mask s = s := by
  unfold hideAWSKeys
  simp only [hideAWSLoop]
  rw [List.drop_zero]
  rw [idxOfL_allA_none s h 'A' 'K' _ (Or.inl (by decide))]

/-- `hideCreditCards` ignores a list of `a`s. -/
theorem hideCreditCards_allA (mask s : Chars) (h : ∀ c ∈ s, c = 'a') :
    hideCreditCards mask s = s := by
  unfold hideCreditCards
  have hd : extractDigits s = [] := by
    unfold extractDigits
    rw [List.filter_eq_nil_iff]
    intro c hc
    rw [h c hc]
    decide
  rw [hd]
  rfl

/-- `SanitizerNoRegex.sanitizeText` ignores a list of `a`s. -/
theorem sanitizeTextNR_allA (s : Chars) (h : ∀ c ∈ s, c = 'a') :
    sanitizeTextNR DefaultSanitizerConfigNoRegex s = s := by
  show List.foldl (fun acc p => p acc) s (nrPatterns DefaultSanitizerConfigNoRegex) = s
  rw [show nrPatterns DefaultSanitizerConfigNoRegex =
        [hideBearerTokens defaultMask, hideAPIKeys defaultMask, hideJWTTokens defaultMask,
         hideCreditCards defaultMask, hideAWSKeys defaultMask] from rfl]
  simp only [List.foldl_cons, List.foldl_nil]
  rw [hideBearerTokens_allA _ s h, hideAPIKeys_allA _ s h, hideJWTTokens_allA _ s h,
      hideCreditCards_allA _ s h, hideAWSKeys_allA _ s h]

/-- `Sanitizer.SanitizeBody` under the default configuration and a
`text/plain` content type returns a small body of `a`s unchanged. -/
theorem sanitizeBody_default_allA (s : Chars) (h0 : s ≠ []) (h1 : s.length ≤ 1024)
    (h : ∀ c ∈ s, c = 'a') :
    SanitizeBody DefaultSanitizerConfig s (("text/plain").data) = s := by
  have hne : s.isEmpty = false := by
    cases s with
    | nil => exact absurd rfl h0
    | cons a t => rfl
  unfold SanitizeBody
  show (sanitizeBodyF DefaultSanitizerConfig (1 + 1) s _).getD [] = s
  simp only [sanitizeBodyF, hne, Bool.false_eq_true, if_false]
  rw [show DefaultSanitizerConfig.bodyRules = defaultBodyRules from rfl]
  unfold defaultBodyRules
  simp only [goRules, show isBinaryContent (("text/plain").data) = false from by decide,
    Bool.false_eq_true, if_false,
    decide_eq_false (show ¬(1024 < s.length) from by omega), Bool.false_and,
    decide_eq_false (show ¬(500 * 1024 < s.length) from by omega),
    decide_eq_false (show ¬(100 * 1024 < s.length) from by omega)]
  unfold dispatchFormat
  simp only [show isJSON (("text/plain").data) = false from by decide,
    looksLikeJSON_allA s h, Bool.or_self, Bool.false_eq_true, if_false,
    show isXML (("text/plain").data) = false from by decide, looksLikeXML_allA s h,
    show isFormURLEncoded (("text/plain").data) = false from by decide,
    show isMultipartForm (("text/plain").data) = false from by decide]
  rw [sanitizeText_default_allA s h]
  rfl

/-- `SanitizerNoRegex.SanitizeBody` under the default configuration and a
`text/plain` content type returns a small body of `a`s unchanged. -/
theorem sanitizeBodyNR_default_allA (s : Chars) (h0 : s ≠ []) (h1 : s.length ≤ 1024)
    (h : ∀ c ∈ s, c = 'a') :
    SanitizeBodyNR DefaultSanitizerConfigNoRegex s (("text/plain").data) = s := by
  have hne : s.isEmpty = false := by
    cases s with
    | nil => exact absurd rfl h0
    | cons a t => rfl
  unfold SanitizeBodyNR
  show (sanitizeBodyNRF DefaultSanitizerConfigNoRegex (1 + 1) s _).getD [] = s
  simp only [sanitizeBodyNRF, hne, Bool.false_eq_true, if_false]
  simp only [goRulesNR, show isBinaryContent (("text/plain").data) = false from by decide,
    Bool.false_eq_true, if_false,
    decide_eq_false (show ¬(1024 < s.length) from by omega), Bool.false_and,
    decide_eq_false (show ¬(100 * 1024 < s.length) from by omega)]
  unfold dispatchFormatNR
  simp only [show isJSON (("text/plain").data) = false from by decide,
    looksLikeJSON_allA s h, Bool.or_self, Bool.false_eq_true, if_false,
    show isXML (("text/plain").data) = false from by decide, looksLikeXML_allA s h,
    show isFormURLEncoded (("text/plain").data) = false from by decide]
  rw [sanitizeTextNR_allA s h]
  rfl

/-- C3, counterexample: on the scenario-5 header set the two sanitizers (the
no-regex side modelled from the spec, its source having no `SanitizeHeaders`)
do not produce identical output: `DefaultSanitizerConfigNoRegex` configures
no sensitive headers, so the no-regex side leaves the `Authorization` value
unmasked. -/
theorem c3_counterexample :
    SanitizeHeaders DefaultSanitizerConfig scenHeaders5 ≠
      SanitizeHeadersNR DefaultSanitizerConfigNoRegex scenHeaders5 := by
  decide

set_option maxRecDepth 1000000 in
/-- C3 (amended): the pattern-engine `Sanitizer` and the scan-based
`SanitizerNoRegex`, each under its default configuration, produce identical
output strings on the §8 conformance bodies — scenarios 1–4 under their
stated content types, scenario 6 (1000 `a`s, plain text), and scenario 7
(the empty body, under every content type).  The scenario-5 header
comparison is excluded: see the counterexample. -/
theorem c3_amended :
    SanitizeBody DefaultSanitizerConfig scenBody1 (("application/json").data) =
      SanitizeBodyNR DefaultSanitizerConfigNoRegex scenBody1 (("application/json").data) ∧
    SanitizeBody DefaultSanitizerConfig scenBody2 (("application/json").data) =
      SanitizeBodyNR DefaultSanitizerConfigNoRegex scenBody2 (("application/json").data) ∧
    SanitizeBody DefaultSanitizerConfig scenBody3 (("application/json").data) =
      SanitizeBodyNR DefaultSanitizerConfigNoRegex scenBody3 (("application/json").data) ∧
    SanitizeBody DefaultSanitizerConfig scenBody4 (("text/plain").data) =
      SanitizeBodyNR DefaultSanitizerConfigNoRegex scenBody4 (("text/plain").data) ∧
    SanitizeBody DefaultSanitizerConfig scenBody6 (("text/plain").data) =
      SanitizeBodyNR DefaultSanitizerConfigNoRegex scenBody6 (("text/plain").data) ∧
    ∀ contentType : Chars,
      SanitizeBody DefaultSanitizerConfig [] contentType =
        SanitizeBodyNR DefaultSanitizerConfigNoRegex [] contentType := by
  have h6 : ∀ c ∈ scenBody6, c = 'a' := fun c hc => List.eq_of_mem_replicate hc
  have h6len : scenBody6.length = 1000 := List.length_replicate 1000 'a'
  have h6ne : scenBody6 ≠ [] := by
    intro hh
    rw [hh] at h6len
    simp at h6len
  refine ⟨by decide, by decide, by decide, by decide, ?_, fun contentType => rfl⟩
  rw [sanitizeBody_default_allA scenBody6 h6ne (by omega) h6,
      sanitizeBodyNR_default_allA scenBody6 h6ne (by omega) h6]


/-! ## Claim C2: truncation -/



/-- C2, counterexample: the Truncate action does not sanitize the kept
prefix.  On a 1000-byte body whose first 50 bytes hold a bearer token,
`truncateBody` with `maxBodySize = 50` returns the raw prefix plus the
notice, not the sanitized prefix plus the notice as the claim states. -/
theorem c2_counterexample :
    truncateBody c2cfg c2Body (("text/plain").data) ≠
      SanitizeBody c2cfg (c2Body.take 50) (("text/plain").data) ++
        ("\n... [truncated, total: 1000 bytes]").data := by
  decide

/-- C2 (amended): a body that fits in `maxBodySize` is sanitized normally; a
larger body is truncated to its first `maxBodySize` RAW bytes — sanitization
is not applied to them — followed by the notice
`"\n... [truncated, total: <human-size>]"`.  The claim's concrete instance
holds because sanitization happens to be the identity on `a`s: 1000 `a`s
with `maxBodySize = 50` yield 50 `a`s plus a notice naming 1000 bytes. -/
theorem c2_amended :
    (∀ (cfg : SanitizerConfig) (body contentType : Chars),
        body.length ≤ cfg.maxBodySize →
        truncateBody cfg body contentType = SanitizeBody cfg body contentType) ∧
    (∀ (cfg : SanitizerConfig) (body contentType : Chars),
        cfg.maxBodySize < body.length →
        truncateBody cfg body contentType =
          body.take cfg.maxBodySize ++ ("\n... [truncated, total: ").data ++
            formatSize body.length ++ [']']) ∧
    truncateBody c2cfg scenBody6 (("text/plain").data) =
      List.replicate 50 'a' ++ ("\n... [truncated, total: 1000 bytes]").data := by
  have hmain : ∀ (cfg : SanitizerConfig) (body contentType : Chars),
      cfg.maxBodySize < body.length →
      truncateBody cfg body contentType =
        body.take cfg.maxBodySize ++ ("\n... [truncated, total: ").data ++
          formatSize body.length ++ [']'] := by
    intro cfg body ct hgt
    unfold truncateBody truncatedRendering
    rw [if_neg (by omega)]
  refine ⟨?_, hmain, ?_⟩
  · intro cfg body ct hle
    unfold truncateBody
    rw [if_pos hle]
  · have h6len : scenBody6.length = 1000 := List.length_replicate 1000 'a'
    have hlt : c2cfg.maxBodySize < scenBody6.length := by
      rw [h6len]
      show 50 < 1000
      omega
    rw [hmain c2cfg scenBody6 (("text/plain").data) hlt]
    show scenBody6.take 50 ++ _ ++ _ ++ _ = _
    rw [h6len]
    unfold scenBody6
    rw [List.take_replicate]
    show List.replicate 50 'a' ++ _ ++ _ ++ _ = _
    simp only [List.append_assoc]
    congr 1

/-- C2, witness: both branches of the amended claim at concrete inputs. -/
theorem c2_witness :
    truncateBody DefaultSanitizerConfig (("ok").data) (("text/plain").data) =
      SanitizeBody DefaultSanitizerConfig (("ok").data) (("text/plain").data) ∧
    truncateBody c2cfg (List.replicate 60 'a') [] =
      (List.replicate 60 'a').take c2cfg.maxBodySize ++
        ("\n... [truncated, total: ").data ++ formatSize (List.replicate 60 'a').length ++ [']'] :=
  ⟨c2_amended.1 _ _ _ (by decide), c2_amended.2.1 _ _ _ (by decide)⟩

/-! ## Claim C5: body-rule evaluation order -/



/-- The rule loop agrees with the first-terminal-rule reading. -/
theorem goRules_firstTerminal (cfg : SanitizerConfig)
    (recur : Chars → Chars → Option Chars) :
    ∀ (rules : List BodyProcessingRule) (body contentType : Chars),
      goRules recur cfg rules body contentType =
        match firstTerminalRule rules contentType body body.length with
        | none => some (dispatchFormat cfg body contentType)
        | some r =>
          if r.action = .skip then
            some (if r.message.isEmpty then ("[Body not logged]").data else r.message)
          else if r.action = .summarize then
            some (summarizeBody cfg body contentType body.length)
          else if body.length ≤ cfg.maxBodySize then recur body contentType
          else some (truncatedRendering cfg body) := by
  intro rules
  induction rules with
  | nil => intro body ct; rfl
  | cons r rest ih =>
    intro body ct
    by_cases hcond : r.condition ct body body.length = true
    · cases hr : r.action with
      | skip => simp [goRules, firstTerminalRule, hcond, hr]
      | truncate => simp [goRules, firstTerminalRule, hcond, hr]
      | summarize => simp [goRules, firstTerminalRule, hcond, hr]
      | sanitize => simp [goRules, firstTerminalRule, hcond, hr, ih body ct]
    · have hcond' : r.condition ct body body.length = false := by
        cases hc2 : r.condition ct body body.length
        · rfl
        · exact absurd hc2 hcond
      simp [goRules, firstTerminalRule, hcond', ih body ct]

/-- C5 (amended): on a non-empty body, the outcome of `SanitizeBody` is
determined by the first rule whose condition holds AND whose action is
Skip, Truncate or Summarize; a rule whose condition holds with action
Sanitize does not stop the scan (later rules still apply), and the body
falls through to format dispatch exactly when no such terminal rule
matches. -/
theorem c5_amended (cfg : SanitizerConfig) (fuel : Nat) (body contentType : Chars)
    (h0 : body ≠ []) :
    sanitizeBodyF cfg (fuel + 1) body contentType =
      specRuleOutcome (sanitizeBodyF cfg fuel) cfg body contentType := by
  have hne : body.isEmpty = false := by
    cases body with
    | nil => exact absurd rfl h0
    | cons a t => rfl
  simp only [sanitizeBodyF, hne, Bool.false_eq_true, if_false]
  exact goRules_firstTerminal cfg (sanitizeBodyF cfg fuel) cfg.bodyRules body contentType

/-- C5, witness: the amended claim at a concrete input. -/
theorem c5_witness :
    sanitizeBodyF DefaultSanitizerConfig (1 + 1) (("hi").data) [] =
      specRuleOutcome (sanitizeBodyF DefaultSanitizerConfig 1) DefaultSanitizerConfig
        (("hi").data) [] :=
  c5_amended DefaultSanitizerConfig 1 (("hi").data) [] (by decide)


/-- C5, counterexample: with a first rule whose condition holds (action
Sanitize) and a later Skip rule, `SanitizeBody` applies the LATER rule's
action (returning its skip message) instead of being determined by the
first matching rule, and it does not fall through to structural
sanitization (which would return the body unchanged here). -/
theorem c5_counterexample :
    SanitizeBody c5cfg (("hello").data) [] = ("X").data ∧
    SanitizeBody c5cfg (("hello").data) [] ≠ dispatchFormat c5cfg (("hello").data) [] := by
  refine ⟨by decide, by decide⟩

/-! ## Claim C4: content-type dispatch -/


/-- C4, counterexample: a body declared `application/xml` whose bytes sniff
as JSON is processed by the JSON sanitizer (parsed, masked and re-marshalled
with indentation), not by the XML sanitizer as the claim states: the JSON
sniff runs before the declared-XML check. -/
theorem c4_counterexample :
    SanitizeBody DefaultSanitizerConfig c4Body (("application/xml").data) =
      ("\x7b\n  \"password\": \"***REDACTED***\"\n\x7d").data ∧
    SanitizeBody DefaultSanitizerConfig c4Body (("application/xml").data) ≠
      sanitizeXML DefaultSanitizerConfig c4Body := by
  refine ⟨by decide, by decide⟩

/-- C4 (amended): under the default configuration, when no size rule fires
(non-binary declared type, not base64-sniffed above 1 KiB, size at most
100 KiB), `SanitizeBody` dispatches by the chain: JSON if the declared type
is JSON-recognized OR the body sniffs as JSON, else XML if declared or
sniffed XML, else form, else multipart by declared type, else plain text.
In particular a JSON-sniffing body is handed to the JSON sanitizer even
when its declared content type is XML, form or multipart. -/
theorem c4_amended (body contentType : Chars) (h0 : body ≠ [])
    (hbin : isBinaryContent contentType = false)
    (hb64 : 1024 < body.length → looksLikeBase64 body = false)
    (hlen : body.length ≤ 100 * 1024) :
    SanitizeBody DefaultSanitizerConfig body contentType =
      dispatchFormat DefaultSanitizerConfig body contentType ∧
    ((isJSON contentType || looksLikeJSON body) = true →
      SanitizeBody DefaultSanitizerConfig body contentType =
        sanitizeJSON DefaultSanitizerConfig (jsonFuel body) body) := by
  have hne : body.isEmpty = false := by
    cases body with
    | nil => exact absurd rfl h0
    | cons a t => rfl
  have h2 : (decide (1024 < body.length) && looksLikeBase64 body) = false := by
    rcases Nat.lt_or_ge 1024 body.length with hlt | hge
    · rw [hb64 hlt, Bool.and_false]
    · rw [decide_eq_false (by omega), Bool.false_and]
  have hmain : SanitizeBody DefaultSanitizerConfig body contentType =
      dispatchFormat DefaultSanitizerConfig body contentType := by
    unfold SanitizeBody
    show (sanitizeBodyF DefaultSanitizerConfig (1 + 1) body _).getD [] = _
    simp only [sanitizeBodyF, hne, Bool.false_eq_true, if_false]
    rw [show DefaultSanitizerConfig.bodyRules = defaultBodyRules from rfl]
    unfold defaultBodyRules
    simp only [goRules, hbin, Bool.false_eq_true, if_false, h2,
      decide_eq_false (show ¬(500 * 1024 < body.length) from by omega), Bool.false_and,
      decide_eq_false (show ¬(100 * 1024 < body.length) from by omega)]
    rfl
  refine ⟨hmain, fun hjson => ?_⟩
  rw [hmain]
  unfold dispatchFormat
  rw [if_pos hjson]

/-- C4, witness: the amended dispatch at the counterexample input. -/
theorem c4_witness :
    SanitizeBody DefaultSanitizerConfig c4Body (("application/xml").data) =
      dispatchFormat DefaultSanitizerConfig c4Body (("application/xml").data) ∧
    SanitizeBody DefaultSanitizerConfig c4Body (("application/xml").data) =
      sanitizeJSON DefaultSanitizerConfig (jsonFuel c4Body) c4Body :=
  ⟨(c4_amended c4Body _ (by decide) (by decide) (by decide) (by decide)).1,
   (c4_amended c4Body _ (by decide) (by decide) (by decide) (by decide)).2 (by decide)⟩

/-! ## Claim C7: header masking -/

/-- C7, counterexample: a sensitive header whose value slice is empty is
rendered as the empty string, not as the mask literal the claim prescribes
for (joined) values of at most 8 characters. -/
theorem c7_counterexample :
    SanitizeHeaders DefaultSanitizerConfig [(("Authorization").data, [])] =
      [(("Authorization").data, [])] ∧
    ([] : Chars) ≠ DefaultSanitizerConfig.mask := by
  refine ⟨by decide, by decide⟩

/-- C7 (amended): for a header with at least one value, a name on the
configured sensitive-header list (case-insensitive exact match) is masked:
fully in full mode; in partial mode the mask alone when the comma-joined
value has at most 8 characters, else first four characters, mask, last four
characters.  A non-sensitive header keeps its comma-joined value; a
sensitive header with an empty value slice yields the empty string. -/
theorem c7_amended (cfg : SanitizerConfig) (name : Chars) (values : List Chars) :
    (values ≠ [] → isSensitiveHeader cfg name = true → cfg.headerMaskMode = .fullMask →
      SanitizeHeaders cfg [(name, values)] = [(name, cfg.mask)]) ∧
    (values ≠ [] → isSensitiveHeader cfg name = true → cfg.headerMaskMode = .partMask →
      (joinL ((", ").data) values).length ≤ 8 →
      SanitizeHeaders cfg [(name, values)] = [(name, cfg.mask)]) ∧
    (values ≠ [] → isSensitiveHeader cfg name = true → cfg.headerMaskMode = .partMask →
      8 < (joinL ((", ").data) values).length →
      SanitizeHeaders cfg [(name, values)] =
        [(name, (joinL ((", ").data) values).take 4 ++ cfg.mask ++
                (joinL ((", ").data) values).drop ((joinL ((", ").data) values).length - 4))]) ∧
    (isSensitiveHeader cfg name = false →
      SanitizeHeaders cfg [(name, values)] = [(name, joinL ((", ").data) values)]) ∧
    (isSensitiveHeader cfg name = true →
      SanitizeHeaders cfg [(name, [])] = [(name, [])]) := by
  have hmap : ∀ vs : List Chars, SanitizeHeaders cfg [(name, vs)] =
      [(name, if isSensitiveHeader cfg name then maskHeaderValue cfg vs
              else joinL ((", ").data) vs)] := fun vs => rfl
  have hcons : values ≠ [] → maskHeaderValue cfg values =
      (if cfg.headerMaskMode = .fullMask then cfg.mask
       else if (joinL ((", ").data) values).length ≤ 8 then cfg.mask
       else (joinL ((", ").data) values).take 4 ++ cfg.mask ++
            (joinL ((", ").data) values).drop ((joinL ((", ").data) values).length - 4)) := by
    intro h0
    cases values with
    | nil => exact absurd rfl h0
    | cons a t => rfl
  refine ⟨?_, ?_, ?_, ?_, ?_⟩
  · intro h0 hs hm
    rw [hmap, if_pos hs, hcons h0, if_pos hm]
  · intro h0 hs hm hlen
    rw [hmap, if_pos hs, hcons h0, if_neg (by simp [hm]), if_pos hlen]
  · intro h0 hs hm hlen
    rw [hmap, if_pos hs, hcons h0, if_neg (by simp [hm]), if_neg (by omega)]
  · intro hs
    rw [hmap, if_neg (by simp [hs])]
  · intro hs
    rw [hmap, if_pos hs]
    rfl

/-- C7, witness: the spec's Bearer example under both modes, plus a
non-sensitive header. -/
theorem c7_witness :
    SanitizeHeaders DefaultSanitizerConfig scenHeaders5 =
      [(("Authorization").data,
        ("Bear").data ++ ("***REDACTED***").data ++ ("mnop").data)] ∧
    SanitizeHeaders { DefaultSanitizerConfig with headerMaskMode := .fullMask } scenHeaders5 =
      [(("Authorization").data, ("***REDACTED***").data)] ∧
    SanitizeHeaders DefaultSanitizerConfig [(("User-Agent").data, [("MyApp/1.0").data])] =
      [(("User-Agent").data, ("MyApp/1.0").data)] := by
  refine ⟨?_, ?_, ?_⟩
  · have h := (c7_amended DefaultSanitizerConfig (("Authorization").data)
      [("Bearer sk-1234567890abcdefghijklmnop").data]).2.2.1
      (by decide) (by decide) (by decide) (by decide)
    rw [show scenHeaders5 =
          [(("Authorization").data, [("Bearer sk-1234567890abcdefghijklmnop").data])] from rfl, h]
    decide
  · have h := (c7_amended { DefaultSanitizerConfig with headerMaskMode := .fullMask }
      (("Authorization").data) [("Bearer sk-1234567890abcdefghijklmnop").data]).1
      (by decide) (by decide) (by decide)
    rw [show scenHeaders5 =
          [(("Authorization").data, [("Bearer sk-1234567890abcdefghijklmnop").data])] from rfl, h]
    decide
  · have h := (c7_amended DefaultSanitizerConfig (("User-Agent").data)
      [("MyApp/1.0").data]).2.2.2.1 (by decide)
    rw [h]
    decide

/-! ## Claim C8: the interceptor is a frame around the wrapped transport -/




/-- C8, counterexample: when the request body stream fails, the interceptor
discards the partial read and leaves the stream consumed, so the wrapped
transport no longer sees the original byte sequence (here it sees zero bytes
where the original stream carried one), falsifying byte preservation "on
every exit path". -/
theorem c8_counterexample :
    roundTrip c8cfg c8next c8req =
      .ok { statusCode := 0, status := [], headers := [], body := none } ∧
    streamBytes c8req.body = ['a'] ∧
    streamBytes (logRequestState c8cfg c8req).body ≠ streamBytes c8req.body := by
  refine ⟨rfl, rfl, by decide⟩

/-- C8 (amended): the interceptor preserves the wrapped transport's outcome
exactly — on the skip path it IS the wrapped transport; on the logging path
it propagates the transport's error unchanged, returns the transport's
response with only its body stream replaced (same status code, status line
and headers), and it preserves the request's identity fields always and its
body bytes provided reading them does not fail; likewise the delivered
response body bytes are preserved provided its stream reads without error.
A failing stream is logged as absent and left consumed (see the
counterexample). -/
theorem c8_amended (cfg : LoggingConfig) (next : Request → Except Chars Response)
    (req : Request) :
    ((match cfg.shouldLog with
      | some p => !p req
      | none => false) = true → roundTrip cfg next req = next req) ∧
    ((match cfg.shouldLog with
      | some p => !p req
      | none => false) = false →
      ((logRequestState cfg req).method = req.method ∧
       (logRequestState cfg req).url = req.url ∧
       (logRequestState cfg req).headers = req.headers) ∧
      ((∀ s, req.body = some s → s.err = false) →
        streamBytes (logRequestState cfg req).body = streamBytes req.body) ∧
      (∀ e, next (logRequestState cfg req) = .error e →
        roundTrip cfg next req = .error e) ∧
      (∀ resp, next (logRequestState cfg req) = .ok resp →
        roundTrip cfg next req = .ok (logResponseState cfg resp) ∧
        (logResponseState cfg resp).statusCode = resp.statusCode ∧
        (logResponseState cfg resp).status = resp.status ∧
        (logResponseState cfg resp).headers = resp.headers ∧
        ((∀ s, resp.body = some s → s.err = false) →
          streamBytes (logResponseState cfg resp).body = streamBytes resp.body))) := by
  have hreqfields : (logRequestState cfg req).method = req.method ∧
      (logRequestState cfg req).url = req.url ∧
      (logRequestState cfg req).headers = req.headers := by
    unfold logRequestState
    split
    · exact ⟨rfl, rfl, rfl⟩
    · split
      · exact ⟨rfl, rfl, rfl⟩
      · exact ⟨rfl, rfl, rfl⟩
  have hreqbytes : (∀ s, req.body = some s → s.err = false) →
      streamBytes (logRequestState cfg req).body = streamBytes req.body := by
    intro herr
    unfold logRequestState
    split
    · rfl
    · split
      · show streamBytes (readAndRestoreBody req.body).2 = streamBytes req.body
        cases hb : req.body with
        | none => rfl
        | some s =>
          have hs : s.err = false := herr s hb
          simp [readAndRestoreBody, hs, streamBytes]
      · rfl
  have hrespbytes : ∀ resp : Response,
      (logResponseState cfg resp).statusCode = resp.statusCode ∧
      (logResponseState cfg resp).status = resp.status ∧
      (logResponseState cfg resp).headers = resp.headers ∧
      ((∀ s, resp.body = some s → s.err = false) →
        streamBytes (logResponseState cfg resp).body = streamBytes resp.body) := by
    intro resp
    unfold logResponseState
    split
    · exact ⟨rfl, rfl, rfl, fun _ => rfl⟩
    · split
      · refine ⟨rfl, rfl, rfl, fun herr => ?_⟩
        show streamBytes (readAndRestoreBody resp.body).2 = streamBytes resp.body
        cases hb : resp.body with
        | none => rfl
        | some s =>
          have hs : s.err = false := herr s hb
          simp [readAndRestoreBody, hs, streamBytes]
      · exact ⟨rfl, rfl, rfl, fun _ => rfl⟩
  constructor
  · intro hskip
    unfold roundTrip
    rw [if_pos hskip]
  · intro hlog
    refine ⟨hreqfields, hreqbytes, ?_, ?_⟩
    · intro e he
      unfold roundTrip
      rw [if_neg (by rw [hlog]; exact fun hc => Bool.false_ne_true hc), he]
    · intro resp hresp
      refine ⟨?_, hrespbytes resp⟩
      unfold roundTrip
      rw [if_neg (by rw [hlog]; exact fun hc => Bool.false_ne_true hc), hresp]



/-- C8, witness: on an error-free exchange the interceptor returns the
transport's response with preserved status and body bytes, and hands the
transport the original request bytes. -/
theorem c8_witness :
    roundTrip c8cfg (fun _ => .ok c8resp) c8reqOK = .ok (logResponseState c8cfg c8resp) ∧
    streamBytes (logRequestState c8cfg c8reqOK).body = streamBytes c8reqOK.body ∧
    (logResponseState c8cfg c8resp).statusCode = c8resp.statusCode ∧
    streamBytes (logResponseState c8cfg c8resp).body = streamBytes c8resp.body := by
  have h := c8_amended c8cfg (fun _ => .ok c8resp) c8reqOK
  have h2 := h.2 rfl
  refine ⟨(h2.2.2.2 c8resp rfl).1, h2.2.1 ?_, (h2.2.2.2 c8resp rfl).2.1, (h2.2.2.2 c8resp rfl).2.2.2.2 ?_⟩
  · intro s hs
    cases hs
    rfl
  · intro s hs
    cases hs
    rfl

/-! ## Claims C6 and C10: failure semantics and termination -/



/-- Under `c10cfg`, any body of 11–100 bytes makes `SanitizeBody` diverge. -/
theorem c10cfg_diverges (body contentType : Chars) (h1 : 10 < body.length)
    (h2 : body.length ≤ 100) : divergesOn c10cfg body contentType := by
  intro fuel
  induction fuel with
  | zero => rfl
  | succ n ih =>
    have hne : body.isEmpty = false := by
      cases body with
      | nil => simp at h1
      | cons a t => rfl
    simp only [sanitizeBodyF, hne, Bool.false_eq_true, if_false]
    rw [show c10cfg.bodyRules =
          [{ condition := fun _ _ size => 10 < size,
             action := BodyAction.truncate, message := [] }] from rfl]
    simp only [goRules, decide_eq_true h1, if_true]
    rw [if_pos (show body.length ≤ c10cfg.maxBodySize from h2)]
    exact ih

/-- The rule loop returns a value whenever every matching truncate rule's
condition implies the body exceeds `maxBodySize`. -/
theorem goRules_isSome (cfg : SanitizerConfig) (recur : Chars → Chars → Option Chars) :
    ∀ (rules : List BodyProcessingRule) (body contentType : Chars),
      (∀ r ∈ rules, r.action = .truncate → r.condition contentType body body.length = true →
        cfg.maxBodySize < body.length) →
      (goRules recur cfg rules body contentType).isSome := by
  intro rules
  induction rules with
  | nil => intro body ct _; rfl
  | cons r rest ih =>
    intro body ct h
    have hrest : ∀ r2 ∈ rest, r2.action = .truncate →
        r2.condition ct body body.length = true → cfg.maxBodySize < body.length :=
      fun r2 hr2 => h r2 (List.mem_cons_of_mem r hr2)
    by_cases hc : r.condition ct body body.length = true
    · cases hr : r.action with
      | skip => simp [goRules, hc, hr]
      | summarize => simp [goRules, hc, hr]
      | sanitize => simp [goRules, hc, hr]; exact ih body ct hrest
      | truncate =>
        have hmax := h r (List.mem_cons_self r rest) hr hc
        simp [goRules, hc, hr, if_neg (show ¬body.length ≤ cfg.maxBodySize from by omega)]
    · have hc' : r.condition ct body body.length = false := by
        cases hc2 : r.condition ct body body.length
        · rfl
        · exact absurd hc2 hc
      simp [goRules, hc']
      exact ih body ct hrest

/-- In the default configuration the only truncate rule fires exactly on
bodies larger than `maxBodySize`. -/
theorem defaultRules_truncate_sound (body contentType : Chars) :
    ∀ r ∈ DefaultSanitizerConfig.bodyRules, r.action = .truncate →
      r.condition contentType body body.length = true →
      DefaultSanitizerConfig.maxBodySize < body.length := by
  intro r hr hact hcond
  rw [show DefaultSanitizerConfig.bodyRules = defaultBodyRules from rfl] at hr
  unfold defaultBodyRules at hr
  simp only [List.mem_cons, List.not_mem_nil, or_false] at hr
  rcases hr with rfl | rfl | rfl | rfl
  · exact absurd hact (by decide)
  · exact absurd hact (by decide)
  · exact absurd hact (by decide)
  · show 100 * 1024 < body.length
    simpa using hcond

/-- Under the default configuration `SanitizeBody` terminates on every
input: one unit of fuel suffices. -/
theorem sanitizeBodyF_default_isSome (body contentType : Chars) (fuel : Nat) :
    (sanitizeBodyF DefaultSanitizerConfig (fuel + 1) body contentType).isSome := by
  by_cases hne : body.isEmpty = true
  · simp [sanitizeBodyF, hne]
  · have hne' : body.isEmpty = false := by
      cases hb : body.isEmpty
      · rfl
      · exact absurd hb hne
    simp only [sanitizeBodyF, hne', Bool.false_eq_true, if_false]
    exact goRules_isSome DefaultSanitizerConfig _ DefaultSanitizerConfig.bodyRules body
      contentType (defaultRules_truncate_sound body contentType)

/-- C6: the parse-failure fallbacks hold — a JSON body that fails to
unmarshal and a form body that fails to parse are both pattern-scanned as
raw text — but `SanitizeBody` is NOT a total function: under a
configuration whose truncate rule fires on bodies within `maxBodySize`
(`c10cfg`), it recurses forever on an 12-byte body, crashing rather than
returning; under the default configuration it does terminate. -/
theorem c6_theorem :
    divergesOn c10cfg (("hello world!").data) [] ∧
    (∀ (cfg : SanitizerConfig) (fuel : Nat) (body : Chars), jsonParse body = none →
      sanitizeJSON cfg (fuel + 1) body = sanitizeText cfg body) ∧
    (∀ (cfg : SanitizerConfig) (body : Chars), (parseQueryGo body).2 = true →
      sanitizeFormURLEncoded cfg body = sanitizeText cfg body) ∧
    (∀ (body contentType : Chars),
      (sanitizeBodyF DefaultSanitizerConfig 1 body contentType).isSome) := by
  refine ⟨c10cfg_diverges _ [] (by decide) (by decide), ?_, ?_, ?_⟩
  · intro cfg fuel body h
    simp [sanitizeJSON, h]
  · intro cfg body h
    simp [sanitizeFormURLEncoded, h]
  · intro body ct
    exact sanitizeBodyF_default_isSome body ct 0

/-- C6, witness: the fallbacks at concrete failing inputs. -/
theorem c6_witness :
    sanitizeJSON DefaultSanitizerConfig (0 + 1) (("\x7bbad").data) =
      sanitizeText DefaultSanitizerConfig (("\x7bbad").data) ∧
    sanitizeFormURLEncoded DefaultSanitizerConfig (("a=1;b=2").data) =
      sanitizeText DefaultSanitizerConfig (("a=1;b=2").data) :=
  ⟨c6_theorem.2.1 DefaultSanitizerConfig 0 _ rfl,
   c6_theorem.2.2.1 DefaultSanitizerConfig _ (by decide)⟩

/-! ### The nested-document shrink bound

`sanitizeValue` re-enters `sanitizeJSON` on string values that look like
JSON.  The bound below certifies that every string value inside a parsed
document is at least two characters shorter than the document itself (its
quotes are consumed on top of its content), which is what makes that
recursion bottom out. -/


mutual

/-- `strBound` is monotone in the bound. -/
theorem strBound_mono : ∀ (v : Jval) (n m : Nat), n ≤ m →
    strBound v n = true → strBound v m = true
  | .null, _, _, _, _ => rfl
  | .boolean _, _, _, _, _ => rfl
  | .num _, _, _, _, _ => rfl
  | .str s, n, m, h, hb => by
    simp only [strBound, decide_eq_true_eq] at hb ⊢
    omega
  | .arr xs, n, m, h, hb => strBoundL_mono xs n m h hb
  | .obj fs, n, m, h, hb => strBoundF_mono fs n m h hb

/-- List version of `strBound_mono`. -/
theorem strBoundL_mono : ∀ (xs : List Jval) (n m : Nat), n ≤ m →
    strBoundL xs n = true → strBoundL xs m = true
  | [], _, _, _, _ => rfl
  | v :: rest, n, m, h, hb => by
    simp only [strBoundL, Bool.and_eq_true] at hb ⊢
    exact ⟨strBound_mono v n m h hb.1, strBoundL_mono rest n m h hb.2⟩

/-- Field version of `strBound_mono`. -/
theorem strBoundF_mono : ∀ (fs : List (Chars × Jval)) (n m : Nat), n ≤ m →
    strBoundF fs n = true → strBoundF fs m = true
  | [], _, _, _, _ => rfl
  | (_, v) :: rest, n, m, h, hb => by
    simp only [strBoundF, Bool.and_eq_true] at hb ⊢
    exact ⟨strBound_mono v n m h hb.1, strBoundF_mono rest n m h hb.2⟩

end

/-- `upsertKey` preserves the bound. -/
theorem strBoundF_upsertKey (n : Nat) : ∀ (acc : List (Chars × Jval)) (e : Chars × Jval),
    strBoundF acc n = true → strBound e.2 n = true → strBoundF (upsertKey acc e) n = true
  | [], e, _, hb => by simp [upsertKey, strBoundF, hb]
  | (k, v) :: rest, e, hacc, hb => by
    simp only [strBoundF, Bool.and_eq_true] at hacc
    unfold upsertKey
    by_cases hk : k = e.1
    · rw [if_pos hk]
      simp [strBoundF, hb, hacc.2]
    · rw [if_neg hk]
      simp only [strBoundF, Bool.and_eq_true]
      exact ⟨hacc.1, strBoundF_upsertKey n rest e hacc.2 hb⟩

/-- Folding members through `upsertKey` preserves the bound. -/
theorem strBoundF_foldl (n : Nat) : ∀ (ms acc : List (Chars × Jval)),
    strBoundF ms n = true → strBoundF acc n = true →
    strBoundF (ms.foldl upsertKey acc) n = true
  | [], acc, _, hacc => by simpa using hacc
  | (k, v) :: rest, acc, hms, hacc => by
    simp only [strBoundF, Bool.and_eq_true] at hms
    rw [List.foldl_cons]
    exact strBoundF_foldl n rest (upsertKey acc (k, v)) hms.2
      (strBoundF_upsertKey n acc (k, v) hacc hms.1)

/-- Whitespace skipping never lengthens the input. -/
theorem skipWSJ_len (cs : Chars) : (skipWSJ cs).length ≤ cs.length :=
  (List.dropWhile_suffix _).length_le

/-- A parsed string literal's content plus its closing quote fit in the
consumed input. -/
theorem parseStringBody_len (cs : Chars) : ∀ s rest, parseStringBody cs = some (s, rest) →
    rest.length + s.length + 1 ≤ cs.length := by
  have H : ∀ (n : Nat) (cs : Chars), cs.length ≤ n → ∀ s rest,
      parseStringBody cs = some (s, rest) → rest.length + s.length + 1 ≤ cs.length := by
    intro n
    induction n with
    | zero =>
      intro cs hlen s rest h
      cases cs with
      | nil => exact absurd h (by simp [parseStringBody])
      | cons c t => simp at hlen
    | succ n ih =>
      intro cs hlen s rest h
      cases cs with
      | nil => exact absurd h (by simp [parseStringBody])
      | cons c rest1 =>
        unfold parseStringBody at h
        by_cases h1 : c = '"'
        · rw [if_pos h1] at h
          simp only [Option.some.injEq, Prod.mk.injEq] at h
          obtain ⟨hs, hr⟩ := h
          subst hs
          subst hr
          simp
        · rw [if_neg h1] at h
          by_cases h2 : c = '\\'
          · rw [if_pos h2] at h
            cases rest1 with
            | nil => exact absurd h (by simp)
            | cons e rest2 =>
              simp only [] at h
              by_cases h3 : e = 'u'
              · rw [if_pos h3] at h
                cases rest2 with
                | nil => exact absurd h (by simp)
                | cons x1 t1 =>
                  cases t1 with
                  | nil => exact absurd h (by simp)
                  | cons x2 t2 =>
                    cases t2 with
                    | nil => exact absurd h (by simp)
                    | cons x3 t3 =>
                      cases t3 with
                      | nil => exact absurd h (by simp)
                      | cons x4 rest3 =>
                        simp only [] at h
                        cases hx1 : hexVal? x1 with
                        | none => rw [hx1] at h; exact absurd h (by simp)
                        | some a =>
                        cases hx2 : hexVal? x2 with
                        | none => rw [hx1, hx2] at h; exact absurd h (by simp)
                        | some b =>
                        cases hx3 : hexVal? x3 with
                        | none => rw [hx1, hx2, hx3] at h; exact absurd h (by simp)
                        | some c3 =>
                        cases hx4 : hexVal? x4 with
                        | none => rw [hx1, hx2, hx3, hx4] at h; exact absurd h (by simp)
                        | some d =>
                          rw [hx1, hx2, hx3, hx4] at h
                          obtain ⟨p, hp, heq⟩ := Option.map_eq_some'.mp h
                          have hb := ih rest3 (by simp at hlen; omega) p.1 p.2 hp
                          simp only [Prod.mk.injEq] at heq
                          obtain ⟨hs, hr⟩ := heq
                          subst hs
                          subst hr
                          simp only [List.length_cons]
                          omega
              · rw [if_neg h3] at h
                cases hesc : simpleEsc e with
                | none => rw [hesc] at h; exact absurd h (by simp)
                | some c2 =>
                  rw [hesc] at h
                  obtain ⟨p, hp, heq⟩ := Option.map_eq_some'.mp h
                  have hb := ih rest2 (by simp at hlen; omega) p.1 p.2 hp
                  simp only [Prod.mk.injEq] at heq
                  obtain ⟨hs, hr⟩ := heq
                  subst hs
                  subst hr
                  simp only [List.length_cons]
                  omega
          · rw [if_neg h2] at h
            by_cases h4 : c.toNat < 32
            · rw [if_pos h4] at h
              exact absurd h (by simp)
            · rw [if_neg h4] at h
              obtain ⟨p, hp, heq⟩ := Option.map_eq_some'.mp h
              have hb := ih rest1 (by simp at hlen; omega) p.1 p.2 hp
              simp only [Prod.mk.injEq] at heq
              obtain ⟨hs, hr⟩ := heq
              subst hs
              subst hr
              simp only [List.length_cons]
              omega
  exact H cs.length cs (Nat.le_refl _)

/-- Parsing never lengthens the input, and every string value of the parsed
document is at least two characters shorter than the consumed document. -/
theorem parser_bounds : ∀ fuel : Nat,
    (∀ cs v rest, parseValue fuel cs = some (v, rest) →
      rest.length ≤ cs.length ∧ strBound v cs.length = true) ∧
    (∀ cs vs rest, parseElems fuel cs = some (vs, rest) →
      rest.length ≤ cs.length ∧ strBoundL vs cs.length = true) ∧
    (∀ cs ms rest, parseMembers fuel cs = some (ms, rest) →
      rest.length ≤ cs.length ∧ strBoundF ms cs.length = true) := by
  intro fuel
  induction fuel with
  | zero =>
    refine ⟨?_, ?_, ?_⟩ <;> intro cs x rest h <;> exact Option.noConfusion h
  | succ n ih =>
    obtain ⟨ihv, ihe, ihm⟩ := ih
    refine ⟨?_, ?_, ?_⟩
    · intro cs v rest h
      unfold parseValue at h
      cases hsk : skipWSJ cs with
      | nil => rw [hsk] at h; exact Option.noConfusion h
      | cons c rest1 =>
        rw [hsk] at h
        simp only [] at h
        have hlen1 : rest1.length + 1 ≤ cs.length := by
          have h0 := skipWSJ_len cs
          rw [hsk] at h0
          simpa using h0
        by_cases hn : c = 'n'
        · rw [if_pos hn] at h
          by_cases hu : startsWithL rest1 (("ull").data) = true
          · rw [if_pos hu] at h
            simp only [Option.some.injEq, Prod.mk.injEq] at h
            obtain ⟨hv, hr⟩ := h
            subst hv
            subst hr
            refine ⟨?_, rfl⟩
            simp only [List.length_drop]
            omega
          · rw [if_neg hu] at h; exact Option.noConfusion h
        · rw [if_neg hn] at h
          by_cases ht : c = 't'
          · rw [if_pos ht] at h
            by_cases hu : startsWithL rest1 (("rue").data) = true
            · rw [if_pos hu] at h
              simp only [Option.some.injEq, Prod.mk.injEq] at h
              obtain ⟨hv, hr⟩ := h
              subst hv
              subst hr
              refine ⟨?_, rfl⟩
              simp only [List.length_drop]
              omega
            · rw [if_neg hu] at h; exact Option.noConfusion h
          · rw [if_neg ht] at h
            by_cases hf : c = 'f'
            · rw [if_pos hf] at h
              by_cases hu : startsWithL rest1 (("alse").data) = true
              · rw [if_pos hu] at h
                simp only [Option.some.injEq, Prod.mk.injEq] at h
                obtain ⟨hv, hr⟩ := h
                subst hv
                subst hr
                refine ⟨?_, rfl⟩
                simp only [List.length_drop]
                omega
              · rw [if_neg hu] at h; exact Option.noConfusion h
            · rw [if_neg hf] at h
              by_cases hq : c = '"'
              · rw [if_pos hq] at h
                obtain ⟨p, hp, heq⟩ := Option.map_eq_some'.mp h
                have hb := parseStringBody_len rest1 p.1 p.2 hp
                simp only [Prod.mk.injEq] at heq
                obtain ⟨hv, hr⟩ := heq
                subst hv
                subst hr
                refine ⟨by omega, ?_⟩
                simp only [strBound, decide_eq_true_eq]
                omega
              · rw [if_neg hq] at h
                by_cases ha : c = '['
                · rw [if_pos ha] at h
                  have hsk2 : (skipWSJ rest1).length ≤ rest1.length := skipWSJ_len rest1
                  have htl := List.length_tail (skipWSJ rest1)
                  by_cases he : (skipWSJ rest1).head? = some ']'
                  · rw [if_pos he] at h
                    simp only [Option.some.injEq, Prod.mk.injEq] at h
                    obtain ⟨hv, hr⟩ := h
                    subst hv
                    subst hr
                    exact ⟨by omega, rfl⟩
                  · rw [if_neg he] at h
                    obtain ⟨p, hp, heq⟩ := Option.map_eq_some'.mp h
                    have hie := ihe (skipWSJ rest1) p.1 p.2 hp
                    simp only [Prod.mk.injEq] at heq
                    obtain ⟨hv, hr⟩ := heq
                    subst hv
                    subst hr
                    refine ⟨by omega, ?_⟩
                    show strBoundL p.1 cs.length = true
                    exact strBoundL_mono p.1 _ _ (by omega) hie.2
                · rw [if_neg ha] at h
                  by_cases ho : c = '{'
                  · rw [if_pos ho] at h
                    have hsk2 : (skipWSJ rest1).length ≤ rest1.length := skipWSJ_len rest1
                    have htl := List.length_tail (skipWSJ rest1)
                    by_cases he : (skipWSJ rest1).head? = some '}'
                    · rw [if_pos he] at h
                      simp only [Option.some.injEq, Prod.mk.injEq] at h
                      obtain ⟨hv, hr⟩ := h
                      subst hv
                      subst hr
                      exact ⟨by omega, rfl⟩
                    · rw [if_neg he] at h
                      obtain ⟨p, hp, heq⟩ := Option.map_eq_some'.mp h
                      have him := ihm (skipWSJ rest1) p.1 p.2 hp
                      simp only [Prod.mk.injEq] at heq
                      obtain ⟨hv, hr⟩ := heq
                      subst hv
                      subst hr
                      refine ⟨by omega, ?_⟩
                      show strBoundF (p.1.foldl upsertKey []) cs.length = true
                      exact strBoundF_foldl cs.length p.1 []
                        (strBoundF_mono p.1 _ _ (by omega) him.2) rfl
                  · rw [if_neg ho] at h
                    by_cases hnum : (decide (c = '-') || isDigitC c) = true
                    · rw [if_pos hnum] at h
                      by_cases hval :
                          numOK ((c :: rest1).takeWhile (fun x => isNumChar x)) = true
                      · rw [if_pos hval] at h
                        simp only [Option.some.injEq, Prod.mk.injEq] at h
                        obtain ⟨hv, hr⟩ := h
                        subst hv
                        subst hr
                        refine ⟨?_, rfl⟩
                        have h3 := (List.dropWhile_suffix
                          (fun x => isNumChar x) (l := c :: rest1)).length_le
                        simp only [List.length_cons] at h3
                        omega
                      · rw [if_neg hval] at h; exact Option.noConfusion h
                    · rw [if_neg hnum] at h; exact Option.noConfusion h
    · intro cs vs rest h
      unfold parseElems at h
      cases hpv : parseValue n cs with
      | none => rw [hpv] at h; exact Option.noConfusion h
      | some pr =>
        obtain ⟨v0, rest0⟩ := pr
        rw [hpv] at h
        simp only [] at h
        have hi0 := ihv cs v0 rest0 hpv
        have hsk0 : (skipWSJ rest0).length ≤ rest0.length := skipWSJ_len rest0
        have htl := List.length_tail (skipWSJ rest0)
        by_cases hc : (skipWSJ rest0).head? = some ','
        · rw [if_pos hc] at h
          obtain ⟨p, hp, heq⟩ := Option.map_eq_some'.mp h
          have hie := ihe (skipWSJ rest0).tail p.1 p.2 hp
          simp only [Prod.mk.injEq] at heq
          obtain ⟨hv, hr⟩ := heq
          subst hv
          subst hr
          refine ⟨by omega, ?_⟩
          simp only [strBoundL, Bool.and_eq_true]
          exact ⟨hi0.2, strBoundL_mono p.1 _ _ (by omega) hie.2⟩
        · rw [if_neg hc] at h
          by_cases hb2 : (skipWSJ rest0).head? = some ']'
          · rw [if_pos hb2] at h
            simp only [Option.some.injEq, Prod.mk.injEq] at h
            obtain ⟨hv, hr⟩ := h
            subst hv
            subst hr
            refine ⟨by omega, ?_⟩
            simp only [strBoundL, Bool.and_eq_true]
            exact ⟨hi0.2, trivial⟩
          · rw [if_neg hb2] at h; exact Option.noConfusion h
    · intro cs ms rest h
      unfold parseMembers at h
      by_cases hq : cs.head? = some '"'
      · rw [if_pos hq] at h
        cases hk : parseStringBody cs.tail with
        | none => rw [hk] at h; exact Option.noConfusion h
        | some kr =>
          obtain ⟨k, r1⟩ := kr
          rw [hk] at h
          simp only [] at h
          have hkl := parseStringBody_len cs.tail k r1 hk
          have htl0 := List.length_tail cs
          have hsk1 : (skipWSJ r1).length ≤ r1.length := skipWSJ_len r1
          have htl1 := List.length_tail (skipWSJ r1)
          by_cases hcol : (skipWSJ r1).head? = some ':'
          · rw [if_pos hcol] at h
            cases hpv : parseValue n (skipWSJ r1).tail with
            | none => rw [hpv] at h; exact Option.noConfusion h
            | some vr =>
              obtain ⟨v, r3⟩ := vr
              rw [hpv] at h
              simp only [] at h
              have hi := ihv (skipWSJ r1).tail v r3 hpv
              have hsk3 : (skipWSJ r3).length ≤ r3.length := skipWSJ_len r3
              have htl2 := List.length_tail (skipWSJ r3)
              by_cases hcm : (skipWSJ r3).head? = some ','
              · rw [if_pos hcm] at h
                obtain ⟨p, hp, heq⟩ := Option.map_eq_some'.mp h
                have him := ihm (skipWSJ (skipWSJ r3).tail) p.1 p.2 hp
                have hsk4 : (skipWSJ (skipWSJ r3).tail).length ≤ (skipWSJ r3).tail.length :=
                  skipWSJ_len _
                simp only [Prod.mk.injEq] at heq
                obtain ⟨hv, hr⟩ := heq
                subst hv
                subst hr
                refine ⟨by omega, ?_⟩
                simp only [strBoundF, Bool.and_eq_true]
                exact ⟨strBound_mono v _ _ (by omega) hi.2,
                       strBoundF_mono p.1 _ _ (by omega) him.2⟩
              · rw [if_neg hcm] at h
                by_cases hbr : (skipWSJ r3).head? = some '}'
                · rw [if_pos hbr] at h
                  simp only [Option.some.injEq, Prod.mk.injEq] at h
                  obtain ⟨hv, hr⟩ := h
                  subst hv
                  subst hr
                  refine ⟨by omega, ?_⟩
                  simp only [strBoundF, Bool.and_eq_true]
                  exact ⟨strBound_mono v _ _ (by omega) hi.2, trivial⟩
                · rw [if_neg hbr] at h; exact Option.noConfusion h
          · rw [if_neg hcol] at h; exact Option.noConfusion h
      · rw [if_neg hq] at h; exact Option.noConfusion h

/-- Specialization to `jsonParse`: every string value of a parsed document is
at least two characters shorter than the document. -/
theorem jsonParse_strBound (s : Chars) (v : Jval) (h : jsonParse s = some v) :
    strBound v s.length = true := by
  unfold jsonParse at h
  cases hpv : parseValue (s.length + 1) s with
  | none => rw [hpv] at h; exact Option.noConfusion h
  | some pr =>
    obtain ⟨v0, rest⟩ := pr
    rw [hpv] at h
    simp only [] at h
    by_cases hws : (skipWSJ rest).isEmpty = true
    · rw [if_pos hws] at h
      have hv0 : v0 = v := Option.some.inj h
      subst hv0
      exact ((parser_bounds (s.length + 1)).1 s v0 rest hpv).2
    · rw [if_neg hws] at h; exact Option.noConfusion h

/-- C10: the claim fails on the truncate leg — `SanitizeBody` does NOT
terminate for every configuration: under `c10cfg` (a truncate rule whose
condition also fires on bodies within `maxBodySize`) the 12-byte body
`"0123456789ab"` makes `SanitizeBody` and `truncateBody` call each other
forever.  The other two legs hold: the rule recursion terminates whenever
every truncate rule's condition only fires beyond `maxBodySize` (as the
default rules do), and the JSON nesting recursion always bottoms out
because every nested string value of a parsed document is at least two
characters shorter than the document. -/
theorem c10_theorem :
    divergesOn c10cfg (("0123456789ab").data) (("text/plain").data) ∧
    (∀ (cfg : SanitizerConfig) (body contentType : Chars) (fuel : Nat),
      (∀ r ∈ cfg.bodyRules, r.action = .truncate →
        r.condition contentType body body.length = true → cfg.maxBodySize < body.length) →
      (sanitizeBodyF cfg (fuel + 1) body contentType).isSome) ∧
    (∀ (s : Chars) (v : Jval), jsonParse s = some v → strBound v s.length = true) := by
  refine ⟨c10cfg_diverges _ _ (by decide) (by decide), ?_, jsonParse_strBound⟩
  intro cfg body ct fuel hsound
  by_cases hne : body.isEmpty = true
  · simp [sanitizeBodyF, hne]
  · have hne' : body.isEmpty = false := by
      cases hb : body.isEmpty
      · rfl
      · exact absurd hb hne
    simp only [sanitizeBodyF, hne', Bool.false_eq_true, if_false]
    exact goRules_isSome cfg _ cfg.bodyRules body ct hsound

/-- C10, witness: termination at a rule-free configuration, and the shrink
bound at a concretely parsed document. -/
theorem c10_witness :
    (sanitizeBodyF { DefaultSanitizerConfig with bodyRules := [] } (0 + 1)
        (("hi").data) (("text/plain").data)).isSome = true ∧
    jsonParse (("[\"ab\"]").data) = some (.arr [.str ("ab").data]) ∧
    strBound (.arr [.str ("ab").data]) (("[\"ab\"]").data).length = true :=
  ⟨c10_theorem.2.1 { DefaultSanitizerConfig with bodyRules := [] } (("hi").data)
      (("text/plain").data) 0 (by intro r hr _ _; simp at hr),
   rfl,
   c10_theorem.2.2 (("[\"ab\"]").data) (.arr [.str ("ab").data]) rfl⟩

/-! ## Claim C9: determinism despite unordered map iteration

Go iterates maps in unspecified order; in the embedding a map is carried as
an association list, and a different iteration order is a permutation of
that list.  Determinism of the JSON pipeline is the statement that the
marshalled output is invariant under permuting every object's field list —
`sanitizeValue` treats entries pointwise and `MarshalIndent` sorts keys. -/



/-- `entryC` keeps the key. -/
theorem entryC_fst (cfg : SanitizerConfig) (e : Chars × Jval) :
    (entryC cfg e).1 = e.1 := by
  unfold entryC
  split <;> rfl

/-- `ltChars` is transitive. -/
theorem ltChars_trans : ∀ a b c : Chars, ltChars a b = true → ltChars b c = true →
    ltChars a c = true
  | [], [], _, hab, _ => by simp [ltChars] at hab
  | [], _ :: _, [], _, hbc => by simp [ltChars] at hbc
  | [], _ :: _, _ :: _, _, _ => rfl
  | _ :: _, [], _, hab, _ => by simp [ltChars] at hab
  | _ :: _, _ :: _, [], _, hbc => by simp [ltChars] at hbc
  | a :: as, b :: bs, c :: cs, hab, hbc => by
    unfold ltChars at hab hbc ⊢
    by_cases h1 : a < b
    · by_cases h2 : b < c
      · rw [if_pos (lt_trans h1 h2)]
      · rw [if_neg h2] at hbc
        by_cases h3 : c < b
        · rw [if_pos h3] at hbc; exact absurd hbc (by simp)
        · have hbc' : b = c := le_antisymm (le_of_not_lt h3) (le_of_not_lt h2)
          subst hbc'
          rw [if_pos h1]
    · rw [if_neg h1] at hab
      by_cases h2 : b < a
      · rw [if_pos h2] at hab; exact absurd hab (by simp)
      · rw [if_neg h2] at hab
        have hba : a = b := le_antisymm (le_of_not_lt h2) (le_of_not_lt h1)
        subst hba
        by_cases h3 : a < c
        · rw [if_pos h3]
        · rw [if_neg h3] at hbc ⊢
          by_cases h4 : c < a
          · rw [if_pos h4] at hbc; exact absurd hbc (by simp)
          · rw [if_neg h4] at hbc ⊢
            exact ltChars_trans as bs cs hab hbc

/-- `ltChars` is asymmetric. -/
theorem ltChars_asymm : ∀ a b : Chars, ltChars a b = true → ltChars b a = false
  | [], [], hab => by simp [ltChars] at hab
  | [], _ :: _, _ => rfl
  | _ :: _, [], hab => by simp [ltChars] at hab
  | a :: as, b :: bs, hab => by
    unfold ltChars at hab ⊢
    by_cases h1 : a < b
    · rw [if_neg (lt_asymm h1), if_pos h1]
    · rw [if_neg h1] at hab
      by_cases h2 : b < a
      · rw [if_pos h2] at hab; exact absurd hab (by simp)
      · rw [if_neg h2] at hab
        rw [if_neg h2, if_neg h1]
        exact ltChars_asymm as bs hab

/-- `ltChars` is total on distinct strings. -/
theorem ltChars_total : ∀ a b : Chars, a ≠ b → ltChars a b = true ∨ ltChars b a = true
  | [], [], h => absurd rfl h
  | [], _ :: _, _ => Or.inl rfl
  | _ :: _, [], _ => Or.inr rfl
  | a :: as, b :: bs, h => by
    unfold ltChars
    by_cases h1 : a < b
    · left; rw [if_pos h1]
    · by_cases h2 : b < a
      · right; rw [if_pos h2]
      · have hab : a = b := le_antisymm (le_of_not_lt h2) (le_of_not_lt h1)
        subst hab
        have hne : as ≠ bs := fun hh => h (by rw [hh])
        rcases ltChars_total as bs hne with h3 | h3
        · left; rw [if_neg h1, if_neg h1]; exact h3
        · right; rw [if_neg h1, if_neg h1]; exact h3

/-- Inserting a field permutes consing it. -/
theorem insertField_perm (e : Chars × Jval) : ∀ l, (insertField e l).Perm (e :: l)
  | [] => List.Perm.refl _
  | f :: fs => by
    unfold insertField
    by_cases h : ltChars e.1 f.1 = true
    · rw [if_pos h]
    · rw [if_neg h]
      exact (List.Perm.cons f (insertField_perm e fs)).trans (List.Perm.swap e f fs)

/-- `sortFields` permutes its input. -/
theorem sortFields_perm : ∀ l, (sortFields l).Perm l
  | [] => List.Perm.refl _
  | f :: fs => (insertField_perm f (sortFields fs)).trans (List.Perm.cons f (sortFields_perm fs))

/-- Inserting a key distinct from every present key preserves strict key
sortedness. -/
theorem insertField_pairwise (e : Chars × Jval) :
    ∀ l, l.Pairwise (fun x y => ltChars x.1 y.1 = true) →
      (∀ f ∈ l, e.1 ≠ f.1) →
      (insertField e l).Pairwise (fun x y => ltChars x.1 y.1 = true)
  | [], _, _ => List.pairwise_singleton _ _
  | f :: fs, hp, hne => by
    obtain ⟨hf, hfs⟩ := List.pairwise_cons.mp hp
    unfold insertField
    by_cases h : ltChars e.1 f.1 = true
    · rw [if_pos h]
      refine List.pairwise_cons.mpr ⟨?_, hp⟩
      intro x hx
      rcases List.mem_cons.mp hx with rfl | hx
      · exact h
      · exact ltChars_trans _ _ _ h (hf x hx)
    · rw [if_neg h]
      refine List.pairwise_cons.mpr
        ⟨?_, insertField_pairwise e fs hfs (fun g hg => hne g (List.mem_cons_of_mem f hg))⟩
      intro x hx
      have hx' : x = e ∨ x ∈ fs := by
        have := (insertField_perm e fs).mem_iff.mp hx
        simpa using this
      rcases hx' with rfl | hx'
      · rcases ltChars_total x.1 f.1 (hne f (List.mem_cons_self f fs)) with h2 | h2
        · exact absurd h2 h
        · exact h2
      · exact hf x hx'

/-- With pairwise-distinct keys, `sortFields` output is strictly key-sorted. -/
theorem sortFields_pairwise : ∀ l : List (Chars × Jval), (l.map Prod.fst).Nodup →
    (sortFields l).Pairwise (fun x y => ltChars x.1 y.1 = true)
  | [], _ => List.Pairwise.nil
  | f :: fs, hnd => by
    have hnd0 : (f.1 :: fs.map Prod.fst).Nodup := hnd
    have hnd' := List.nodup_cons.mp hnd0
    rw [sortFields]
    refine insertField_pairwise f (sortFields fs) (sortFields_pairwise fs hnd'.2) ?_
    intro g hg heq
    exact hnd'.1 (heq ▸ List.mem_map_of_mem Prod.fst ((sortFields_perm fs).mem_iff.mp hg))

/-- On permuted field lists with no duplicate key, `sortFields` produces the
same list: the canonicalization step of `MarshalIndent`. -/
theorem sortFields_perm_eq (l₁ l₂ : List (Chars × Jval)) (hp : l₁.Perm l₂)
    (hnd : (l₁.map Prod.fst).Nodup) : sortFields l₁ = sortFields l₂ := by
  haveI : IsAntisymm (Chars × Jval) (fun x y => ltChars x.1 y.1 = true) :=
    ⟨fun a b hab hba => by rw [ltChars_asymm a.1 b.1 hab] at hba; exact Bool.noConfusion hba⟩
  exact List.eq_of_perm_of_sorted
    ((sortFields_perm l₁).trans (hp.trans (sortFields_perm l₂).symm))
    (sortFields_pairwise l₁ hnd)
    (sortFields_pairwise l₂ ((hp.map Prod.fst).nodup_iff.mp hnd))

/-- `sortJFields` is the entrywise `sortEntry` map. -/
theorem sortJFields_eq_map : ∀ gs, sortJFields gs = gs.map sortEntry
  | [] => rfl
  | (k, v) :: rest => by rw [sortJFields, sortJFields_eq_map rest]; rfl

/-- `szS` is positive. -/
theorem szS_pos : ∀ v : Jval, 1 ≤ szS v
  | .null => Nat.le_refl 1
  | .boolean _ => Nat.le_refl 1
  | .num _ => Nat.le_refl 1
  | .str s => by show 1 ≤ s.length + 2; omega
  | .arr xs => by show 1 ≤ szSL xs + 1; omega
  | .obj fs => by show 1 ≤ szSF fs + 1; omega

/-- `upsertKey` adds at most one entry's budget. -/
theorem szSF_upsert : ∀ (acc : List (Chars × Jval)) (k0 : Chars) (v0 : Jval),
    szSF (upsertKey acc (k0, v0)) ≤ szSF acc + szS v0 + 1
  | [], k0, v0 => by
    show szS v0 + szSF [] + 1 ≤ szSF [] + szS v0 + 1
    omega
  | (k, v) :: rest, k0, v0 => by
    show szSF (if k = k0 then (k, v0) :: rest else (k, v) :: upsertKey rest (k0, v0)) ≤
      szS v + szSF rest + 1 + szS v0 + 1
    by_cases hk : k = k0
    · rw [if_pos hk]
      show szS v0 + szSF rest + 1 ≤ szS v + szSF rest + 1 + szS v0 + 1
      omega
    · rw [if_neg hk]
      show szS v + szSF (upsertKey rest (k0, v0)) + 1 ≤ szS v + szSF rest + 1 + szS v0 + 1
      have := szSF_upsert rest k0 v0
      omega

/-- Folding `upsertKey` never exceeds the member list's budget. -/
theorem szSF_foldl : ∀ (ms acc : List (Chars × Jval)),
    szSF (ms.foldl upsertKey acc) ≤ szSF acc + szSF ms
  | [], acc => by
    show szSF acc ≤ szSF acc + szSF []
    omega
  | (k, v) :: rest, acc => by
    have h1 := szSF_foldl rest (upsertKey acc (k, v))
    have h2 := szSF_upsert acc k v
    show szSF (rest.foldl upsertKey (upsertKey acc (k, v))) ≤
      szSF acc + (szS v + szSF rest + 1)
    omega

/-- Parser size bound: a parsed value's stabilization threshold plus the
unconsumed input fit in the input — each unit of `szS` is paid for by at
least one consumed character. -/
theorem parse_szS : ∀ fuel : Nat,
    (∀ cs v rest, parseValue fuel cs = some (v, rest) →
      szS v + rest.length ≤ cs.length) ∧
    (∀ cs vs rest, parseElems fuel cs = some (vs, rest) →
      szSL vs + rest.length ≤ cs.length) ∧
    (∀ cs ms rest, parseMembers fuel cs = some (ms, rest) →
      szSF ms + rest.length ≤ cs.length) := by
  intro fuel
  induction fuel with
  | zero =>
    refine ⟨?_, ?_, ?_⟩ <;> intro cs x rest h <;> exact Option.noConfusion h
  | succ n ih =>
    obtain ⟨ihv, ihe, ihm⟩ := ih
    refine ⟨?_, ?_, ?_⟩
    · intro cs v rest h
      unfold parseValue at h
      cases hsk : skipWSJ cs with
      | nil => rw [hsk] at h; exact Option.noConfusion h
      | cons c rest1 =>
        rw [hsk] at h
        simp only [] at h
        have hlen1 : rest1.length + 1 ≤ cs.length := by
          have h0 := skipWSJ_len cs
          rw [hsk] at h0
          simpa using h0
        by_cases hn : c = 'n'
        · rw [if_pos hn] at h
          by_cases hu : startsWithL rest1 (("ull").data) = true
          · rw [if_pos hu] at h
            simp only [Option.some.injEq, Prod.mk.injEq] at h
            obtain ⟨hv, hr⟩ := h
            subst hv
            subst hr
            show 1 + (rest1.drop 3).length ≤ cs.length
            simp only [List.length_drop]
            omega
          · rw [if_neg hu] at h; exact Option.noConfusion h
        · rw [if_neg hn] at h
          by_cases ht : c = 't'
          · rw [if_pos ht] at h
            by_cases hu : startsWithL rest1 (("rue").data) = true
            · rw [if_pos hu] at h
              simp only [Option.some.injEq, Prod.mk.injEq] at h
              obtain ⟨hv, hr⟩ := h
              subst hv
              subst hr
              show 1 + (rest1.drop 3).length ≤ cs.length
              simp only [List.length_drop]
              omega
            · rw [if_neg hu] at h; exact Option.noConfusion h
          · rw [if_neg ht] at h
            by_cases hf : c = 'f'
            · rw [if_pos hf] at h
              by_cases hu : startsWithL rest1 (("alse").data) = true
              · rw [if_pos hu] at h
                simp only [Option.some.injEq, Prod.mk.injEq] at h
                obtain ⟨hv, hr⟩ := h
                subst hv
                subst hr
                show 1 + (rest1.drop 4).length ≤ cs.length
                simp only [List.length_drop]
                omega
              · rw [if_neg hu] at h; exact Option.noConfusion h
            · rw [if_neg hf] at h
              by_cases hq : c = '"'
              · rw [if_pos hq] at h
                obtain ⟨p, hp, heq⟩ := Option.map_eq_some'.mp h
                have hb := parseStringBody_len rest1 p.1 p.2 hp
                simp only [Prod.mk.injEq] at heq
                obtain ⟨hv, hr⟩ := heq
                subst hv
                subst hr
                show p.1.length + 2 + p.2.length ≤ cs.length
                omega
              · rw [if_neg hq] at h
                by_cases ha : c = '['
                · rw [if_pos ha] at h
                  have hsk2 : (skipWSJ rest1).length ≤ rest1.length := skipWSJ_len rest1
                  have htl := List.length_tail (skipWSJ rest1)
                  by_cases he : (skipWSJ rest1).head? = some ']'
                  · rw [if_pos he] at h
                    simp only [Option.some.injEq, Prod.mk.injEq] at h
                    obtain ⟨hv, hr⟩ := h
                    subst hv
                    subst hr
                    show szSL [] + 1 + (skipWSJ rest1).tail.length ≤ cs.length
                    simp only [szSL]
                    omega
                  · rw [if_neg he] at h
                    obtain ⟨p, hp, heq⟩ := Option.map_eq_some'.mp h
                    have hie := ihe (skipWSJ rest1) p.1 p.2 hp
                    simp only [Prod.mk.injEq] at heq
                    obtain ⟨hv, hr⟩ := heq
                    subst hv
                    subst hr
                    show szSL p.1 + 1 + p.2.length ≤ cs.length
                    omega
                · rw [if_neg ha] at h
                  by_cases ho : c = '\x7b'
                  · rw [if_pos ho] at h
                    have hsk2 : (skipWSJ rest1).length ≤ rest1.length := skipWSJ_len rest1
                    have htl := List.length_tail (skipWSJ rest1)
                    by_cases he : (skipWSJ rest1).head? = some '\x7d'
                    · rw [if_pos he] at h
                      simp only [Option.some.injEq, Prod.mk.injEq] at h
                      obtain ⟨hv, hr⟩ := h
                      subst hv
                      subst hr
                      show szSF [] + 1 + (skipWSJ rest1).tail.length ≤ cs.length
                      simp only [szSF]
                      omega
                    · rw [if_neg he] at h
                      obtain ⟨p, hp, heq⟩ := Option.map_eq_some'.mp h
                      have him := ihm (skipWSJ rest1) p.1 p.2 hp
                      simp only [Prod.mk.injEq] at heq
                      obtain ⟨hv, hr⟩ := heq
                      subst hv
                      subst hr
                      have hfold : szSF (p.1.foldl upsertKey []) ≤ 0 + szSF p.1 :=
                        szSF_foldl p.1 []
                      show szSF (p.1.foldl upsertKey []) + 1 + p.2.length ≤ cs.length
                      omega
                  · rw [if_neg ho] at h
                    by_cases hnum : (decide (c = '-') || isDigitC c) = true
                    · rw [if_pos hnum] at h
                      by_cases hval :
                          numOK ((c :: rest1).takeWhile (fun x => isNumChar x)) = true
                      · rw [if_pos hval] at h
                        simp only [Option.some.injEq, Prod.mk.injEq] at h
                        obtain ⟨hv, hr⟩ := h
                        subst hv
                        subst hr
                        have hnc : isNumChar c = true := by
                          simp only [Bool.or_eq_true, decide_eq_true_eq] at hnum
                          rcases hnum with h1 | h1 <;> simp [isNumChar, h1]
                        have hstep : (c :: rest1).dropWhile (fun x => isNumChar x) =
                            rest1.dropWhile (fun x => isNumChar x) := by
                          simp [List.dropWhile_cons, hnc]
                        have hdw : ((c :: rest1).dropWhile (fun x => isNumChar x)).length
                            ≤ rest1.length := by
                          rw [hstep]
                          exact (List.dropWhile_suffix _).length_le
                        show 1 + ((c :: rest1).dropWhile (fun x => isNumChar x)).length
                            ≤ cs.length
                        omega
                      · rw [if_neg hval] at h; exact Option.noConfusion h
                    · rw [if_neg hnum] at h; exact Option.noConfusion h
    · intro cs vs rest h
      unfold parseElems at h
      cases hpv : parseValue n cs with
      | none => rw [hpv] at h; exact Option.noConfusion h
      | some pr =>
        obtain ⟨v0, rest0⟩ := pr
        rw [hpv] at h
        simp only [] at h
        have hi0 := ihv cs v0 rest0 hpv
        have hsk0 : (skipWSJ rest0).length ≤ rest0.length := skipWSJ_len rest0
        have htl := List.length_tail (skipWSJ rest0)
        by_cases hc : (skipWSJ rest0).head? = some ','
        · rw [if_pos hc] at h
          have hpos : 0 < (skipWSJ rest0).length := by
            cases hemp : skipWSJ rest0 with
            | nil => rw [hemp] at hc; exact absurd hc (by simp)
            | cons a b => simp
          obtain ⟨p, hp, heq⟩ := Option.map_eq_some'.mp h
          have hie := ihe (skipWSJ rest0).tail p.1 p.2 hp
          simp only [Prod.mk.injEq] at heq
          obtain ⟨hv, hr⟩ := heq
          subst hv
          subst hr
          show szS v0 + szSL p.1 + 1 + p.2.length ≤ cs.length
          omega
        · rw [if_neg hc] at h
          by_cases hb2 : (skipWSJ rest0).head? = some ']'
          · rw [if_pos hb2] at h
            have hpos : 0 < (skipWSJ rest0).length := by
              cases hemp : skipWSJ rest0 with
              | nil => rw [hemp] at hb2; exact absurd hb2 (by simp)
              | cons a b => simp
            simp only [Option.some.injEq, Prod.mk.injEq] at h
            obtain ⟨hv, hr⟩ := h
            subst hv
            subst hr
            show szS v0 + szSL [] + 1 + (skipWSJ rest0).tail.length ≤ cs.length
            simp only [szSL]
            omega
          · rw [if_neg hb2] at h; exact Option.noConfusion h
    · intro cs ms rest h
      unfold parseMembers at h
      by_cases hq : cs.head? = some '"'
      · rw [if_pos hq] at h
        cases hk : parseStringBody cs.tail with
        | none => rw [hk] at h; exact Option.noConfusion h
        | some kr =>
          obtain ⟨k, r1⟩ := kr
          rw [hk] at h
          simp only [] at h
          have hkl := parseStringBody_len cs.tail k r1 hk
          have htl0 := List.length_tail cs
          have hsk1 : (skipWSJ r1).length ≤ r1.length := skipWSJ_len r1
          have htl1 := List.length_tail (skipWSJ r1)
          by_cases hcol : (skipWSJ r1).head? = some ':'
          · rw [if_pos hcol] at h
            cases hpv : parseValue n (skipWSJ r1).tail with
            | none => rw [hpv] at h; exact Option.noConfusion h
            | some vr =>
              obtain ⟨v, r3⟩ := vr
              rw [hpv] at h
              simp only [] at h
              have hi := ihv (skipWSJ r1).tail v r3 hpv
              have hsk3 : (skipWSJ r3).length ≤ r3.length := skipWSJ_len r3
              have htl2 := List.length_tail (skipWSJ r3)
              by_cases hcm : (skipWSJ r3).head? = some ','
              · rw [if_pos hcm] at h
                have hpos3 : 0 < (skipWSJ r3).length := by
                  cases hemp : skipWSJ r3 with
                  | nil => rw [hemp] at hcm; exact absurd hcm (by simp)
                  | cons a b => simp
                obtain ⟨p, hp, heq⟩ := Option.map_eq_some'.mp h
                have him := ihm (skipWSJ (skipWSJ r3).tail) p.1 p.2 hp
                have hsk4 : (skipWSJ (skipWSJ r3).tail).length ≤ (skipWSJ r3).tail.length :=
                  skipWSJ_len _
                simp only [Prod.mk.injEq] at heq
                obtain ⟨hv, hr⟩ := heq
                subst hv
                subst hr
                show szS v + szSF p.1 + 1 + p.2.length ≤ cs.length
                omega
              · rw [if_neg hcm] at h
                by_cases hbr : (skipWSJ r3).head? = some '\x7d'
                · rw [if_pos hbr] at h
                  have hpos3 : 0 < (skipWSJ r3).length := by
                    cases hemp : skipWSJ r3 with
                    | nil => rw [hemp] at hbr; exact absurd hbr (by simp)
                    | cons a b => simp
                  simp only [Option.some.injEq, Prod.mk.injEq] at h
                  obtain ⟨hv, hr⟩ := h
                  subst hv
                  subst hr
                  show szS v + szSF [] + 1 + (skipWSJ r3).tail.length ≤ cs.length
                  simp only [szSF]
                  omega
                · rw [if_neg hbr] at h; exact Option.noConfusion h
          · rw [if_neg hcol] at h; exact Option.noConfusion h
      · rw [if_neg hq] at h; exact Option.noConfusion h

/-- A document parsed from `s` has stabilization threshold at most the
length of `s`. -/
theorem jsonParse_szS (s : Chars) (v : Jval) (h : jsonParse s = some v) :
    szS v ≤ s.length := by
  unfold jsonParse at h
  cases hpv : parseValue (s.length + 1) s with
  | none => rw [hpv] at h; exact Option.noConfusion h
  | some pr =>
    obtain ⟨v0, rest⟩ := pr
    rw [hpv] at h
    simp only [] at h
    have hb := (parse_szS (s.length + 1)).1 s v0 rest hpv
    by_cases he : (skipWSJ rest).isEmpty = true
    · rw [if_pos he] at h
      simp only [Option.some.injEq] at h
      subst h
      omega
    · rw [if_neg he] at h
      exact Option.noConfusion h

/-- `sanitizeValue` is the identity on `null` at every fuel. -/
theorem sanV_null (cfg : SanitizerConfig) : ∀ f, sanitizeValue cfg f .null = .null
  | 0 => rfl
  | _ + 1 => rfl

/-- `sanitizeValue` is the identity on booleans at every fuel. -/
theorem sanV_bool (cfg : SanitizerConfig) (b : Bool) :
    ∀ f, sanitizeValue cfg f (.boolean b) = .boolean b
  | 0 => rfl
  | _ + 1 => rfl

/-- `sanitizeValue` is the identity on numbers at every fuel. -/
theorem sanV_num (cfg : SanitizerConfig) (lex : Chars) :
    ∀ f, sanitizeValue cfg f (.num lex) = .num lex
  | 0 => rfl
  | _ + 1 => rfl

/-- Above the `szS` threshold the sanitizer no longer depends on its fuel:
any two sufficient fuels give the same result.  The re-entry
`sanitizeValue → sanitizeJSON → sanitizeValue` on string values that look
like JSON is covered because a parsed document's threshold is bounded by
the text's length (`jsonParse_szS`), which the string's own budget
dominates. -/
theorem sanitize_fuel_stable (cfg : SanitizerConfig) : ∀ f₁ : Nat,
    (∀ f₂ v, szS v ≤ f₁ → szS v ≤ f₂ →
      sanitizeValue cfg f₁ v = sanitizeValue cfg f₂ v) ∧
    (∀ f₂ s, s.length + 1 ≤ f₁ → s.length + 1 ≤ f₂ →
      sanitizeJSON cfg f₁ s = sanitizeJSON cfg f₂ s) ∧
    (∀ f₂ xs, szSL xs ≤ f₁ → szSL xs ≤ f₂ →
      sanitizeElems cfg f₁ xs = sanitizeElems cfg f₂ xs) ∧
    (∀ f₂ fs, szSF fs ≤ f₁ → szSF fs ≤ f₂ →
      sanitizeFields cfg f₁ fs = sanitizeFields cfg f₂ fs) := by
  intro f₁
  induction f₁ with
  | zero =>
    refine ⟨?_, ?_, ?_, ?_⟩
    · intro f₂ v h1 _
      have := szS_pos v
      omega
    · intro f₂ s h1 _
      omega
    · intro f₂ xs h1 _
      cases xs with
      | nil => cases f₂ <;> rfl
      | cons x t =>
        have hx : szS x + szSL t + 1 ≤ 0 := h1
        omega
    · intro f₂ fs h1 _
      cases fs with
      | nil => cases f₂ <;> rfl
      | cons e t =>
        obtain ⟨k, v⟩ := e
        have hx : szS v + szSF t + 1 ≤ 0 := h1
        omega
  | succ n ih =>
    obtain ⟨ihv, ihj, ihl, ihf⟩ := ih
    refine ⟨?_, ?_, ?_, ?_⟩
    · intro f₂ v h1 h2
      cases v with
      | null => rw [sanV_null cfg (n + 1), sanV_null cfg f₂]
      | boolean b => rw [sanV_bool cfg b (n + 1), sanV_bool cfg b f₂]
      | num lex => rw [sanV_num cfg lex (n + 1), sanV_num cfg lex f₂]
      | str s =>
        have hb1 : s.length + 2 ≤ n + 1 := h1
        have hb2 : s.length + 2 ≤ f₂ := h2
        obtain ⟨m, rfl⟩ : ∃ m, f₂ = m + 1 := ⟨f₂ - 1, by omega⟩
        show (if looksLikeJSON s then Jval.str (sanitizeJSON cfg n s)
              else Jval.str (sanitizeText cfg s)) =
             (if looksLikeJSON s then Jval.str (sanitizeJSON cfg m s)
              else Jval.str (sanitizeText cfg s))
        by_cases hj : looksLikeJSON s = true
        · rw [if_pos hj, if_pos hj, ihj m s (by omega) (by omega)]
        · rw [if_neg hj, if_neg hj]
      | arr xs =>
        have hb1 : szSL xs + 1 ≤ n + 1 := h1
        have hb2 : szSL xs + 1 ≤ f₂ := h2
        obtain ⟨m, rfl⟩ : ∃ m, f₂ = m + 1 := ⟨f₂ - 1, by omega⟩
        show Jval.arr (sanitizeElems cfg n xs) = Jval.arr (sanitizeElems cfg m xs)
        rw [ihl m xs (by omega) (by omega)]
      | obj fs =>
        have hb1 : szSF fs + 1 ≤ n + 1 := h1
        have hb2 : szSF fs + 1 ≤ f₂ := h2
        obtain ⟨m, rfl⟩ : ∃ m, f₂ = m + 1 := ⟨f₂ - 1, by omega⟩
        show Jval.obj (sanitizeFields cfg n fs) = Jval.obj (sanitizeFields cfg m fs)
        rw [ihf m fs (by omega) (by omega)]
    · intro f₂ s h1 h2
      obtain ⟨m, rfl⟩ : ∃ m, f₂ = m + 1 := ⟨f₂ - 1, by omega⟩
      show (match jsonParse s with
            | none => sanitizeText cfg s
            | some v => marshalTop (sanitizeValue cfg n v)) =
           (match jsonParse s with
            | none => sanitizeText cfg s
            | some v => marshalTop (sanitizeValue cfg m v))
      cases hjp : jsonParse s with
      | none => rfl
      | some w =>
        simp only []
        have hw : szS w ≤ s.length := jsonParse_szS s w hjp
        rw [ihv m w (by omega) (by omega)]
    · intro f₂ xs h1 h2
      cases xs with
      | nil => cases f₂ <;> rfl
      | cons x t =>
        have hb1 : szS x + szSL t + 1 ≤ n + 1 := h1
        have hb2 : szS x + szSL t + 1 ≤ f₂ := h2
        obtain ⟨m, rfl⟩ : ∃ m, f₂ = m + 1 := ⟨f₂ - 1, by omega⟩
        show sanitizeValue cfg n x :: sanitizeElems cfg n t =
             sanitizeValue cfg m x :: sanitizeElems cfg m t
        rw [ihv m x (by omega) (by omega), ihl m t (by omega) (by omega)]
    · intro f₂ fs h1 h2
      cases fs with
      | nil => cases f₂ <;> rfl
      | cons e t =>
        obtain ⟨k, v⟩ := e
        have hb1 : szS v + szSF t + 1 ≤ n + 1 := h1
        have hb2 : szS v + szSF t + 1 ≤ f₂ := h2
        obtain ⟨m, rfl⟩ : ∃ m, f₂ = m + 1 := ⟨f₂ - 1, by omega⟩
        show ((if isSensitiveField cfg k then (k, Jval.str cfg.mask)
               else (k, sanitizeValue cfg n v)) :: sanitizeFields cfg n t) =
             ((if isSensitiveField cfg k then (k, Jval.str cfg.mask)
               else (k, sanitizeValue cfg m v)) :: sanitizeFields cfg m t)
        rw [ihf m t (by omega) (by omega)]
        by_cases hsens : isSensitiveField cfg k = true
        · rw [if_pos hsens, if_pos hsens]
        · rw [if_neg hsens, if_neg hsens, ihv m v (by omega) (by omega)]

/-- Above the threshold, `sanitizeFields` is the entrywise `entryC` map. -/
theorem sanitizeFields_entryC (cfg : SanitizerConfig) : ∀ (fs : List (Chars × Jval)) (f : Nat),
    szSF fs ≤ f → sanitizeFields cfg f fs = fs.map (entryC cfg)
  | [], f, _ => by cases f <;> rfl
  | (k, v) :: rest, f, h => by
    have hb : szS v + szSF rest + 1 ≤ f := h
    obtain ⟨a, rfl⟩ : ∃ a, f = a + 1 := ⟨f - 1, by omega⟩
    show ((if isSensitiveField cfg k then (k, Jval.str cfg.mask)
           else (k, sanitizeValue cfg a v)) :: sanitizeFields cfg a rest) =
         ((if isSensitiveField cfg k then (k, Jval.str cfg.mask)
           else (k, sanitizeValue cfg (szS v) v)) :: rest.map (entryC cfg))
    rw [sanitizeFields_entryC cfg rest a (by omega)]
    by_cases hsens : isSensitiveField cfg k = true
    · rw [if_pos hsens, if_pos hsens]
    · rw [if_neg hsens, if_neg hsens,
          (sanitize_fuel_stable cfg a).1 (szS v) v (by omega) (Nat.le_refl _)]

/-- The `entryC` map keeps the key list. -/
theorem map_entryC_fst (cfg : SanitizerConfig) : ∀ fs : List (Chars × Jval),
    (fs.map (entryC cfg)).map Prod.fst = fs.map Prod.fst
  | [] => rfl
  | e :: rest => by
    rw [List.map_cons, List.map_cons, List.map_cons, entryC_fst, map_entryC_fst cfg rest]

/-- The `sortEntry` map keeps the key list. -/
theorem map_sortEntry_fst : ∀ fs : List (Chars × Jval),
    (fs.map sortEntry).map Prod.fst = fs.map Prod.fst
  | [] => rfl
  | e :: rest => by
    rw [List.map_cons, List.map_cons, List.map_cons, map_sortEntry_fst rest]
    rfl

/-- `PermJF`-related field lists carry the same keys in the same order. -/
theorem permJF_keys : ∀ {fs gs : List (Chars × Jval)}, PermJF fs gs →
    fs.map Prod.fst = gs.map Prod.fst
  | _, _, .nil => rfl
  | _, _, .cons k hv hfs => by
    rw [List.map_cons, List.map_cons, permJF_keys hfs]

mutual

/-- Sanitization maps two representatives of one document (at any two
sufficient fuels) to representatives of one document. -/
theorem permJ_sanitize (cfg : SanitizerConfig) : ∀ {v w : Jval}, PermJ v w →
    ∀ f₁ f₂, szS v ≤ f₁ → szS w ≤ f₂ →
    PermJ (sanitizeValue cfg f₁ v) (sanitizeValue cfg f₂ w)
  | _, _, .null, f₁, f₂, _, _ => by
    rw [sanV_null cfg f₁, sanV_null cfg f₂]
    exact .null
  | _, _, .boolean b, f₁, f₂, _, _ => by
    rw [sanV_bool cfg b f₁, sanV_bool cfg b f₂]
    exact .boolean b
  | _, _, .num lex, f₁, f₂, _, _ => by
    rw [sanV_num cfg lex f₁, sanV_num cfg lex f₂]
    exact .num lex
  | _, _, .str s, f₁, f₂, h₁, h₂ => by
    have hb1 : s.length + 2 ≤ f₁ := h₁
    have hb2 : s.length + 2 ≤ f₂ := h₂
    obtain ⟨a, rfl⟩ : ∃ a, f₁ = a + 1 := ⟨f₁ - 1, by omega⟩
    obtain ⟨b, rfl⟩ : ∃ b, f₂ = b + 1 := ⟨f₂ - 1, by omega⟩
    show PermJ (if looksLikeJSON s then Jval.str (sanitizeJSON cfg a s)
                else Jval.str (sanitizeText cfg s))
               (if looksLikeJSON s then Jval.str (sanitizeJSON cfg b s)
                else Jval.str (sanitizeText cfg s))
    by_cases hj : looksLikeJSON s = true
    · rw [if_pos hj, if_pos hj, (sanitize_fuel_stable cfg a).2.1 b s (by omega) (by omega)]
      exact .str _
    · rw [if_neg hj, if_neg hj]
      exact .str _
  | _, _, @PermJ.arr xs ys hl, f₁, f₂, h₁, h₂ => by
    have hb1 : szSL xs + 1 ≤ f₁ := h₁
    have hb2 : szSL ys + 1 ≤ f₂ := h₂
    obtain ⟨a, rfl⟩ : ∃ a, f₁ = a + 1 := ⟨f₁ - 1, by omega⟩
    obtain ⟨b, rfl⟩ : ∃ b, f₂ = b + 1 := ⟨f₂ - 1, by omega⟩
    show PermJ (Jval.arr (sanitizeElems cfg a xs)) (Jval.arr (sanitizeElems cfg b ys))
    exact .arr (permJL_sanitize cfg hl a b (by omega) (by omega))
  | _, _, @PermJ.obj fs gs hs hf hp hnd, f₁, f₂, h₁, h₂ => by
    have hb1 : szSF fs + 1 ≤ f₁ := h₁
    have hb2 : szSF hs + 1 ≤ f₂ := h₂
    obtain ⟨a, rfl⟩ : ∃ a, f₁ = a + 1 := ⟨f₁ - 1, by omega⟩
    obtain ⟨b, rfl⟩ : ∃ b, f₂ = b + 1 := ⟨f₂ - 1, by omega⟩
    show PermJ (Jval.obj (sanitizeFields cfg a fs)) (Jval.obj (sanitizeFields cfg b hs))
    rw [sanitizeFields_entryC cfg fs a (by omega), sanitizeFields_entryC cfg hs b (by omega)]
    exact .obj (permJF_entryC cfg hf) (hp.map (entryC cfg))
      (by rw [map_entryC_fst]; exact hnd)

/-- Elementwise version of `permJ_sanitize`. -/
theorem permJL_sanitize (cfg : SanitizerConfig) : ∀ {xs ys : List Jval}, PermJL xs ys →
    ∀ f₁ f₂, szSL xs ≤ f₁ → szSL ys ≤ f₂ →
    PermJL (sanitizeElems cfg f₁ xs) (sanitizeElems cfg f₂ ys)
  | _, _, .nil, f₁, f₂, _, _ => by
    cases f₁ <;> cases f₂ <;> exact .nil
  | _, _, @PermJL.cons x y xs ys hxy ht, f₁, f₂, h₁, h₂ => by
    have hb1 : szS x + szSL xs + 1 ≤ f₁ := h₁
    have hb2 : szS y + szSL ys + 1 ≤ f₂ := h₂
    obtain ⟨a, rfl⟩ : ∃ a, f₁ = a + 1 := ⟨f₁ - 1, by omega⟩
    obtain ⟨b, rfl⟩ : ∃ b, f₂ = b + 1 := ⟨f₂ - 1, by omega⟩
    show PermJL (sanitizeValue cfg a x :: sanitizeElems cfg a xs)
                (sanitizeValue cfg b y :: sanitizeElems cfg b ys)
    exact .cons (permJ_sanitize cfg hxy a b (by omega) (by omega))
      (permJL_sanitize cfg ht a b (by omega) (by omega))

/-- Entrywise: the stabilized field map `entryC` preserves `PermJF`,
sanitizing each entry at its own threshold. -/
theorem permJF_entryC (cfg : SanitizerConfig) : ∀ {fs gs : List (Chars × Jval)},
    PermJF fs gs → PermJF (fs.map (entryC cfg)) (gs.map (entryC cfg))
  | _, _, .nil => .nil
  | _, _, @PermJF.cons k v w fs gs hv ht => by
    show PermJF ((if isSensitiveField cfg k then (k, Jval.str cfg.mask)
                  else (k, sanitizeValue cfg (szS v) v)) :: fs.map (entryC cfg))
                ((if isSensitiveField cfg k then (k, Jval.str cfg.mask)
                  else (k, sanitizeValue cfg (szS w) w)) :: gs.map (entryC cfg))
    by_cases hsens : isSensitiveField cfg k = true
    · rw [if_pos hsens, if_pos hsens]
      exact .cons k (.str _) (permJF_entryC cfg ht)
    · rw [if_neg hsens, if_neg hsens]
      exact .cons k (permJ_sanitize cfg hv (szS v) (szS w) (Nat.le_refl _) (Nat.le_refl _))
        (permJF_entryC cfg ht)

end

mutual

/-- Key sorting cancels the representation choice: two representatives of
one document have identical key-sorted forms, hence identical
`MarshalIndent` bytes. -/
theorem permJ_sortJ : ∀ {v w : Jval}, PermJ v w → sortJ v = sortJ w
  | _, _, .null => rfl
  | _, _, .boolean _ => rfl
  | _, _, .num _ => rfl
  | _, _, .str _ => rfl
  | _, _, @PermJ.arr xs ys hl => by
    show Jval.arr (sortJElems xs) = Jval.arr (sortJElems ys)
    rw [permJL_sortJ hl]
  | _, _, @PermJ.obj fs gs hs hf hp hnd => by
    show Jval.obj (sortFields (sortJFields fs)) = Jval.obj (sortFields (sortJFields hs))
    have hks : fs.map Prod.fst = gs.map Prod.fst := permJF_keys hf
    rw [permJF_sortJ hf, sortJFields_eq_map gs, sortJFields_eq_map hs,
        sortFields_perm_eq (gs.map sortEntry) (hs.map sortEntry) (hp.map sortEntry)
          (by rw [map_sortEntry_fst, ← hks]; exact hnd)]

/-- Elementwise version of `permJ_sortJ`. -/
theorem permJL_sortJ : ∀ {xs ys : List Jval}, PermJL xs ys → sortJElems xs = sortJElems ys
  | _, _, .nil => rfl
  | _, _, @PermJL.cons x y xs ys hxy ht => by
    show sortJ x :: sortJElems xs = sortJ y :: sortJElems ys
    rw [permJ_sortJ hxy, permJL_sortJ ht]

/-- Entrywise version of `permJ_sortJ`. -/
theorem permJF_sortJ : ∀ {fs gs : List (Chars × Jval)}, PermJF fs gs →
    sortJFields fs = sortJFields gs
  | _, _, .nil => rfl
  | _, _, @PermJF.cons k v w fs gs hv ht => by
    show (k, sortJ v) :: sortJFields fs = (k, sortJ w) :: sortJFields gs
    rw [permJ_sortJ hv, permJF_sortJ ht]

end

/-- C9: the JSON pipeline is deterministic under Go's unordered map
iteration.  `json.Unmarshal` stores objects in maps, so a Go run sees the
document through a choice, at every object and at every nesting level, of
an iteration order — a permutation of that object's field list; `PermJ`
relates any two such representatives (with the duplicate-free keys of a Go
map).  First conjunct: for any two representatives and any two sufficient
fuels — fuel is an artifact of the embedding, not of the Go code —
sanitize-then-marshal produces byte-identical output, including on
documents the sanitizer rewrites (nested sensitive keys, pattern-hit
strings): sanitization maps related representatives to related
representatives, and `MarshalIndent`'s key sorting cancels the
permutations.  Second conjunct: the fuel bound is satisfiable and satisfied
by the pipeline itself — a freshly parsed document's threshold is at most
the body length, below the `jsonFuel`-derived fuel the pipeline passes. -/
theorem c9_theorem :
    (∀ (cfg : SanitizerConfig) (v w : Jval) (f₁ f₂ : Nat), PermJ v w →
      szS v ≤ f₁ → szS w ≤ f₂ →
      marshalTop (sanitizeValue cfg f₁ v) = marshalTop (sanitizeValue cfg f₂ w)) ∧
    (∀ (s : Chars) (v : Jval), jsonParse s = some v → szS v ≤ s.length) :=
  ⟨fun cfg v w f₁ f₂ hperm h₁ h₂ => by
    show marshal0 (sortJ (sanitizeValue cfg f₁ v)) 0 =
         marshal0 (sortJ (sanitizeValue cfg f₂ w)) 0
    rw [permJ_sortJ (permJ_sanitize cfg hperm f₁ f₂ h₁ h₂)],
   jsonParse_szS⟩

/-- C9, witness: a document whose nested object holds a sensitive key
(`password`, masked by the sanitizer) and a pattern-hit string (a `Bearer`
token, rewritten by the text sanitizer), under two iteration orders that
permute the nested object — and at two different fuels — marshals to the
same bytes; plus the threshold bound instantiated on a freshly parsed
document. -/
theorem c9_witness :
    marshalTop (sanitizeValue DefaultSanitizerConfig 30
      (.obj [(("outer").data,
        .obj [(("password").data, .str ("x").data),
              (("d").data, .str ("Bearer xyz").data)])])) =
    marshalTop (sanitizeValue DefaultSanitizerConfig 40
      (.obj [(("outer").data,
        .obj [(("d").data, .str ("Bearer xyz").data),
              (("password").data, .str ("x").data)])])) ∧
    szS (.obj [(("a").data, Jval.null)]) ≤ (("\x7b\"a\":null\x7d").data).length :=
  ⟨c9_theorem.1 DefaultSanitizerConfig _ _ 30 40
    (.obj (.cons _ (.obj (.cons _ (.str _) (.cons _ (.str _) .nil))
        (List.Perm.swap _ _ _) (by decide)) .nil)
      (List.Perm.refl _) (by decide))
    (by decide) (by decide),
   c9_theorem.2 (("\x7b\"a\":null\x7d").data) (.obj [(("a").data, Jval.null)]) rfl⟩

/-! ## Claim C1: validity preservation of the JSON pipeline

`sanitizeJSON` re-marshals the sanitized value; the lemmas below establish
that the marshalled text parses again.  `numWF` confines number lexemes to
the grammar the parser accepts (every value produced by `jsonParse`
satisfies it), and `szJ` is the fuel budget the re-parse needs. -/






/-- A character that can head a number lexeme is in no other syntactic
class the parser tests for. -/
theorem numHead_props (c : Char) (h : (decide (c = '-') || isDigitC c) = true) :
    isNumChar c = true ∧ isWSJson c = false ∧ c ≠ ']' ∧ c ≠ 'n' ∧ c ≠ 't' ∧ c ≠ 'f' ∧
    c ≠ '"' ∧ c ≠ '[' ∧ c ≠ '{' := by
  simp only [Bool.or_eq_true, decide_eq_true_eq] at h
  rcases h with h | h
  · subst h
    exact ⟨by decide, by decide, by decide, by decide, by decide, by decide, by decide,
           by decide, by decide⟩
  · refine ⟨by simp [isNumChar, h], ?_, ?_, ?_, ?_, ?_, ?_, ?_, ?_⟩
    · cases hw : isWSJson c
      · rfl
      · exfalso
        simp only [isWSJson, Bool.or_eq_true, decide_eq_true_eq] at hw
        rcases hw with ((rfl | rfl) | rfl) | rfl <;> exact absurd h (by decide)
    all_goals intro hc; subst hc; exact absurd h (by decide)

/-- An accepted number lexeme is in particular grammar-valid. -/
theorem numOK_valid (lex : Chars) (h : numOK lex = true) : validNumLex lex = true := by
  simp only [numOK, Bool.and_eq_true] at h
  exact h.1

/-- A valid number lexeme starts with `-` or a digit. -/
theorem validNumLex_head (lex : Chars) (h : validNumLex lex = true) :
    ∃ c t, lex = c :: t ∧ (decide (c = '-') || isDigitC c) = true := by
  cases lex with
  | nil => exact absurd h (by decide)
  | cons c t =>
    refine ⟨c, t, rfl, ?_⟩
    by_cases hc : c = '-'
    · subst hc; decide
    · simp only [Bool.or_eq_true, decide_eq_true_eq]
      right
      by_cases hd : isDigitC c = true
      · exact hd
      · exfalso
        unfold validNumLex at h
        simp only [] at h
        split at h
        · exact Bool.noConfusion h
        · rename_i r1 hne
          split at hne
          · rename_i r heq
            injection heq with h1 h2
            exact hc h1
          · unfold chompInt at hne
            split at hne
            · rename_i rest heq
              injection heq with h1 h2
              subst h1
              exact hd (by decide)
            · rename_i c2 rest heq
              injection heq with h1 h2
              subst h1
              subst h2
              by_cases hrange : ('1' ≤ c ∧ c ≤ '9')
              · exact hd (by
                  simp only [isDigitC, Bool.and_eq_true, decide_eq_true_eq]
                  exact ⟨le_trans (by decide : ('0' : Char) ≤ '1') hrange.1, hrange.2⟩)
              · rw [if_neg (by
                    intro hcon
                    simp only [Bool.and_eq_true, decide_eq_true_eq] at hcon
                    exact hrange hcon)] at hne
                exact Option.noConfusion hne
            · rename_i heq
              exact List.noConfusion heq

/-- JSON whitespace is never a number character. -/
theorem ws_not_num (c : Char) (h : isWSJson c = true) : isNumChar c = false := by
  simp only [isWSJson, Bool.or_eq_true, decide_eq_true_eq] at h
  rcases h with ((rfl | rfl) | rfl) | rfl <;> decide

/-- `skipWSJ` is the identity on input with a non-whitespace head. -/
theorem skipWSJ_nonws (c : Char) (l : Chars) (h : isWSJson c = false) :
    skipWSJ (c :: l) = c :: l := by
  simp [skipWSJ, List.dropWhile_cons, h]

/-- `skipWSJ` drops an all-whitespace prefix. -/
theorem skipWSJ_wsLead : ∀ (ws tail : Chars), (∀ c ∈ ws, isWSJson c = true) →
    skipWSJ (ws ++ tail) = skipWSJ tail
  | [], _, _ => rfl
  | c :: ws, tail, h => by
    have hc := h c (List.mem_cons_self c ws)
    show skipWSJ (c :: (ws ++ tail)) = _
    simp only [skipWSJ, List.dropWhile_cons, hc, if_true]
    exact skipWSJ_wsLead ws tail (fun c2 hc2 => h c2 (List.mem_cons_of_mem c hc2))

/-- Every character of an indentation run is whitespace. -/
theorem indentL_ws (k : Nat) : ∀ c ∈ indentL k, isWSJson c = true := by
  intro c hc
  have := List.eq_of_mem_replicate hc
  subst this
  rfl

/-- A closing suffix that skips to a non-number delimiter has no number
character at its head. -/
theorem noNumHead_of_skipWS (close tail : Chars) (b : Char)
    (h : skipWSJ close = b :: tail) (hb : isNumChar b = false) :
    noNumHead close = true := by
  cases close with
  | nil => rfl
  | cons c t =>
    show (!isNumChar c) = true
    cases hw : isWSJson c
    · rw [skipWSJ_nonws c t hw] at h
      injection h with h1 h2
      subst h1
      rw [hb]
      rfl
    · rw [ws_not_num c hw]
      rfl

/-- `hexVal?` inverts `hexDigitL`. -/
theorem hexVal?_hexDigitL : ∀ n < 16, hexVal? (hexDigitL n) = some n := by decide

/-- Fuel never matters on the whitespace prefix: `parseValue` skips it. -/
theorem parseValue_ws : ∀ (f : Nat) (ws i : Chars), (∀ c ∈ ws, isWSJson c = true) →
    parseValue f (ws ++ i) = parseValue f i := by
  intro f ws i h
  cases f with
  | zero => rfl
  | succ n =>
    unfold parseValue
    rw [skipWSJ_wsLead ws i h]

/-- `parseElems` also ignores a whitespace prefix. -/
theorem parseElems_ws : ∀ (f : Nat) (ws i : Chars), (∀ c ∈ ws, isWSJson c = true) →
    parseElems f (ws ++ i) = parseElems f i := by
  intro f ws i h
  cases f with
  | zero => rfl
  | succ n =>
    unfold parseElems
    rw [parseValue_ws n ws i h]

/-- `takeWhile`/`dropWhile` split an appended list exactly at the boundary
when the prefix satisfies the predicate and the suffix's head does not. -/
theorem takeWhile_dropWhile_append (p : Char → Bool) :
    ∀ (l r : Chars), (∀ c ∈ l, p c = true) →
      (∀ c, r.head? = some c → p c = false) →
      (l ++ r).takeWhile p = l ∧ (l ++ r).dropWhile p = r
  | [], r, _, hr => by
    cases r with
    | nil => exact ⟨rfl, rfl⟩
    | cons c t =>
      have hc := hr c rfl
      simp [List.takeWhile_cons, List.dropWhile_cons, hc]
  | c :: l, r, hl, hr => by
    have hc := hl c (List.mem_cons_self c l)
    have ih := takeWhile_dropWhile_append p l r
      (fun c2 hc2 => hl c2 (List.mem_cons_of_mem c hc2)) hr
    simp only [List.cons_append, List.takeWhile_cons, List.dropWhile_cons, hc, if_true]
    exact ⟨by rw [ih.1], ih.2⟩

/-- Parsing a marshalled string literal succeeds and stops exactly after the
closing quote. -/
theorem parseStringBody_escape : ∀ (s rest : Chars), ∃ t,
    parseStringBody (escapeStr s ++ '"' :: rest) = some (t, rest)
  | [], rest => ⟨[], by
    show parseStringBody ('"' :: rest) = some ([], rest)
    unfold parseStringBody
    rw [if_pos rfl]⟩
  | c :: s, rest => by
    obtain ⟨t, ht⟩ := parseStringBody_escape s rest
    unfold escapeStr
    rw [List.append_assoc]
    unfold escapeChar
    by_cases h1 : c = '"'
    · rw [if_pos h1]
      refine ⟨'"' :: t, ?_⟩
      show parseStringBody ('\\' :: '"' :: (escapeStr s ++ '"' :: rest)) = _
      unfold parseStringBody
      rw [if_neg (by decide : ¬('\\' : Char) = '"'), if_pos (rfl : ('\\' : Char) = '\\')]
      simp only []
      rw [if_neg (by decide : ¬('"' : Char) = 'u'),
          show simpleEsc '"' = some '"' from rfl]
      simp only []
      rw [ht]
      rfl
    · rw [if_neg h1]
      by_cases h2 : c = '\\'
      · rw [if_pos h2]
        refine ⟨'\\' :: t, ?_⟩
        show parseStringBody ('\\' :: '\\' :: (escapeStr s ++ '"' :: rest)) = _
        unfold parseStringBody
        rw [if_neg (by decide : ¬('\\' : Char) = '"'), if_pos (rfl : ('\\' : Char) = '\\')]
        simp only []
        rw [if_neg (by decide : ¬('\\' : Char) = 'u'),
            show simpleEsc '\\' = some '\\' from rfl]
        simp only []
        rw [ht]
        rfl
      · rw [if_neg h2]
        by_cases h3 : c = '\n'
        · rw [if_pos h3]
          refine ⟨'\n' :: t, ?_⟩
          show parseStringBody ('\\' :: 'n' :: (escapeStr s ++ '"' :: rest)) = _
          unfold parseStringBody
          rw [if_neg (by decide : ¬('\\' : Char) = '"'), if_pos (rfl : ('\\' : Char) = '\\')]
          simp only []
          rw [if_neg (by decide : ¬('n' : Char) = 'u'),
              show simpleEsc 'n' = some '\n' from rfl]
          simp only []
          rw [ht]
          rfl
        · rw [if_neg h3]
          by_cases h4 : c = '\r'
          · rw [if_pos h4]
            refine ⟨'\r' :: t, ?_⟩
            show parseStringBody ('\\' :: 'r' :: (escapeStr s ++ '"' :: rest)) = _
            unfold parseStringBody
            rw [if_neg (by decide : ¬('\\' : Char) = '"'), if_pos (rfl : ('\\' : Char) = '\\')]
            simp only []
            rw [if_neg (by decide : ¬('r' : Char) = 'u'),
                show simpleEsc 'r' = some '\r' from rfl]
            simp only []
            rw [ht]
            rfl
          · rw [if_neg h4]
            by_cases h5 : c = '\t'
            · rw [if_pos h5]
              refine ⟨'\t' :: t, ?_⟩
              show parseStringBody ('\\' :: 't' :: (escapeStr s ++ '"' :: rest)) = _
              unfold parseStringBody
              rw [if_neg (by decide : ¬('\\' : Char) = '"'),
                  if_pos (rfl : ('\\' : Char) = '\\')]
              simp only []
              rw [if_neg (by decide : ¬('t' : Char) = 'u'),
                  show simpleEsc 't' = some '\t' from rfl]
              simp only []
              rw [ht]
              rfl
            · rw [if_neg h5]
              by_cases h6 : (c = '<' || c = '>' || c = '&' || decide (c.toNat < 32)) = true
              · rw [if_pos h6]
                have hle : c.toNat ≤ 62 := by
                  simp only [Bool.or_eq_true, decide_eq_true_eq] at h6
                  rcases h6 with ((rfl | rfl) | rfl) | h
                  · decide
                  · decide
                  · decide
                  · omega
                have hx1 : hexVal? (hexDigitL (c.toNat / 16)) = some (c.toNat / 16) :=
                  hexVal?_hexDigitL _ (by omega)
                have hx2 : hexVal? (hexDigitL (c.toNat % 16)) = some (c.toNat % 16) :=
                  hexVal?_hexDigitL _ (Nat.mod_lt _ (by omega))
                refine ⟨Char.ofNat ((((0 : Nat) * 16 + 0) * 16 + c.toNat / 16) * 16 +
                    c.toNat % 16) :: t, ?_⟩
                show parseStringBody ('\\' :: 'u' :: '0' :: '0' :: hexDigitL (c.toNat / 16) ::
                    hexDigitL (c.toNat % 16) :: (escapeStr s ++ '"' :: rest)) = _
                unfold parseStringBody
                rw [if_neg (by decide : ¬('\\' : Char) = '"'),
                    if_pos (rfl : ('\\' : Char) = '\\')]
                simp only []
                rw [if_pos trivial]
                rw [show hexVal? '0' = some 0 from rfl, hx1, hx2]
                simp only []
                rw [ht]
                rfl
              · rw [if_neg h6]
                refine ⟨c :: t, ?_⟩
                show parseStringBody (c :: (escapeStr s ++ '"' :: rest)) = _
                unfold parseStringBody
                rw [if_neg h1, if_neg h2, if_neg (show ¬(c.toNat < 32) from ?_), ht]
                · rfl
                · intro hlt
                  exact h6 (by simp [hlt])

/-- The marshalled text of a well-formed value begins with a non-whitespace
character other than `]`. -/
theorem marshal_head (w : Jval) (d : Nat) (hwf : numWF w = true) :
    ∃ c t, marshal0 w d = c :: t ∧ isWSJson c = false ∧ c ≠ ']' := by
  cases w with
  | null => exact ⟨'n', _, rfl, by decide, by decide⟩
  | boolean b =>
    cases b
    · exact ⟨'f', _, rfl, by decide, by decide⟩
    · exact ⟨'t', _, rfl, by decide, by decide⟩
  | num lex =>
    have hv : validNumLex lex = true := by
      simp only [numWF, numOK, Bool.and_eq_true] at hwf
      exact hwf.1.1
    obtain ⟨c, t, hlex, hc⟩ := validNumLex_head lex hv
    obtain ⟨_, hws, hbr, _⟩ := numHead_props c hc
    exact ⟨c, t, by rw [show marshal0 (.num lex) d = lex from rfl, hlex], hws, hbr⟩
  | str s => exact ⟨'"', _, rfl, by decide, by decide⟩
  | arr xs =>
    cases xs with
    | nil => exact ⟨'[', _, rfl, by decide, by decide⟩
    | cons x t =>
      refine ⟨'[', '\n' :: (marshalItems0 (x :: t) (d + 1) ++ '\n' :: (indentL d ++ [']'])),
        ?_, by decide, by decide⟩
      unfold marshal0
      rw [if_neg (by simp : ¬((x :: t).isEmpty = true))]
  | obj fs =>
    cases fs with
    | nil => exact ⟨'{', _, rfl, by decide, by decide⟩
    | cons f t =>
      refine ⟨'{', '\n' :: (marshalFields0 (f :: t) (d + 1) ++ '\n' :: (indentL d ++ ['}'])),
        ?_, by decide, by decide⟩
      unfold marshal0
      rw [if_neg (by simp : ¬((f :: t).isEmpty = true))]

mutual

/-- The fuel budget of a value is covered by its marshalled length. -/
theorem szJ_le_marshal : ∀ (w : Jval) (d : Nat), numWF w = true →
    szJ w ≤ (marshal0 w d).length
  | .null, d, _ => by
    rw [show marshal0 .null d = ("null").data from rfl]
    simp [szJ]
  | .boolean b, d, _ => by
    cases b
    · rw [show marshal0 (.boolean false) d = ("false").data from rfl]
      simp [szJ]
    · rw [show marshal0 (.boolean true) d = ("true").data from rfl]
      simp [szJ]
  | .num lex, d, hwf => by
    rw [show marshal0 (.num lex) d = lex from rfl]
    simp only [numWF, numOK, Bool.and_eq_true] at hwf
    obtain ⟨c, t, rfl, _⟩ := validNumLex_head lex hwf.1.1
    simp [szJ]
  | .str s, d, _ => by
    rw [show marshal0 (.str s) d = quoteStr s from rfl]
    simp [szJ, quoteStr]
  | .arr xs, d, hwf => by
    cases xs with
    | nil =>
      rw [show marshal0 (.arr []) d = ['[', ']'] from rfl]
      simp [szJ, szL]
    | cons x t =>
      have h : marshal0 (.arr (x :: t)) d =
          '[' :: '\n' :: (marshalItems0 (x :: t) (d + 1) ++ '\n' :: (indentL d ++ [']'])) := by
        unfold marshal0
        rw [if_neg (by simp : ¬((x :: t).isEmpty = true))]
      rw [h]
      have hi := szL_le_items (x :: t) (d + 1) (by simpa [numWF] using hwf)
      simp only [szJ, List.length_cons, List.length_append]
      omega
  | .obj fs, d, hwf => by
    cases fs with
    | nil =>
      rw [show marshal0 (.obj []) d = ['{', '}'] from rfl]
      simp [szJ, szF]
    | cons f t =>
      have h : marshal0 (.obj (f :: t)) d =
          '{' :: '\n' :: (marshalFields0 (f :: t) (d + 1) ++ '\n' :: (indentL d ++ ['}'])) := by
        unfold marshal0
        rw [if_neg (by simp : ¬((f :: t).isEmpty = true))]
      rw [h]
      have hi := szF_le_fields (f :: t) (d + 1) (by simpa [numWF] using hwf)
      simp only [szJ, List.length_cons, List.length_append]
      omega

/-- Element budgets are covered by the rendered items (plus the brackets). -/
theorem szL_le_items : ∀ (xs : List Jval) (d : Nat), numWFL xs = true →
    szL xs ≤ (marshalItems0 xs d).length + 2
  | [], _, _ => by simp [szL]
  | [x], d, hwf => by
    have h : marshalItems0 [x] d = indentL d ++ marshal0 x d := by simp only [marshalItems0]
    rw [h]
    simp only [numWFL, Bool.and_eq_true] at hwf
    have hx := szJ_le_marshal x d hwf.1
    simp only [szL, List.length_append]
    omega
  | x :: y :: ys, d, hwf => by
    have h : marshalItems0 (x :: y :: ys) d =
        indentL d ++ marshal0 x d ++ ',' :: '\n' :: marshalItems0 (y :: ys) d := by
      simp only [marshalItems0]
    rw [h]
    simp only [numWFL, Bool.and_eq_true] at hwf
    have hx := szJ_le_marshal x d hwf.1
    have hi := szL_le_items (y :: ys) d (by
      simp only [numWFL, Bool.and_eq_true]
      exact hwf.2)
    simp only [szL, List.length_append, List.length_cons]
    simp only [szL] at hi
    omega

/-- Field budgets are covered by the rendered fields (plus the braces). -/
theorem szF_le_fields : ∀ (fs : List (Chars × Jval)) (d : Nat), numWFF fs = true →
    szF fs ≤ (marshalFields0 fs d).length + 2
  | [], _, _ => by simp [szF]
  | [(k, v)], d, hwf => by
    have h : marshalFields0 [(k, v)] d =
        indentL d ++ (quoteStr k ++ ':' :: ' ' :: marshal0 v d) := by simp only [marshalFields0]
    rw [h]
    simp only [numWFF, Bool.and_eq_true] at hwf
    have hx := szJ_le_marshal v d hwf.1
    simp only [szF, List.length_append, List.length_cons]
    omega
  | (k, v) :: f :: fs2, d, hwf => by
    have h : marshalFields0 ((k, v) :: f :: fs2) d =
        indentL d ++ (quoteStr k ++ ':' :: ' ' :: marshal0 v d) ++
          ',' :: '\n' :: marshalFields0 (f :: fs2) d := by
      simp only [marshalFields0]
    rw [h]
    simp only [numWFF, Bool.and_eq_true] at hwf
    have hx := szJ_le_marshal v d hwf.1
    have hi := szF_le_fields (f :: fs2) d (by
      simp only [numWFF, Bool.and_eq_true]
      exact hwf.2)
    simp only [szF, List.length_append, List.length_cons]
    simp only [szF] at hi
    omega

end

/-- Appending the closing suffix to the rendered items gives the
`parseElems` input (after the leading indentation). -/
theorem marshalItems0_close : ∀ (xs : List Jval) (d : Nat) (close : Chars), xs ≠ [] →
    marshalItems0 xs d ++ close = indentL d ++ elemsBody xs d close
  | [], _, _, h => absurd rfl h
  | [x], d, close, _ => by
    have h1 : marshalItems0 [x] d = indentL d ++ marshal0 x d := by simp only [marshalItems0]
    have h2 : elemsBody [x] d close = marshal0 x d ++ close := by simp only [elemsBody]
    rw [h1, h2, List.append_assoc]
  | x :: y :: ys, d, close, _ => by
    have h1 : marshalItems0 (x :: y :: ys) d =
        indentL d ++ marshal0 x d ++ ',' :: '\n' :: marshalItems0 (y :: ys) d := by
      simp only [marshalItems0]
    have h2 : elemsBody (x :: y :: ys) d close =
        marshal0 x d ++ ',' :: '\n' :: (indentL d ++ elemsBody (y :: ys) d close) := by
      simp only [elemsBody]
    rw [h1, h2, ← marshalItems0_close (y :: ys) d close (by simp)]
    simp [List.append_assoc]

/-- Field analogue of `marshalItems0_close`. -/
theorem marshalFields0_close : ∀ (fs : List (Chars × Jval)) (d : Nat) (close : Chars),
    fs ≠ [] → marshalFields0 fs d ++ close = indentL d ++ membersBody fs d close
  | [], _, _, h => absurd rfl h
  | [(k, v)], d, close, _ => by
    have h1 : marshalFields0 [(k, v)] d =
        indentL d ++ (quoteStr k ++ ':' :: ' ' :: marshal0 v d) := by simp only [marshalFields0]
    have h2 : membersBody [(k, v)] d close =
        quoteStr k ++ ':' :: ' ' :: (marshal0 v d ++ close) := by simp only [membersBody]
    rw [h1, h2]
    simp [List.append_assoc]
  | (k, v) :: f :: fs2, d, close, _ => by
    have h1 : marshalFields0 ((k, v) :: f :: fs2) d =
        indentL d ++ (quoteStr k ++ ':' :: ' ' :: marshal0 v d) ++
          ',' :: '\n' :: marshalFields0 (f :: fs2) d := by
      simp only [marshalFields0]
    have h2 : membersBody ((k, v) :: f :: fs2) d close =
        quoteStr k ++ ':' :: ' ' ::
          (marshal0 v d ++ ',' :: '\n' :: (indentL d ++ membersBody (f :: fs2) d close)) := by
      simp only [membersBody]
    rw [h1, h2, ← marshalFields0_close (f :: fs2) d close (by simp)]
    simp [List.append_assoc]

/-- The marshalled form of a non-empty array followed by arbitrary input,
recast as bracket, whitespace, and the `parseElems` input. -/
theorem marshal_arr_cons (x : Jval) (t : List Jval) (d : Nat) (rest : Chars) :
    marshal0 (.arr (x :: t)) d ++ rest =
      '[' :: '\n' :: (indentL (d + 1) ++ elemsBody (x :: t) (d + 1)
        ('\n' :: (indentL d ++ ']' :: rest))) := by
  have h : marshal0 (.arr (x :: t)) d =
      '[' :: '\n' :: (marshalItems0 (x :: t) (d + 1) ++ '\n' :: (indentL d ++ [']'])) := by
    unfold marshal0
    rw [if_neg (by simp : ¬((x :: t).isEmpty = true))]
  rw [h,
      show ('[' :: '\n' :: (marshalItems0 (x :: t) (d + 1) ++ '\n' ::
            (indentL d ++ [']']))) ++ rest =
          '[' :: '\n' :: (marshalItems0 (x :: t) (d + 1) ++
            ('\n' :: (indentL d ++ ']' :: rest)))
        from by simp [List.append_assoc],
      marshalItems0_close (x :: t) (d + 1) _ (by simp)]

/-- Object analogue of `marshal_arr_cons`. -/
theorem marshal_obj_cons (f : Chars × Jval) (t : List (Chars × Jval)) (d : Nat)
    (rest : Chars) :
    marshal0 (.obj (f :: t)) d ++ rest =
      '{' :: '\n' :: (indentL (d + 1) ++ membersBody (f :: t) (d + 1)
        ('\n' :: (indentL d ++ '}' :: rest))) := by
  have h : marshal0 (.obj (f :: t)) d =
      '{' :: '\n' :: (marshalFields0 (f :: t) (d + 1) ++ '\n' :: (indentL d ++ ['}'])) := by
    unfold marshal0
    rw [if_neg (by simp : ¬((f :: t).isEmpty = true))]
  rw [h,
      show ('{' :: '\n' :: (marshalFields0 (f :: t) (d + 1) ++ '\n' ::
            (indentL d ++ ['}']))) ++ rest =
          '{' :: '\n' :: (marshalFields0 (f :: t) (d + 1) ++
            ('\n' :: (indentL d ++ '}' :: rest)))
        from by simp [List.append_assoc],
      marshalFields0_close (f :: t) (d + 1) _ (by simp)]

/-- A quoted string followed by more input, in parse order. -/
theorem quoteStr_append (k X : Chars) :
    quoteStr k ++ X = '"' :: (escapeStr k ++ ('"' :: X)) := by
  simp [quoteStr, List.cons_append, List.append_assoc]

/-- The marshalled text of a well-formed value re-parses, consuming exactly
itself, given fuel covering its budget. -/
theorem marshal_parse : ∀ fuel : Nat,
    (∀ (w : Jval) (d : Nat) (rest : Chars), numWF w = true → szJ w ≤ fuel →
      noNumHead rest = true →
      ∃ v, parseValue fuel (marshal0 w d ++ rest) = some (v, rest)) ∧
    (∀ (xs : List Jval) (d : Nat) (close tail : Chars), numWFL xs = true →
      szL xs ≤ fuel → xs ≠ [] → skipWSJ close = ']' :: tail →
      ∃ vs, parseElems fuel (elemsBody xs d close) = some (vs, tail)) ∧
    (∀ (fs : List (Chars × Jval)) (d : Nat) (close tail : Chars), numWFF fs = true →
      szF fs ≤ fuel → fs ≠ [] → skipWSJ close = '}' :: tail →
      ∃ ms, parseMembers fuel (membersBody fs d close) = some (ms, tail)) := by
  intro fuel
  induction fuel with
  | zero =>
    refine ⟨?_, ?_, ?_⟩
    · intro w d rest _ hsz _
      exfalso
      cases w <;> simp [szJ] at hsz
    · intro xs d close tail _ hsz hne _
      exfalso
      cases xs with
      | nil => exact hne rfl
      | cons x t => simp [szL] at hsz
    · intro fs d close tail _ hsz hne _
      exfalso
      cases fs with
      | nil => exact hne rfl
      | cons f t => obtain ⟨k, v⟩ := f; simp [szF] at hsz
  | succ n ih =>
    obtain ⟨ihv, ihe, ihm⟩ := ih
    refine ⟨?_, ?_, ?_⟩
    · intro w d rest hwf hsz hnn
      cases w with
      | null =>
        refine ⟨.null, ?_⟩
        show parseValue (n + 1) ('n' :: 'u' :: 'l' :: 'l' :: rest) = some (.null, rest)
        unfold parseValue
        rw [skipWSJ_nonws 'n' _ (by decide)]
        simp only []
        rw [if_pos trivial,
            if_pos (show startsWithL ('u' :: 'l' :: 'l' :: rest) (("ull").data) = true
              from by simp [startsWithL])]
        rfl
      | boolean b =>
        cases b
        · refine ⟨.boolean false, ?_⟩
          show parseValue (n + 1) ('f' :: 'a' :: 'l' :: 's' :: 'e' :: rest) =
            some (.boolean false, rest)
          unfold parseValue
          rw [skipWSJ_nonws 'f' _ (by decide)]
          simp only []
          rw [if_neg (by decide : ¬('f' : Char) = 'n'), if_neg (by decide : ¬('f' : Char) = 't'),
              if_pos trivial,
              if_pos (show startsWithL ('a' :: 'l' :: 's' :: 'e' :: rest) (("alse").data) = true
                from by simp [startsWithL])]
          rfl
        · refine ⟨.boolean true, ?_⟩
          show parseValue (n + 1) ('t' :: 'r' :: 'u' :: 'e' :: rest) = some (.boolean true, rest)
          unfold parseValue
          rw [skipWSJ_nonws 't' _ (by decide)]
          simp only []
          rw [if_neg (by decide : ¬('t' : Char) = 'n'), if_pos trivial,
              if_pos (show startsWithL ('r' :: 'u' :: 'e' :: rest) (("rue").data) = true
                from by simp [startsWithL])]
          rfl
      | num lex =>
        simp only [numWF, Bool.and_eq_true] at hwf
        obtain ⟨c, t, rfl, hc⟩ := validNumLex_head lex (numOK_valid lex hwf.1)
        obtain ⟨hnum, hws, _, hn, ht, hf, hq, hbr, hbc⟩ := numHead_props c hc
        have hall : ∀ x ∈ c :: t, isNumChar x = true := List.all_eq_true.mp hwf.2
        have hsplit := takeWhile_dropWhile_append (fun x => isNumChar x) (c :: t) rest hall
          (fun x hx => by
            cases rest with
            | nil => exact Option.noConfusion hx
            | cons r0 rr =>
              injection hx with hx0
              subst hx0
              simp only [noNumHead, Bool.not_eq_true'] at hnn
              exact hnn)
        refine ⟨.num (c :: t), ?_⟩
        show parseValue (n + 1) ((c :: t) ++ rest) = some (.num (c :: t), rest)
        unfold parseValue
        rw [show (c :: t) ++ rest = c :: (t ++ rest) from rfl, skipWSJ_nonws c _ hws]
        simp only []
        rw [if_neg hn, if_neg ht, if_neg hf, if_neg hq, if_neg hbr, if_neg hbc,
            if_pos hc]
        rw [show c :: (t ++ rest) = (c :: t) ++ rest from rfl, hsplit.1, hsplit.2,
            if_pos hwf.1]
      | str s =>
        obtain ⟨t, hE⟩ := parseStringBody_escape s rest
        refine ⟨.str t, ?_⟩
        rw [show marshal0 (.str s) d = quoteStr s from rfl, quoteStr_append]
        unfold parseValue
        rw [skipWSJ_nonws '"' _ (by decide)]
        simp only []
        rw [if_neg (by decide : ¬('"' : Char) = 'n'), if_neg (by decide : ¬('"' : Char) = 't'),
            if_neg (by decide : ¬('"' : Char) = 'f'), if_pos trivial, hE]
        rfl
      | arr xs =>
        cases xs with
        | nil =>
          refine ⟨.arr [], ?_⟩
          rw [show marshal0 (.arr []) d ++ rest = '[' :: ']' :: rest from rfl]
          unfold parseValue
          rw [skipWSJ_nonws '[' _ (by decide)]
          simp only []
          rw [if_neg (by decide : ¬('[' : Char) = 'n'), if_neg (by decide : ¬('[' : Char) = 't'),
              if_neg (by decide : ¬('[' : Char) = 'f'), if_neg (by decide : ¬('[' : Char) = '"'),
              if_pos trivial,
              skipWSJ_nonws ']' _ (by decide),
              if_pos (show (']' :: rest).head? = some ']' from rfl)]
          rfl
        | cons x xs2 =>
          have hwfl : numWFL (x :: xs2) = true := by simpa [numWF] using hwf
          have hwfx : numWF x = true := by
            simp only [numWFL, Bool.and_eq_true] at hwfl
            exact hwfl.1
          obtain ⟨c0, t0, hm0, hws0, hbr0⟩ := marshal_head x (d + 1) hwfx
          have hclose : skipWSJ ('\n' :: (indentL d ++ ']' :: rest)) = ']' :: rest := by
            rw [show ('\n' :: (indentL d ++ ']' :: rest)) =
                  ('\n' :: indentL d) ++ ']' :: rest from by simp,
                skipWSJ_wsLead ('\n' :: indentL d) _ (by
                  intro c2 hc2
                  rcases List.mem_cons.mp hc2 with rfl | hc2
                  · rfl
                  · exact indentL_ws d c2 hc2),
                skipWSJ_nonws ']' _ (by decide)]
          have hebody : ∃ suf, elemsBody (x :: xs2) (d + 1)
              ('\n' :: (indentL d ++ ']' :: rest)) = marshal0 x (d + 1) ++ suf := by
            cases xs2 with
            | nil =>
              exact ⟨'\n' :: (indentL d ++ ']' :: rest), by simp only [elemsBody]⟩
            | cons y ys =>
              exact ⟨',' :: '\n' :: (indentL (d + 1) ++ elemsBody (y :: ys) (d + 1)
                ('\n' :: (indentL d ++ ']' :: rest))), by simp only [elemsBody]⟩
          obtain ⟨suf, hsuf⟩ := hebody
          have hskip2 : skipWSJ ('\n' :: (indentL (d + 1) ++ elemsBody (x :: xs2) (d + 1)
              ('\n' :: (indentL d ++ ']' :: rest)))) =
              elemsBody (x :: xs2) (d + 1) ('\n' :: (indentL d ++ ']' :: rest)) := by
            rw [show ('\n' :: (indentL (d + 1) ++ elemsBody (x :: xs2) (d + 1)
                  ('\n' :: (indentL d ++ ']' :: rest)))) =
                ('\n' :: indentL (d + 1)) ++ elemsBody (x :: xs2) (d + 1)
                  ('\n' :: (indentL d ++ ']' :: rest)) from by simp,
                skipWSJ_wsLead ('\n' :: indentL (d + 1)) _ (by
                  intro c2 hc2
                  rcases List.mem_cons.mp hc2 with rfl | hc2
                  · rfl
                  · exact indentL_ws (d + 1) c2 hc2),
                hsuf, hm0, List.cons_append, skipWSJ_nonws c0 _ hws0]
          obtain ⟨vs, hvs⟩ := ihe (x :: xs2) (d + 1) ('\n' :: (indentL d ++ ']' :: rest)) rest
            hwfl (by
              simp only [szJ] at hsz
              omega) (by simp) hclose
          refine ⟨.arr vs, ?_⟩
          rw [marshal_arr_cons x xs2 d rest]
          unfold parseValue
          rw [skipWSJ_nonws '[' _ (by decide)]
          simp only []
          rw [if_neg (by decide : ¬('[' : Char) = 'n'), if_neg (by decide : ¬('[' : Char) = 't'),
              if_neg (by decide : ¬('[' : Char) = 'f'), if_neg (by decide : ¬('[' : Char) = '"'),
              if_pos trivial, hskip2,
              if_neg (show ¬((elemsBody (x :: xs2) (d + 1)
                  ('\n' :: (indentL d ++ ']' :: rest))).head? = some ']') from by
                rw [hsuf, hm0, List.cons_append]
                intro hh
                exact hbr0 (Option.some.inj hh)),
              hvs]
          rfl
      | obj fs =>
        cases fs with
        | nil =>
          refine ⟨.obj [], ?_⟩
          rw [show marshal0 (.obj []) d ++ rest = '{' :: '}' :: rest from rfl]
          unfold parseValue
          rw [skipWSJ_nonws '{' _ (by decide)]
          simp only []
          rw [if_neg (by decide : ¬('{' : Char) = 'n'), if_neg (by decide : ¬('{' : Char) = 't'),
              if_neg (by decide : ¬('{' : Char) = 'f'), if_neg (by decide : ¬('{' : Char) = '"'),
              if_neg (by decide : ¬('{' : Char) = '['), if_pos trivial,
              skipWSJ_nonws '}' _ (by decide),
              if_pos (show ('}' :: rest).head? = some '}' from rfl)]
          rfl
        | cons f fs2 =>
          obtain ⟨k, v⟩ := f
          have hwff : numWFF ((k, v) :: fs2) = true := by simpa [numWF] using hwf
          have hclose : skipWSJ ('\n' :: (indentL d ++ '}' :: rest)) = '}' :: rest := by
            rw [show ('\n' :: (indentL d ++ '}' :: rest)) =
                  ('\n' :: indentL d) ++ '}' :: rest from by simp,
                skipWSJ_wsLead ('\n' :: indentL d) _ (by
                  intro c2 hc2
                  rcases List.mem_cons.mp hc2 with rfl | hc2
                  · rfl
                  · exact indentL_ws d c2 hc2),
                skipWSJ_nonws '}' _ (by decide)]
          have hmbody : ∃ suf, membersBody ((k, v) :: fs2) (d + 1)
              ('\n' :: (indentL d ++ '}' :: rest)) = quoteStr k ++ suf := by
            cases fs2 with
            | nil =>
              exact ⟨':' :: ' ' :: (marshal0 v (d + 1) ++ '\n' :: (indentL d ++ '}' :: rest)),
                by simp only [membersBody]⟩
            | cons f2 t2 =>
              exact ⟨':' :: ' ' :: (marshal0 v (d + 1) ++ ',' :: '\n' ::
                (indentL (d + 1) ++ membersBody (f2 :: t2) (d + 1)
                  ('\n' :: (indentL d ++ '}' :: rest)))),
                by simp only [membersBody]⟩
          obtain ⟨suf, hsuf⟩ := hmbody
          have hskip2 : skipWSJ ('\n' :: (indentL (d + 1) ++ membersBody ((k, v) :: fs2) (d + 1)
              ('\n' :: (indentL d ++ '}' :: rest)))) =
              membersBody ((k, v) :: fs2) (d + 1) ('\n' :: (indentL d ++ '}' :: rest)) := by
            rw [show ('\n' :: (indentL (d + 1) ++ membersBody ((k, v) :: fs2) (d + 1)
                  ('\n' :: (indentL d ++ '}' :: rest)))) =
                ('\n' :: indentL (d + 1)) ++ membersBody ((k, v) :: fs2) (d + 1)
                  ('\n' :: (indentL d ++ '}' :: rest)) from by simp,
                skipWSJ_wsLead ('\n' :: indentL (d + 1)) _ (by
                  intro c2 hc2
                  rcases List.mem_cons.mp hc2 with rfl | hc2
                  · rfl
                  · exact indentL_ws (d + 1) c2 hc2),
                hsuf, quoteStr_append, skipWSJ_nonws '"' _ (by decide)]
          obtain ⟨ms, hms⟩ := ihm ((k, v) :: fs2) (d + 1) ('\n' :: (indentL d ++ '}' :: rest))
            rest hwff (by
              simp only [szJ] at hsz
              omega) (by simp) hclose
          refine ⟨.obj (ms.foldl upsertKey []), ?_⟩
          rw [marshal_obj_cons (k, v) fs2 d rest]
          unfold parseValue
          rw [skipWSJ_nonws '{' _ (by decide)]
          simp only []
          rw [if_neg (by decide : ¬('{' : Char) = 'n'), if_neg (by decide : ¬('{' : Char) = 't'),
              if_neg (by decide : ¬('{' : Char) = 'f'), if_neg (by decide : ¬('{' : Char) = '"'),
              if_neg (by decide : ¬('{' : Char) = '['), if_pos trivial, hskip2,
              if_neg (show ¬((membersBody ((k, v) :: fs2) (d + 1)
                  ('\n' :: (indentL d ++ '}' :: rest))).head? = some '}') from by
                rw [hsuf, quoteStr_append]
                intro hh
                exact absurd (Option.some.inj hh) (by decide)),
              hms]
          rfl
    · intro xs d close tail hwfl hsz hne hclose
      cases xs with
      | nil => exact absurd rfl hne
      | cons x xs2 =>
        simp only [numWFL, Bool.and_eq_true] at hwfl
        cases xs2 with
        | nil =>
          have hv := ihv x d close hwfl.1 (by simp only [szL] at hsz; omega)
            (noNumHead_of_skipWS close tail ']' hclose (by decide))
          obtain ⟨v, hv⟩ := hv
          refine ⟨[v], ?_⟩
          rw [show elemsBody [x] d close = marshal0 x d ++ close from by simp only [elemsBody]]
          unfold parseElems
          rw [hv]
          simp only []
          rw [hclose,
              if_neg (show ¬((']' :: tail).head? = some ',') from by
                intro hh
                exact absurd (Option.some.inj hh) (by decide)),
              if_pos (show (']' :: tail).head? = some ']' from rfl)]
          rfl
        | cons y ys =>
          have hv := ihv x d (',' :: '\n' :: (indentL d ++ elemsBody (y :: ys) d close))
            hwfl.1 (by simp only [szL] at hsz; omega) rfl
          obtain ⟨v, hv⟩ := hv
          have hrec := ihe (y :: ys) d close tail
            (by simpa only [numWFL, Bool.and_eq_true] using hwfl.2) (by
              simp only [szL] at hsz ⊢
              omega) (by simp) hclose
          obtain ⟨vs, hvs⟩ := hrec
          refine ⟨v :: vs, ?_⟩
          rw [show elemsBody (x :: y :: ys) d close =
                marshal0 x d ++ ',' :: '\n' :: (indentL d ++ elemsBody (y :: ys) d close)
              from by simp only [elemsBody]]
          unfold parseElems
          rw [hv]
          simp only []
          rw [skipWSJ_nonws ',' _ (by decide),
              if_pos (show ((',' :: '\n' :: (indentL d ++ elemsBody (y :: ys) d close)).head? =
                some ',') from rfl),
              show (',' :: '\n' :: (indentL d ++ elemsBody (y :: ys) d close)).tail =
                ('\n' :: indentL d) ++ elemsBody (y :: ys) d close from by simp,
              parseElems_ws n ('\n' :: indentL d) _ (by
                intro c2 hc2
                rcases List.mem_cons.mp hc2 with rfl | hc2
                · rfl
                · exact indentL_ws d c2 hc2),
              hvs]
          rfl
    · intro fs d close tail hwff hsz hne hclose
      cases fs with
      | nil => exact absurd rfl hne
      | cons f fs2 =>
        obtain ⟨k, v⟩ := f
        simp only [numWFF, Bool.and_eq_true] at hwff
        cases fs2 with
        | nil =>
          obtain ⟨tk, hk⟩ := parseStringBody_escape k
            (':' :: ' ' :: (marshal0 v d ++ close))
          have hv := ihv v d close hwff.1 (by simp only [szF] at hsz; omega)
            (noNumHead_of_skipWS close tail '}' hclose (by decide))
          obtain ⟨v2, hv⟩ := hv
          refine ⟨[(tk, v2)], ?_⟩
          rw [show membersBody [(k, v)] d close =
                quoteStr k ++ ':' :: ' ' :: (marshal0 v d ++ close)
              from by simp only [membersBody],
              quoteStr_append]
          unfold parseMembers
          rw [if_pos (show ('"' :: (escapeStr k ++
                ('"' :: (':' :: ' ' :: (marshal0 v d ++ close))))).head? = some '"' from rfl),
              show ('"' :: (escapeStr k ++
                ('"' :: (':' :: ' ' :: (marshal0 v d ++ close))))).tail =
                escapeStr k ++ ('"' :: (':' :: ' ' :: (marshal0 v d ++ close))) from rfl,
              hk]
          simp only []
          rw [skipWSJ_nonws ':' _ (by decide),
              if_pos (show ((':' :: ' ' :: (marshal0 v d ++ close))).head? = some ':' from rfl),
              show ((':' :: ' ' :: (marshal0 v d ++ close))).tail =
                [' '] ++ (marshal0 v d ++ close) from rfl,
              parseValue_ws n [' '] _ (by
                intro c2 hc2
                rcases List.mem_cons.mp hc2 with rfl | hc2
                · rfl
                · exact absurd hc2 (by simp)),
              hv]
          simp only []
          rw [hclose,
              if_neg (show ¬(('}' :: tail).head? = some ',') from by
                intro hh
                exact absurd (Option.some.inj hh) (by decide)),
              if_pos (show ('}' :: tail).head? = some '}' from rfl)]
          rfl
        | cons f2 t2 =>
          obtain ⟨k2, v2⟩ := f2
          obtain ⟨tk, hk⟩ := parseStringBody_escape k
            (':' :: ' ' :: (marshal0 v d ++ ',' :: '\n' ::
              (indentL d ++ membersBody ((k2, v2) :: t2) d close)))
          have hv := ihv v d (',' :: '\n' :: (indentL d ++ membersBody ((k2, v2) :: t2) d close))
            hwff.1 (by simp only [szF] at hsz; omega)
            (by simp [noNumHead, isNumChar, isDigitC])
          obtain ⟨v3, hv⟩ := hv
          have hrec := ihm ((k2, v2) :: t2) d close tail
            (by simpa only [numWFF, Bool.and_eq_true] using hwff.2) (by
              simp only [szF] at hsz ⊢
              omega) (by simp) hclose
          obtain ⟨ms, hms⟩ := hrec
          have hmb2 : ∃ suf2, membersBody ((k2, v2) :: t2) d close = quoteStr k2 ++ suf2 := by
            cases t2 with
            | nil => exact ⟨':' :: ' ' :: (marshal0 v2 d ++ close), by simp only [membersBody]⟩
            | cons f3 t3 =>
              exact ⟨':' :: ' ' :: (marshal0 v2 d ++ ',' :: '\n' ::
                (indentL d ++ membersBody (f3 :: t3) d close)), by simp only [membersBody]⟩
          obtain ⟨suf2, hsuf2⟩ := hmb2
          refine ⟨(tk, v3) :: ms, ?_⟩
          rw [show membersBody ((k, v) :: (k2, v2) :: t2) d close =
                quoteStr k ++ ':' :: ' ' :: (marshal0 v d ++ ',' :: '\n' ::
                  (indentL d ++ membersBody ((k2, v2) :: t2) d close))
              from by simp only [membersBody],
              quoteStr_append]
          unfold parseMembers
          rw [if_pos (show ('"' :: (escapeStr k ++ ('"' :: (':' :: ' ' :: (marshal0 v d ++
                ',' :: '\n' :: (indentL d ++ membersBody ((k2, v2) :: t2) d
                  close)))))).head? = some '"' from rfl),
              show ('"' :: (escapeStr k ++ ('"' :: (':' :: ' ' :: (marshal0 v d ++
                ',' :: '\n' :: (indentL d ++ membersBody ((k2, v2) :: t2) d
                  close)))))).tail =
                escapeStr k ++ ('"' :: (':' :: ' ' :: (marshal0 v d ++
                  ',' :: '\n' :: (indentL d ++ membersBody ((k2, v2) :: t2) d close))))
                from rfl,
              hk]
          simp only []
          rw [skipWSJ_nonws ':' _ (by decide),
              if_pos (show ((':' :: ' ' :: (marshal0 v d ++ ',' :: '\n' ::
                (indentL d ++ membersBody ((k2, v2) :: t2) d close)))).head? = some ':'
                from rfl),
              show ((':' :: ' ' :: (marshal0 v d ++ ',' :: '\n' ::
                (indentL d ++ membersBody ((k2, v2) :: t2) d close)))).tail =
                [' '] ++ (marshal0 v d ++ ',' :: '\n' ::
                  (indentL d ++ membersBody ((k2, v2) :: t2) d close)) from rfl,
              parseValue_ws n [' '] _ (by
                intro c2 hc2
                rcases List.mem_cons.mp hc2 with rfl | hc2
                · rfl
                · exact absurd hc2 (by simp)),
              hv]
          simp only []
          rw [skipWSJ_nonws ',' _ (by decide),
              if_pos (show ((',' :: '\n' :: (indentL d ++ membersBody ((k2, v2) :: t2) d
                close))).head? = some ',' from rfl),
              show ((',' :: '\n' :: (indentL d ++ membersBody ((k2, v2) :: t2) d
                close))).tail =
                ('\n' :: indentL d) ++ membersBody ((k2, v2) :: t2) d close from by simp,
              skipWSJ_wsLead ('\n' :: indentL d) _ (by
                intro c2 hc2
                rcases List.mem_cons.mp hc2 with rfl | hc2
                · rfl
                · exact indentL_ws d c2 hc2),
              hsuf2, quoteStr_append, skipWSJ_nonws '"' _ (by decide),
              ← quoteStr_append, ← hsuf2, hms]
          rfl

/-- `upsertKey` preserves number well-formedness. -/
theorem numWFF_upsertKey : ∀ (acc : List (Chars × Jval)) (e : Chars × Jval),
    numWFF acc = true → numWF e.2 = true → numWFF (upsertKey acc e) = true
  | [], e, _, hb => by simp [upsertKey, numWFF, hb]
  | (k, v) :: rest, e, hacc, hb => by
    simp only [numWFF, Bool.and_eq_true] at hacc
    unfold upsertKey
    by_cases hk : k = e.1
    · rw [if_pos hk]
      simp [numWFF, hb, hacc.2]
    · rw [if_neg hk]
      simp only [numWFF, Bool.and_eq_true]
      exact ⟨hacc.1, numWFF_upsertKey rest e hacc.2 hb⟩

/-- Folding members through `upsertKey` preserves number well-formedness. -/
theorem numWFF_foldl : ∀ (ms acc : List (Chars × Jval)),
    numWFF ms = true → numWFF acc = true → numWFF (ms.foldl upsertKey acc) = true
  | [], acc, _, hacc => by simpa using hacc
  | (k, v) :: rest, acc, hms, hacc => by
    simp only [numWFF, Bool.and_eq_true] at hms
    rw [List.foldl_cons]
    exact numWFF_foldl rest (upsertKey acc (k, v)) hms.2
      (numWFF_upsertKey acc (k, v) hacc hms.1)

/-- Every value produced by the parser has well-formed number lexemes. -/
theorem parse_numWF : ∀ fuel : Nat,
    (∀ cs v rest, parseValue fuel cs = some (v, rest) → numWF v = true) ∧
    (∀ cs vs rest, parseElems fuel cs = some (vs, rest) → numWFL vs = true) ∧
    (∀ cs ms rest, parseMembers fuel cs = some (ms, rest) → numWFF ms = true) := by
  intro fuel
  induction fuel with
  | zero =>
    refine ⟨?_, ?_, ?_⟩ <;> intro cs x rest h <;> exact Option.noConfusion h
  | succ n ih =>
    obtain ⟨ihv, ihe, ihm⟩ := ih
    refine ⟨?_, ?_, ?_⟩
    · intro cs v rest h
      unfold parseValue at h
      cases hsk : skipWSJ cs with
      | nil => rw [hsk] at h; exact Option.noConfusion h
      | cons c rest1 =>
        rw [hsk] at h
        simp only [] at h
        by_cases hn : c = 'n'
        · rw [if_pos hn] at h
          by_cases hu : startsWithL rest1 (("ull").data) = true
          · rw [if_pos hu] at h
            simp only [Option.some.injEq, Prod.mk.injEq] at h
            obtain ⟨hv, _⟩ := h
            subst hv
            rfl
          · rw [if_neg hu] at h; exact Option.noConfusion h
        · rw [if_neg hn] at h
          by_cases ht : c = 't'
          · rw [if_pos ht] at h
            by_cases hu : startsWithL rest1 (("rue").data) = true
            · rw [if_pos hu] at h
              simp only [Option.some.injEq, Prod.mk.injEq] at h
              obtain ⟨hv, _⟩ := h
              subst hv
              rfl
            · rw [if_neg hu] at h; exact Option.noConfusion h
          · rw [if_neg ht] at h
            by_cases hf : c = 'f'
            · rw [if_pos hf] at h
              by_cases hu : startsWithL rest1 (("alse").data) = true
              · rw [if_pos hu] at h
                simp only [Option.some.injEq, Prod.mk.injEq] at h
                obtain ⟨hv, _⟩ := h
                subst hv
                rfl
              · rw [if_neg hu] at h; exact Option.noConfusion h
            · rw [if_neg hf] at h
              by_cases hq : c = '"'
              · rw [if_pos hq] at h
                obtain ⟨p, _, heq⟩ := Option.map_eq_some'.mp h
                simp only [Prod.mk.injEq] at heq
                obtain ⟨hv, _⟩ := heq
                subst hv
                rfl
              · rw [if_neg hq] at h
                by_cases ha : c = '['
                · rw [if_pos ha] at h
                  by_cases he : (skipWSJ rest1).head? = some ']'
                  · rw [if_pos he] at h
                    simp only [Option.some.injEq, Prod.mk.injEq] at h
                    obtain ⟨hv, _⟩ := h
                    subst hv
                    rfl
                  · rw [if_neg he] at h
                    obtain ⟨p, hp, heq⟩ := Option.map_eq_some'.mp h
                    have hie := ihe (skipWSJ rest1) p.1 p.2 hp
                    simp only [Prod.mk.injEq] at heq
                    obtain ⟨hv, _⟩ := heq
                    subst hv
                    simpa [numWF] using hie
                · rw [if_neg ha] at h
                  by_cases ho : c = '{'
                  · rw [if_pos ho] at h
                    by_cases he : (skipWSJ rest1).head? = some '}'
                    · rw [if_pos he] at h
                      simp only [Option.some.injEq, Prod.mk.injEq] at h
                      obtain ⟨hv, _⟩ := h
                      subst hv
                      rfl
                    · rw [if_neg he] at h
                      obtain ⟨p, hp, heq⟩ := Option.map_eq_some'.mp h
                      have him := ihm (skipWSJ rest1) p.1 p.2 hp
                      simp only [Prod.mk.injEq] at heq
                      obtain ⟨hv, _⟩ := heq
                      subst hv
                      simp only [numWF]
                      exact numWFF_foldl p.1 [] him rfl
                  · rw [if_neg ho] at h
                    by_cases hnum : (decide (c = '-') || isDigitC c) = true
                    · rw [if_pos hnum] at h
                      by_cases hval :
                          numOK ((c :: rest1).takeWhile (fun x => isNumChar x)) = true
                      · rw [if_pos hval] at h
                        simp only [Option.some.injEq, Prod.mk.injEq] at h
                        obtain ⟨hv, _⟩ := h
                        subst hv
                        simp only [numWF, Bool.and_eq_true]
                        exact ⟨hval, List.all_eq_true.mpr
                          (fun x hx => List.mem_takeWhile_imp hx)⟩
                      · rw [if_neg hval] at h; exact Option.noConfusion h
                    · rw [if_neg hnum] at h; exact Option.noConfusion h
    · intro cs vs rest h
      unfold parseElems at h
      cases hpv : parseValue n cs with
      | none => rw [hpv] at h; exact Option.noConfusion h
      | some pr =>
        obtain ⟨v0, rest0⟩ := pr
        rw [hpv] at h
        simp only [] at h
        have hi0 := ihv cs v0 rest0 hpv
        by_cases hc : (skipWSJ rest0).head? = some ','
        · rw [if_pos hc] at h
          obtain ⟨p, hp, heq⟩ := Option.map_eq_some'.mp h
          have hie := ihe (skipWSJ rest0).tail p.1 p.2 hp
          simp only [Prod.mk.injEq] at heq
          obtain ⟨hv, _⟩ := heq
          subst hv
          simp only [numWFL, Bool.and_eq_true]
          exact ⟨hi0, hie⟩
        · rw [if_neg hc] at h
          by_cases hb2 : (skipWSJ rest0).head? = some ']'
          · rw [if_pos hb2] at h
            simp only [Option.some.injEq, Prod.mk.injEq] at h
            obtain ⟨hv, _⟩ := h
            subst hv
            simp only [numWFL, Bool.and_eq_true]
            exact ⟨hi0, trivial⟩
          · rw [if_neg hb2] at h; exact Option.noConfusion h
    · intro cs ms rest h
      unfold parseMembers at h
      by_cases hq : cs.head? = some '"'
      · rw [if_pos hq] at h
        cases hk : parseStringBody cs.tail with
        | none => rw [hk] at h; exact Option.noConfusion h
        | some kr =>
          obtain ⟨k, r1⟩ := kr
          rw [hk] at h
          simp only [] at h
          by_cases hcol : (skipWSJ r1).head? = some ':'
          · rw [if_pos hcol] at h
            cases hpv : parseValue n (skipWSJ r1).tail with
            | none => rw [hpv] at h; exact Option.noConfusion h
            | some vr =>
              obtain ⟨v, r3⟩ := vr
              rw [hpv] at h
              simp only [] at h
              have hi := ihv (skipWSJ r1).tail v r3 hpv
              by_cases hcm : (skipWSJ r3).head? = some ','
              · rw [if_pos hcm] at h
                obtain ⟨p, hp, heq⟩ := Option.map_eq_some'.mp h
                have him := ihm (skipWSJ (skipWSJ r3).tail) p.1 p.2 hp
                simp only [Prod.mk.injEq] at heq
                obtain ⟨hv, _⟩ := heq
                subst hv
                simp only [numWFF, Bool.and_eq_true]
                exact ⟨hi, him⟩
              · rw [if_neg hcm] at h
                by_cases hbr : (skipWSJ r3).head? = some '}'
                · rw [if_pos hbr] at h
                  simp only [Option.some.injEq, Prod.mk.injEq] at h
                  obtain ⟨hv, _⟩ := h
                  subst hv
                  simp only [numWFF, Bool.and_eq_true]
                  exact ⟨hi, trivial⟩
                · rw [if_neg hbr] at h; exact Option.noConfusion h
          · rw [if_neg hcol] at h; exact Option.noConfusion h
      · rw [if_neg hq] at h; exact Option.noConfusion h

/-- `jsonParse` only produces values with well-formed number lexemes. -/
theorem jsonParse_numWF (s : Chars) (v : Jval) (h : jsonParse s = some v) :
    numWF v = true := by
  unfold jsonParse at h
  cases hpv : parseValue (s.length + 1) s with
  | none => rw [hpv] at h; exact Option.noConfusion h
  | some pr =>
    obtain ⟨v0, rest⟩ := pr
    rw [hpv] at h
    simp only [] at h
    by_cases hws : (skipWSJ rest).isEmpty = true
    · rw [if_pos hws] at h
      have hv0 : v0 = v := Option.some.inj h
      subst hv0
      exact (parse_numWF (s.length + 1)).1 s v0 rest hpv
    · rw [if_neg hws] at h; exact Option.noConfusion h

/-- Sanitization preserves number well-formedness. -/
theorem sanitizeValue_numWF (cfg : SanitizerConfig) : ∀ fuel : Nat,
    (∀ v, numWF v = true → numWF (sanitizeValue cfg fuel v) = true) ∧
    (∀ l, numWFL l = true → numWFL (sanitizeElems cfg fuel l) = true) ∧
    (∀ fs, numWFF fs = true → numWFF (sanitizeFields cfg fuel fs) = true) := by
  intro fuel
  induction fuel with
  | zero =>
    refine ⟨?_, ?_, ?_⟩ <;> intro a h <;>
      simpa [sanitizeValue, sanitizeElems, sanitizeFields] using h
  | succ n ih =>
    obtain ⟨ihv, ihl, ihf⟩ := ih
    refine ⟨?_, ?_, ?_⟩
    · intro v h
      cases v with
      | null => simpa [sanitizeValue] using h
      | boolean b => simpa [sanitizeValue] using h
      | num lex => simpa [sanitizeValue] using h
      | str s =>
        rw [show sanitizeValue cfg (n + 1) (.str s) =
              (if looksLikeJSON s then .str (sanitizeJSON cfg n s)
               else .str (sanitizeText cfg s)) from by simp [sanitizeValue]]
        split <;> simp [numWF]
      | arr xs =>
        rw [show sanitizeValue cfg (n + 1) (.arr xs) = .arr (sanitizeElems cfg n xs)
              from by simp [sanitizeValue]]
        simp only [numWF]
        exact ihl xs (by simpa [numWF] using h)
      | obj fs =>
        rw [show sanitizeValue cfg (n + 1) (.obj fs) = .obj (sanitizeFields cfg n fs)
              from by simp [sanitizeValue]]
        simp only [numWF]
        exact ihf fs (by simpa [numWF] using h)
    · intro l h
      cases l with
      | nil => simp [sanitizeElems, numWFL]
      | cons v rest =>
        rw [show sanitizeElems cfg (n + 1) (v :: rest) =
              sanitizeValue cfg n v :: sanitizeElems cfg n rest from by simp [sanitizeElems]]
        simp only [numWFL, Bool.and_eq_true] at h ⊢
        exact ⟨ihv v h.1, ihl rest h.2⟩
    · intro fs h
      cases fs with
      | nil => simp [sanitizeFields, numWFF]
      | cons f rest =>
        obtain ⟨k, v⟩ := f
        rw [show sanitizeFields cfg (n + 1) ((k, v) :: rest) =
              (if isSensitiveField cfg k then (k, .str cfg.mask)
               else (k, sanitizeValue cfg n v)) :: sanitizeFields cfg n rest
              from by simp [sanitizeFields]]
        simp only [numWFF, Bool.and_eq_true] at h
        by_cases hs : isSensitiveField cfg k = true
        · rw [if_pos hs]
          simp only [numWFF, Bool.and_eq_true]
          exact ⟨by simp [numWF], ihf rest h.2⟩
        · rw [if_neg hs]
          simp only [numWFF, Bool.and_eq_true]
          exact ⟨ihv v h.1, ihf rest h.2⟩

/-- Membership characterization of `numWFF`. -/
theorem numWFF_iff_mem : ∀ l : List (Chars × Jval),
    (numWFF l = true ↔ ∀ e ∈ l, numWF e.2 = true)
  | [] => by simp [numWFF]
  | (k, v) :: rest => by
    simp only [numWFF, Bool.and_eq_true, numWFF_iff_mem rest, List.mem_cons]
    constructor
    · rintro ⟨h1, h2⟩ e (rfl | he)
      · exact h1
      · exact h2 e he
    · intro h
      exact ⟨h (k, v) (Or.inl rfl), fun e he => h e (Or.inr he)⟩

mutual

/-- Key sorting preserves number well-formedness. -/
theorem sortJ_numWF : ∀ v, numWF v = true → numWF (sortJ v) = true
  | .null, h => by simpa [sortJ] using h
  | .boolean b, h => by simpa [sortJ] using h
  | .num lex, h => by simpa [sortJ] using h
  | .str s, h => by simpa [sortJ] using h
  | .arr xs, h => by
    rw [show sortJ (.arr xs) = .arr (sortJElems xs) from by simp [sortJ]]
    simp only [numWF]
    exact sortJElems_numWF xs (by simpa [numWF] using h)
  | .obj fs, h => by
    rw [show sortJ (.obj fs) = .obj (sortFields (sortJFields fs)) from by simp [sortJ]]
    simp only [numWF]
    have h2 : numWFF (sortJFields fs) = true :=
      sortJFields_numWF fs (by simpa [numWF] using h)
    rw [numWFF_iff_mem]
    intro e he
    exact (numWFF_iff_mem _).mp h2 e ((sortFields_perm _).mem_iff.mp he)

/-- Element analogue of `sortJ_numWF`. -/
theorem sortJElems_numWF : ∀ xs, numWFL xs = true → numWFL (sortJElems xs) = true
  | [], _ => by simp [sortJElems, numWFL]
  | x :: rest, h => by
    rw [show sortJElems (x :: rest) = sortJ x :: sortJElems rest from by simp [sortJElems]]
    simp only [numWFL, Bool.and_eq_true] at h ⊢
    exact ⟨sortJ_numWF x h.1, sortJElems_numWF rest h.2⟩

/-- Field analogue of `sortJ_numWF`. -/
theorem sortJFields_numWF : ∀ fs, numWFF fs = true → numWFF (sortJFields fs) = true
  | [], _ => by simp [sortJFields, numWFF]
  | (k, v) :: rest, h => by
    rw [show sortJFields ((k, v) :: rest) = (k, sortJ v) :: sortJFields rest
          from by simp [sortJFields]]
    simp only [numWFF, Bool.and_eq_true] at h ⊢
    exact ⟨sortJ_numWF v h.1, sortJFields_numWF rest h.2⟩

end

/-- The sanitized re-marshalling of any well-formed value parses again. -/
theorem marshalTop_valid (cfg : SanitizerConfig) (g : Nat) (v : Jval)
    (hwf : numWF v = true) :
    (jsonParse (marshalTop (sanitizeValue cfg g v))).isSome = true := by
  have hwf1 : numWF (sanitizeValue cfg g v) = true := (sanitizeValue_numWF cfg g).1 v hwf
  have hwf2 : numWF (sortJ (sanitizeValue cfg g v)) = true := sortJ_numWF _ hwf1
  have hsz := szJ_le_marshal (sortJ (sanitizeValue cfg g v)) 0 hwf2
  obtain ⟨v2, hv2⟩ :=
    (marshal_parse ((marshal0 (sortJ (sanitizeValue cfg g v)) 0).length + 1)).1
      (sortJ (sanitizeValue cfg g v)) 0 [] hwf2 (by omega) rfl
  rw [List.append_nil] at hv2
  rw [show marshalTop (sanitizeValue cfg g v) =
        marshal0 (sortJ (sanitizeValue cfg g v)) 0 from rfl]
  unfold jsonParse
  rw [hv2]
  simp [skipWSJ]

/-- When no default rule fires, `SanitizeBody` is the format dispatch (shared
reduction for the validity claim). -/
theorem sanitizeBody_dispatch (body contentType : Chars) (h0 : body ≠ [])
    (hbin : isBinaryContent contentType = false)
    (hb64 : 1024 < body.length → looksLikeBase64 body = false)
    (hlen : body.length ≤ 100 * 1024) :
    SanitizeBody DefaultSanitizerConfig body contentType =
      dispatchFormat DefaultSanitizerConfig body contentType := by
  have hne : body.isEmpty = false := by
    cases body with
    | nil => exact absurd rfl h0
    | cons a t => rfl
  have h2 : (decide (1024 < body.length) && looksLikeBase64 body) = false := by
    rcases Nat.lt_or_ge 1024 body.length with hlt | hge
    · rw [hb64 hlt, Bool.and_false]
    · rw [decide_eq_false (by omega), Bool.false_and]
  unfold SanitizeBody
  show (sanitizeBodyF DefaultSanitizerConfig (1 + 1) body _).getD [] = _
  simp only [sanitizeBodyF, hne, Bool.false_eq_true, if_false]
  rw [show DefaultSanitizerConfig.bodyRules = defaultBodyRules from rfl]
  unfold defaultBodyRules
  simp only [goRules, hbin, Bool.false_eq_true, if_false, h2,
    decide_eq_false (show ¬(500 * 1024 < body.length) from by omega), Bool.false_and,
    decide_eq_false (show ¬(100 * 1024 < body.length) from by omega)]
  rfl

/-- C1, counterexample, two failure paths of the claim.  (1) The valid JSON
body `\x7b\x7d` declared as `image/png` is replaced by the binary-skip
notice, which is not valid JSON — the claim's "any content type" fails
because the binary rule runs before the JSON sanitizer.  (2) The body
`\x7b"a":1e999,"n":4111111111111111\x7d` declared as `application/json` is
valid JSON text, but `1e999` overflows `float64`, so `json.Unmarshal` fails
with a range error and `sanitizeJSON` falls back to `sanitizeText`, whose
capture-group-free card pattern rewrites the second number to
`\x7b"a":1e999,"n":***REDACTED***\x7d` — again not valid JSON. -/
theorem c1_counterexample :
    jsonParse (("\x7b\x7d").data) = some (.obj []) ∧
    SanitizeBody DefaultSanitizerConfig (("\x7b\x7d").data) (("image/png").data) =
      ("[Binary content - not logged]").data ∧
    jsonParse (SanitizeBody DefaultSanitizerConfig (("\x7b\x7d").data)
      (("image/png").data)) = none ∧
    validNumLex (("1e999").data) = true ∧
    floatInRange (("1e999").data) = false ∧
    jsonParse (("\x7b\"a\":1e999,\"n\":4111111111111111\x7d").data) = none ∧
    SanitizeBody DefaultSanitizerConfig
      (("\x7b\"a\":1e999,\"n\":4111111111111111\x7d").data)
      (("application/json").data) =
      ("\x7b\"a\":1e999,\"n\":***REDACTED***\x7d").data ∧
    jsonParse (("\x7b\"a\":1e999,\"n\":***REDACTED***\x7d").data) = none :=
  ⟨rfl, by decide, rfl, by decide, by decide, rfl, by decide, rfl⟩

/-- C1 (amended): under the default configuration, `SanitizeBody` returns
syntactically valid JSON for every body `json.Unmarshal` accepts (valid JSON
whose numbers are all within `float64` range — `jsonParse body = some v`
models exactly that) PROVIDED the input is routed to the JSON sanitizer and
no body rule fires: the declared type must not be binary, the body must not
sniff as base64 above 1 KiB, the size must be at most 100 KiB, and the
declared type or the body bytes must select JSON.  (Without these provisos,
or with a number that overflows `float64`, the claim fails: see the
counterexample.) -/
theorem c1_amended (body contentType : Chars) (v : Jval)
    (h1 : jsonParse body = some v)
    (h2 : (isJSON contentType || looksLikeJSON body) = true)
    (h3 : isBinaryContent contentType = false)
    (h4 : 1024 < body.length → looksLikeBase64 body = false)
    (h5 : body.length ≤ 100 * 1024) :
    (jsonParse (SanitizeBody DefaultSanitizerConfig body contentType)).isSome = true := by
  have h0 : body ≠ [] := by
    intro hb
    subst hb
    rw [show jsonParse [] = none from rfl] at h1
    exact Option.noConfusion h1
  rw [sanitizeBody_dispatch body contentType h0 h3 h4 h5]
  unfold dispatchFormat
  rw [if_pos h2]
  have hpos : 0 < jsonFuel body := Nat.mul_pos (by omega) (by omega)
  obtain ⟨g, hg⟩ : ∃ g, jsonFuel body = g + 1 := ⟨jsonFuel body - 1, by omega⟩
  rw [hg,
      show sanitizeJSON DefaultSanitizerConfig (g + 1) body =
        (match jsonParse body with
         | none => sanitizeText DefaultSanitizerConfig body
         | some v => marshalTop (sanitizeValue DefaultSanitizerConfig g v))
      from by simp [sanitizeJSON],
      h1]
  simp only []
  exact marshalTop_valid DefaultSanitizerConfig g v (jsonParse_numWF body v h1)

/-- C1, witness: a small valid JSON object body declared as JSON re-parses
after sanitization. -/
theorem c1_witness :
    jsonParse (("\x7b\"a\": 12\x7d").data) =
      some (.obj [(("a").data, .num (("12").data))]) ∧
    (jsonParse (SanitizeBody DefaultSanitizerConfig (("\x7b\"a\": 12\x7d").data)
      (("application/json").data))).isSome = true :=
  ⟨rfl, c1_amended _ _ (.obj [(("a").data, .num (("12").data))]) rfl (by decide) (by decide)
    (fun h => absurd h (by decide)) (by decide)⟩

end Httpclient
